import Mathlib

/-!
# Bank transaction ledger (`bank_ledger.c`)

A shallow embedding of the transaction engine of `bank_ledger.c`: the account
table, the pending queue, the success stack, the audit log, and the commands
`CREATE_ACCOUNT`, `TXN`, `PROCESS`, `ROLLBACK` and `BALANCE`.

Conventions of the embedding.

* The global variables of the C program are the fields of `Ledger`; every
  command is a function from `Ledger` to `Ledger` (with an outcome where the
  program prints one).
* In the first part `long long` and `int` values are unbounded integers
  (`Int`). The namespace `Machine` repeats the commands that compute with them
  on 64-bit and 32-bit two's complement values; the properties that depend on
  the width of the C types are stated about those.
* A pointer into `accounts[]` is the index of the slot.
* The linked lists are Lean lists: the queue from `front` to `rear`, the stack
  from the top down, the audit log from `audit_head` to `audit_tail`.
* C strings are `String`s, one `Char` for each `char`; copying into a
  `char[N]` buffer keeps the first `N - 1` characters.
* Text written with `printf` is not part of the state; where a command reports
  an outcome, the function returns it next to the new state.
-/

namespace BankLedger

/-! ## Data structures -/

def MAX_ACCOUNTS : Nat := 100

def MAX_ID_LEN : Nat := 32

/-- Size of the `message` buffer of an audit node (`char message[128]`). -/
def MSG_LEN : Nat := 128

structure Account where
  id : String
  balance : Int
  in_use : Bool
  deriving DecidableEq, Repr

inductive TxnType where
  | TXN_DEPOSIT
  | TXN_WITHDRAW
  | TXN_TRANSFER
  deriving DecidableEq, Repr

structure Transaction where
  txn_id : Int
  type : TxnType
  from_id : String
  to_id : String
  amount : Int
  deriving DecidableEq, Repr

inductive AuditStatus where
  | AUDIT_SUCCESS
  | AUDIT_FAIL
  | AUDIT_ROLLED_BACK
  deriving DecidableEq, Repr

structure AuditNode where
  index : Int
  txn : Transaction
  status : AuditStatus
  message : String
  deriving DecidableEq, Repr

/-- The global state of the program. -/
structure Ledger where
  accounts : List Account
  account_count : Int
  txn_queue : List Transaction
  success_stack : List Transaction
  audit : List AuditNode
  audit_count : Int
  next_txn_id : Int
  deriving DecidableEq, Repr

/-- The state at program start: 100 zero-initialised slots, empty queue, stack
and log, `next_txn_id = 1`. -/
def empty_ledger : Ledger :=
  { accounts := List.replicate MAX_ACCOUNTS { id := "", balance := 0, in_use := false }
    account_count := 0
    txn_queue := []
    success_stack := []
    audit := []
    audit_count := 0
    next_txn_id := 1 }

/-! ## Utility functions -/

/-- Copy of a C string into a buffer of `size` bytes, as done by
`strncpy(dst, src, size - 1); dst[size - 1] = 0` and by `snprintf(dst, size, ..)`:
the first `size - 1` characters are kept. -/
def copy_str (size : Nat) (src : String) : String :=
  ⟨src.data.take (size - 1)⟩

/-- Linear scan of `find_account`: index of the first slot that is in use and
whose id equals `id`. -/
def find_account : List Account → String → Option Nat
  | [], _ => none
  | a :: rest, id =>
    if a.in_use = true ∧ a.id = id then some 0
    else (find_account rest id).map (· + 1)

/-- The first slot that is not in use (the free-slot loop of
`cmd_create_account`). -/
def find_free : List Account → Option Nat
  | [] => none
  | a :: rest => if a.in_use = false then some 0 else (find_free rest).map (· + 1)

/-- The statement `accounts[i].balance += d`. -/
def add_balance : List Account → Nat → Int → List Account
  | [], _, _ => []
  | a :: rest, 0, d => { a with balance := a.balance + d } :: rest
  | a :: rest, i + 1, d => a :: add_balance rest i d

/-- Reads `accounts[i].balance`. -/
def balance_at : List Account → Nat → Int
  | [], _ => 0
  | a :: _, 0 => a.balance
  | _ :: rest, i + 1 => balance_at rest i

/-- Writes slot `idx` in `cmd_create_account`. -/
def set_account : List Account → Nat → Account → List Account
  | [], _, _ => []
  | _ :: rest, 0, b => b :: rest
  | a :: rest, i + 1, b => a :: set_account rest i b

inductive CreateOutcome where
  | created
  | already_exists
  | table_full
  deriving DecidableEq, Repr

def cmd_create_account (id : String) (initial_balance : Int) (s : Ledger) :
    Ledger × CreateOutcome :=
  match find_account s.accounts id with
  | some _ => (s, .already_exists)
  | none =>
    match find_free s.accounts with
    | none => (s, .table_full)
    | some idx =>
      ({ s with
          accounts := set_account s.accounts idx
            { id := copy_str MAX_ID_LEN id, balance := initial_balance, in_use := true }
          account_count := s.account_count + 1 }, .created)

/-! ## Queue, stack and audit log -/

def enqueue (txn : Transaction) (s : Ledger) : Ledger :=
  { s with txn_queue := s.txn_queue ++ [txn] }

def push_success (txn : Transaction) (s : Ledger) : Ledger :=
  { s with success_stack := txn :: s.success_stack }

def append_audit (txn : Transaction) (status : AuditStatus) (message : String)
    (s : Ledger) : Ledger :=
  { s with
    audit_count := s.audit_count + 1
    audit := s.audit ++
      [{ index := s.audit_count + 1, txn := txn, status := status,
         message := copy_str MSG_LEN message }] }

/-- The text `"Rolled back transaction %d"`. -/
def rolled_back_message (txn_id : Int) : String :=
  copy_str MSG_LEN ("Rolled back transaction " ++ toString txn_id)

/-- The loop of `mark_rolled_back` over the audit list. -/
def mark_nodes : List AuditNode → Int → List AuditNode
  | [], _ => []
  | cur :: rest, txn_id =>
    if cur.txn.txn_id = txn_id ∧ cur.status = .AUDIT_SUCCESS then
      { cur with status := .AUDIT_ROLLED_BACK, message := rolled_back_message txn_id } :: rest
    else cur :: mark_nodes rest txn_id

def mark_rolled_back (txn_id : Int) (s : Ledger) : Ledger :=
  { s with audit := mark_nodes s.audit txn_id }

/-! ## Processing logic -/

def parse_type (type_str : String) : Option TxnType :=
  if type_str = "DEPOSIT" then some .TXN_DEPOSIT
  else if type_str = "WITHDRAW" then some .TXN_WITHDRAW
  else if type_str = "TRANSFER" then some .TXN_TRANSFER
  else none

/-- The characters that `isspace` accepts in the C locale. -/
def is_space (c : Char) : Bool :=
  c = ' ' || c = '\t' || c = '\n' || c = '\r' || c.toNat = 11 || c.toNat = 12

/-- Digit loop of the C library function `atoll`. -/
def atoll_digits : List Char → Int → Int
  | [], acc => acc
  | c :: cs, acc =>
    if c.isDigit then atoll_digits cs (acc * 10 + ((c.toNat : Int) - 48)) else acc

/-- The C library function `atoll`: leading white space, an optional sign,
then decimal digits up to the first other character; 0 when there is no digit.
Values are unbounded. -/
def atoll (str : String) : Int :=
  match str.data.dropWhile is_space with
  | '-' :: cs => - atoll_digits cs 0
  | '+' :: cs => atoll_digits cs 0
  | cs => atoll_digits cs 0

inductive TxnOutcome where
  | queued (txn_id : Int)
  | invalid_command
  | invalid_type
  | invalid_format
  deriving DecidableEq, Repr

/-- The `TXN` command, `cmd_txn(tokens, count)` with `count = tokens.length`;
`tokens[0]` is the command word. The id is taken from `next_txn_id` before the
format of the line is checked. -/
def cmd_txn (tokens : List String) (s : Ledger) : Ledger × TxnOutcome :=
  if tokens.length < 4 then (s, .invalid_command)
  else
    match parse_type (tokens.getD 1 "") with
    | none => (s, .invalid_type)
    | some type =>
      let txn : Transaction :=
        { txn_id := s.next_txn_id, type := type, amount := 0, from_id := "", to_id := "" }
      let s1 : Ledger := { s with next_txn_id := s.next_txn_id + 1 }
      match type with
      | .TXN_TRANSFER =>
        if tokens.length ≠ 5 then (s1, .invalid_format)
        else
          let txn := { txn with
            from_id := copy_str MAX_ID_LEN (tokens.getD 2 "")
            to_id := copy_str MAX_ID_LEN (tokens.getD 3 "")
            amount := atoll (tokens.getD 4 "") }
          (enqueue txn s1, .queued txn.txn_id)
      | _ =>
        if tokens.length ≠ 4 then (s1, .invalid_format)
        else
          let txn := { txn with
            from_id := copy_str MAX_ID_LEN (tokens.getD 2 "")
            amount := atoll (tokens.getD 3 "") }
          (enqueue txn s1, .queued txn.txn_id)

inductive ProcessOutcome where
  | nothing_pending
  | failure
  | success
  deriving DecidableEq, Repr

/-- The `PROCESS` command. The outcome is the kind of line the program prints
(`No transactions to process.`, `Failure: ..`, `Success: ..`). -/
def cmd_process (s : Ledger) : Ledger × ProcessOutcome :=
  match s.txn_queue with
  | [] => (s, .nothing_pending)
  | txn :: rest =>
    let s : Ledger := { s with txn_queue := rest }
    match txn.type with
    | .TXN_DEPOSIT =>
      match find_account s.accounts txn.from_id with
      | none =>
        (append_audit txn .AUDIT_FAIL
          (copy_str MSG_LEN ("Account " ++ txn.from_id ++ " not found")) s, .failure)
      | some src =>
        let accounts := add_balance s.accounts src txn.amount
        let msg := copy_str MSG_LEN ("Balance: " ++ toString (balance_at accounts src))
        (push_success txn (append_audit txn .AUDIT_SUCCESS msg { s with accounts := accounts }),
          .success)
    | .TXN_WITHDRAW =>
      match find_account s.accounts txn.from_id with
      | none =>
        (append_audit txn .AUDIT_FAIL
          (copy_str MSG_LEN ("Account " ++ txn.from_id ++ " not found")) s, .failure)
      | some src =>
        if balance_at s.accounts src < txn.amount then
          (append_audit txn .AUDIT_FAIL (copy_str MSG_LEN "Insufficient funds") s, .failure)
        else
          let accounts := add_balance s.accounts src (- txn.amount)
          let msg := copy_str MSG_LEN ("Balance: " ++ toString (balance_at accounts src))
          (push_success txn
            (append_audit txn .AUDIT_SUCCESS msg { s with accounts := accounts }), .success)
    | .TXN_TRANSFER =>
      match find_account s.accounts txn.from_id, find_account s.accounts txn.to_id with
      | some src, some dst =>
        if balance_at s.accounts src < txn.amount then
          (append_audit txn .AUDIT_FAIL (copy_str MSG_LEN "Insufficient funds") s, .failure)
        else
          let accounts := add_balance (add_balance s.accounts src (- txn.amount)) dst txn.amount
          let msg := copy_str MSG_LEN
            ("A1: " ++ toString (balance_at accounts src) ++ ", A2: " ++
              toString (balance_at accounts dst))
          (push_success txn
            (append_audit txn .AUDIT_SUCCESS msg { s with accounts := accounts }), .success)
      | _, _ =>
        (append_audit txn .AUDIT_FAIL (copy_str MSG_LEN "Account not found") s, .failure)

/-- Body of the `for` loop of `cmd_rollback` after `pop_success` returned `txn`:
the inverse mutation, then `mark_rolled_back`. -/
def rollback_txn (txn : Transaction) (s : Ledger) : Ledger :=
  let s : Ledger :=
    match txn.type with
    | .TXN_DEPOSIT =>
      match find_account s.accounts txn.from_id with
      | some src => { s with accounts := add_balance s.accounts src (- txn.amount) }
      | none => s
    | .TXN_WITHDRAW =>
      match find_account s.accounts txn.from_id with
      | some src => { s with accounts := add_balance s.accounts src txn.amount }
      | none => s
    | .TXN_TRANSFER =>
      match find_account s.accounts txn.from_id, find_account s.accounts txn.to_id with
      | some src, some dst =>
        { s with
          accounts := add_balance (add_balance s.accounts src txn.amount) dst (- txn.amount) }
      | _, _ => s
  mark_rolled_back txn.txn_id s

/-- The `for (i = 0; i < n; i++)` loop of `cmd_rollback`, with `n - i`
iterations left. -/
def rollback_loop : Nat → Ledger → Ledger
  | 0, s => s
  | k + 1, s =>
    match s.success_stack with
    | [] => s
    | txn :: rest => rollback_loop k (rollback_txn txn { s with success_stack := rest })

/-- The `ROLLBACK n` command. -/
def cmd_rollback (n : Int) (s : Ledger) : Ledger :=
  if n ≤ 0 then s else rollback_loop n.toNat s

/-- The `BALANCE` command: the balance printed, `none` for
`Error: Account .. not found.` -/
def cmd_balance (id : String) (s : Ledger) : Option Int :=
  (find_account s.accounts id).map (balance_at s.accounts)

/-! ## Derived notions used in the statements -/

/-- Sum of the balances of the slots that are in use. -/
def total_balance : List Account → Int
  | [] => 0
  | a :: rest => (if a.in_use = true then a.balance else 0) + total_balance rest

/-- The checks of `cmd_process` that lead to the success branch for `t`. -/
def can_apply (accounts : List Account) (t : Transaction) : Bool :=
  match t.type with
  | .TXN_DEPOSIT => (find_account accounts t.from_id).isSome
  | .TXN_WITHDRAW =>
    match find_account accounts t.from_id with
    | some src => decide (t.amount ≤ balance_at accounts src)
    | none => false
  | .TXN_TRANSFER =>
    match find_account accounts t.from_id, find_account accounts t.to_id with
    | some src, some _ => decide (t.amount ≤ balance_at accounts src)
    | _, _ => false

/-- The balance mutation of the success branch of `cmd_process`. -/
def apply_txn (accounts : List Account) (t : Transaction) : List Account :=
  match t.type with
  | .TXN_DEPOSIT =>
    match find_account accounts t.from_id with
    | some src => add_balance accounts src t.amount
    | none => accounts
  | .TXN_WITHDRAW =>
    match find_account accounts t.from_id with
    | some src => add_balance accounts src (- t.amount)
    | none => accounts
  | .TXN_TRANSFER =>
    match find_account accounts t.from_id, find_account accounts t.to_id with
    | some src, some dst => add_balance (add_balance accounts src (- t.amount)) dst t.amount
    | _, _ => accounts

/-- The inverse mutation of `cmd_rollback` for one popped transaction. -/
def undo_txn (accounts : List Account) (t : Transaction) : List Account :=
  match t.type with
  | .TXN_DEPOSIT =>
    match find_account accounts t.from_id with
    | some src => add_balance accounts src (- t.amount)
    | none => accounts
  | .TXN_WITHDRAW =>
    match find_account accounts t.from_id with
    | some src => add_balance accounts src t.amount
    | none => accounts
  | .TXN_TRANSFER =>
    match find_account accounts t.from_id, find_account accounts t.to_id with
    | some src, some dst => add_balance (add_balance accounts src t.amount) dst (- t.amount)
    | _, _ => accounts

/-- State after one `PROCESS` command. -/
def process_next (s : Ledger) : Ledger := (cmd_process s).1

/-- Net amount a successfully applied transaction adds to the total balance. -/
def net_change (t : Transaction) : Int :=
  match t.type with
  | .TXN_DEPOSIT => t.amount
  | .TXN_WITHDRAW => - t.amount
  | .TXN_TRANSFER => 0

/-- The transactions that the next `n` `PROCESS` commands apply with outcome
`success`, in the order of processing. -/
def successes : Nat → Ledger → List Transaction
  | 0, _ => []
  | n + 1, s =>
    match s.txn_queue with
    | [] => []
    | t :: _ =>
      (if (cmd_process s).2 = .success then [t] else []) ++ successes n (process_next s)

/-- Sum of the amounts of the transactions of kind `k` in a list. -/
def amount_sum (k : TxnType) (l : List Transaction) : Int :=
  ((l.filter (fun t => t.type = k)).map (fun t => t.amount)).sum

/-- The ledger after `CREATE_ACCOUNT A 100` and `CREATE_ACCOUNT B 0`. -/
def scenario_accounts : Ledger :=
  (cmd_create_account "B" 0 (cmd_create_account "A" 100 empty_ledger).1).1

/-- The scenario after `TXN DEPOSIT A 50`, `TXN WITHDRAW A 30` and
`TXN TRANSFER A B 40`. -/
def scenario_submitted : Ledger :=
  (cmd_txn ["TXN", "TRANSFER", "A", "B", "40"]
    (cmd_txn ["TXN", "WITHDRAW", "A", "30"]
      (cmd_txn ["TXN", "DEPOSIT", "A", "50"] scenario_accounts).1).1).1

/-- The scenario after three `PROCESS` commands. -/
def scenario_processed : Ledger :=
  process_next (process_next (process_next scenario_submitted))

/-- State after one `TXN` command. -/
def submit (tokens : List String) (s : Ledger) : Ledger := (cmd_txn tokens s).1

/-- A `TXN` command line of the shape the program queues: a type word followed
by account and amount for `DEPOSIT` and `WITHDRAW`, by two accounts and an amount
for `TRANSFER`. -/
def well_formed (tokens : List String) : Prop :=
  ((parse_type (tokens.getD 1 "") = some .TXN_DEPOSIT ∨
      parse_type (tokens.getD 1 "") = some .TXN_WITHDRAW) ∧ tokens.length = 4) ∨
    (parse_type (tokens.getD 1 "") = some .TXN_TRANSFER ∧ tokens.length = 5)

instance (tokens : List String) : Decidable (well_formed tokens) := by
  unfold well_formed
  infer_instance

/-- The transaction a well-formed `TXN` line stands for when it is given the id
`id`. -/
def submitted_txn (id : Int) (tokens : List String) : Transaction :=
  match parse_type (tokens.getD 1 "") with
  | some .TXN_TRANSFER =>
    { txn_id := id, type := .TXN_TRANSFER,
      from_id := copy_str MAX_ID_LEN (tokens.getD 2 ""),
      to_id := copy_str MAX_ID_LEN (tokens.getD 3 ""),
      amount := atoll (tokens.getD 4 "") }
  | some .TXN_WITHDRAW =>
    { txn_id := id, type := .TXN_WITHDRAW,
      from_id := copy_str MAX_ID_LEN (tokens.getD 2 ""), to_id := "",
      amount := atoll (tokens.getD 3 "") }
  | _ =>
    { txn_id := id, type := .TXN_DEPOSIT,
      from_id := copy_str MAX_ID_LEN (tokens.getD 2 ""), to_id := "",
      amount := atoll (tokens.getD 3 "") }

/-- The transactions of a list of well-formed `TXN` lines, numbered from `id`. -/
def submitted_txns : Int → List (List String) → List Transaction
  | _, [] => []
  | id, x :: rest => submitted_txn id x :: submitted_txns (id + 1) rest

/-- The conditions under which a transaction is to succeed: a deposit whose
account exists, a withdrawal whose account exists with a balance of at least the
amount, a transfer whose two accounts exist with a source balance of at least
the amount. -/
def success_condition (s : Ledger) (t : Transaction) : Prop :=
  (t.type = .TXN_DEPOSIT ∧ cmd_balance t.from_id s ≠ none) ∨
    (t.type = .TXN_WITHDRAW ∧ ∃ b, cmd_balance t.from_id s = some b ∧ t.amount ≤ b) ∨
    (t.type = .TXN_TRANSFER ∧ cmd_balance t.to_id s ≠ none ∧
      ∃ b, cmd_balance t.from_id s = some b ∧ t.amount ≤ b)

/-- A transfer from the existing account A to the unknown account `zz`. -/
def failing_transfer_state : Ledger :=
  submit ["TXN", "TRANSFER", "A", "zz", "40"] scenario_accounts

/-- The invariant of the queue, the stack and the audit log that every command
preserves. -/
structure Consistent (s : Ledger) : Prop where
  numbering : ∀ (i : Nat) (e : AuditNode), s.audit[i]? = some e → e.index = (i : Int) + 1
  count : s.audit_count = (s.audit.length : Int)
  history : (s.audit.filter (fun e => e.status = .AUDIT_SUCCESS)).map (fun e => e.txn) =
    s.success_stack.reverse
  ids_nodup : (s.audit.map (fun e => e.txn.txn_id)).Nodup
  queue_sorted : s.txn_queue.Pairwise (fun a b => a.txn_id < b.txn_id)
  queue_lt_next : ∀ t ∈ s.txn_queue, t.txn_id < s.next_txn_id
  audit_lt_next : ∀ e ∈ s.audit, e.txn.txn_id < s.next_txn_id
  audit_lt_queue : ∀ e ∈ s.audit, ∀ t ∈ s.txn_queue, e.txn.txn_id < t.txn_id

/-- The permitted change of an audit entry: none, or Success to RolledBack. -/
def amended_or_same (e e₁ : AuditNode) : Prop :=
  e₁ = e ∨ (e.status = .AUDIT_SUCCESS ∧
    e₁ = { e with status := .AUDIT_ROLLED_BACK,
                  message := rolled_back_message e.txn.txn_id })

/-- The states of correct operation: accounts are created with a balance of at
least 0 and every queued amount is at least 0. -/
inductive ReachableNonneg : Ledger → Prop where
  | init : ReachableNonneg empty_ledger
  | create (s : Ledger) (id : String) (initial_balance : Int) :
      0 ≤ initial_balance → ReachableNonneg s →
        ReachableNonneg (cmd_create_account id initial_balance s).1
  | txn (s : Ledger) (tokens : List String) :
      (well_formed tokens → 0 ≤ (submitted_txn s.next_txn_id tokens).amount) →
        ReachableNonneg s → ReachableNonneg (cmd_txn tokens s).1
  | process (s : Ledger) : ReachableNonneg s → ReachableNonneg (cmd_process s).1
  | rollback (s : Ledger) (n : Int) : ReachableNonneg s → ReachableNonneg (cmd_rollback n s)

/-- The slots in use come before the free slots. -/
def in_use_first : List Account → Prop
  | [] => True
  | a :: rest => (a.in_use = true ∧ in_use_first rest) ∨ ∀ b ∈ a :: rest, b.in_use = false

/-- The accounts of a transaction are in the table. -/
def accounts_found (accounts : List Account) (t : Transaction) : Prop :=
  find_account accounts t.from_id ≠ none ∧
    (t.type = .TXN_TRANSFER → find_account accounts t.to_id ≠ none)

/-- No balance is negative now, nor after undoing the transactions of the stack
one by one from the top, and each of them finds its accounts when it is undone. -/
def stack_safe : List Account → List Transaction → Prop
  | accounts, [] => ∀ a ∈ accounts, 0 ≤ a.balance
  | accounts, t :: rest =>
    (∀ a ∈ accounts, 0 ≤ a.balance) ∧ accounts_found accounts t ∧
      stack_safe (undo_txn accounts t) rest

/-- The invariant of correct operation. -/
structure Safe (s : Ledger) : Prop where
  slots : in_use_first s.accounts
  queue_nonneg : ∀ t ∈ s.txn_queue, 0 ≤ t.amount
  balances : stack_safe s.accounts s.success_stack

/-- The start state after two `CREATE_ACCOUNT` commands with the same id of 40 characters. -/
def long_id_twice : Ledger :=
  (cmd_create_account "aaaaaaaaaaaaaaaaaaaaaaaaaaaaaaaaaaaaaaaa" 20
    (cmd_create_account "aaaaaaaaaaaaaaaaaaaaaaaaaaaaaaaaaaaaaaaa" 10 empty_ledger).1).1

/-! ## The commands on machine integers

The definitions above compute with unbounded integers. The namespace `Machine`
repeats the commands with the widths of the C types: `long long` values
(balances, amounts) are reduced to 64 bits and `int` values (`next_txn_id`,
`audit_count`, `account_count`) to 32 bits after every arithmetic operation, in
two's complement, and `atoll` saturates as the C library does. ISO C leaves
signed overflow undefined; the wrap-around is what the additions and
subtractions of the compiled program do on two's complement hardware. Functions
that do no arithmetic (`find_account`, `enqueue`, `mark_rolled_back`, ..) are
shared. -/

namespace Machine

def LLONG_MAX : Int := 9223372036854775807

def LLONG_MIN : Int := -9223372036854775808

def INT_MAX : Int := 2147483647

def INT_MIN : Int := -2147483648

/-- The value a `long long` holds after an arithmetic result `x`: `x` reduced
modulo 2^64 into `LLONG_MIN .. LLONG_MAX`. -/
def wrap64 (x : Int) : Int :=
  (x + 9223372036854775808) % 18446744073709551616 - 9223372036854775808

/-- The value an `int` holds after an arithmetic result `x`: `x` reduced modulo
2^32 into `INT_MIN .. INT_MAX`. -/
def wrap32 (x : Int) : Int :=
  (x + 2147483648) % 4294967296 - 2147483648

/-- The C library function `atoll` with its `long long` result: the decimal
value, saturated at `LLONG_MIN` and `LLONG_MAX`. -/
def atoll (str : String) : Int :=
  if BankLedger.atoll str < LLONG_MIN then LLONG_MIN
  else if LLONG_MAX < BankLedger.atoll str then LLONG_MAX
  else BankLedger.atoll str

/-- The statement `accounts[i].balance += d` on a `long long` balance. -/
def add_balance : List Account → Nat → Int → List Account
  | [], _, _ => []
  | a :: rest, 0, d => { a with balance := wrap64 (a.balance + d) } :: rest
  | a :: rest, i + 1, d => a :: add_balance rest i d

def cmd_create_account (id : String) (initial_balance : Int) (s : Ledger) :
    Ledger × CreateOutcome :=
  match find_account s.accounts id with
  | some _ => (s, .already_exists)
  | none =>
    match find_free s.accounts with
    | none => (s, .table_full)
    | some idx =>
      ({ s with
          accounts := set_account s.accounts idx
            { id := copy_str MAX_ID_LEN id, balance := initial_balance, in_use := true }
          account_count := wrap32 (s.account_count + 1) }, .created)

def append_audit (txn : Transaction) (status : AuditStatus) (message : String)
    (s : Ledger) : Ledger :=
  { s with
    audit_count := wrap32 (s.audit_count + 1)
    audit := s.audit ++
      [{ index := wrap32 (s.audit_count + 1), txn := txn, status := status,
         message := copy_str MSG_LEN message }] }

/-- The `TXN` command with `int` ids and `long long` amounts. The id is taken
from `next_txn_id`, which is incremented, before the format of the line is
checked. -/
def cmd_txn (tokens : List String) (s : Ledger) : Ledger × TxnOutcome :=
  if tokens.length < 4 then (s, .invalid_command)
  else
    match parse_type (tokens.getD 1 "") with
    | none => (s, .invalid_type)
    | some type =>
      let txn : Transaction :=
        { txn_id := s.next_txn_id, type := type, amount := 0, from_id := "", to_id := "" }
      let s1 : Ledger := { s with next_txn_id := wrap32 (s.next_txn_id + 1) }
      match type with
      | .TXN_TRANSFER =>
        if tokens.length ≠ 5 then (s1, .invalid_format)
        else
          let txn := { txn with
            from_id := copy_str MAX_ID_LEN (tokens.getD 2 "")
            to_id := copy_str MAX_ID_LEN (tokens.getD 3 "")
            amount := atoll (tokens.getD 4 "") }
          (enqueue txn s1, .queued txn.txn_id)
      | _ =>
        if tokens.length ≠ 4 then (s1, .invalid_format)
        else
          let txn := { txn with
            from_id := copy_str MAX_ID_LEN (tokens.getD 2 "")
            amount := atoll (tokens.getD 3 "") }
          (enqueue txn s1, .queued txn.txn_id)

/-- The `PROCESS` command on `long long` balances. -/
def cmd_process (s : Ledger) : Ledger × ProcessOutcome :=
  match s.txn_queue with
  | [] => (s, .nothing_pending)
  | txn :: rest =>
    let s : Ledger := { s with txn_queue := rest }
    match txn.type with
    | .TXN_DEPOSIT =>
      match find_account s.accounts txn.from_id with
      | none =>
        (append_audit txn .AUDIT_FAIL
          (copy_str MSG_LEN ("Account " ++ txn.from_id ++ " not found")) s, .failure)
      | some src =>
        let accounts := add_balance s.accounts src txn.amount
        let msg := copy_str MSG_LEN ("Balance: " ++ toString (balance_at accounts src))
        (push_success txn (append_audit txn .AUDIT_SUCCESS msg { s with accounts := accounts }),
          .success)
    | .TXN_WITHDRAW =>
      match find_account s.accounts txn.from_id with
      | none =>
        (append_audit txn .AUDIT_FAIL
          (copy_str MSG_LEN ("Account " ++ txn.from_id ++ " not found")) s, .failure)
      | some src =>
        if balance_at s.accounts src < txn.amount then
          (append_audit txn .AUDIT_FAIL (copy_str MSG_LEN "Insufficient funds") s, .failure)
        else
          let accounts := add_balance s.accounts src (- txn.amount)
          let msg := copy_str MSG_LEN ("Balance: " ++ toString (balance_at accounts src))
          (push_success txn
            (append_audit txn .AUDIT_SUCCESS msg { s with accounts := accounts }), .success)
    | .TXN_TRANSFER =>
      match find_account s.accounts txn.from_id, find_account s.accounts txn.to_id with
      | some src, some dst =>
        if balance_at s.accounts src < txn.amount then
          (append_audit txn .AUDIT_FAIL (copy_str MSG_LEN "Insufficient funds") s, .failure)
        else
          let accounts := add_balance (add_balance s.accounts src (- txn.amount)) dst txn.amount
          let msg := copy_str MSG_LEN
            ("A1: " ++ toString (balance_at accounts src) ++ ", A2: " ++
              toString (balance_at accounts dst))
          (push_success txn
            (append_audit txn .AUDIT_SUCCESS msg { s with accounts := accounts }), .success)
      | _, _ =>
        (append_audit txn .AUDIT_FAIL (copy_str MSG_LEN "Account not found") s, .failure)

/-- Body of the `for` loop of `cmd_rollback` after `pop_success` returned `txn`,
on `long long` balances. -/
def rollback_txn (txn : Transaction) (s : Ledger) : Ledger :=
  let s : Ledger :=
    match txn.type with
    | .TXN_DEPOSIT =>
      match find_account s.accounts txn.from_id with
      | some src => { s with accounts := add_balance s.accounts src (- txn.amount) }
      | none => s
    | .TXN_WITHDRAW =>
      match find_account s.accounts txn.from_id with
      | some src => { s with accounts := add_balance s.accounts src txn.amount }
      | none => s
    | .TXN_TRANSFER =>
      match find_account s.accounts txn.from_id, find_account s.accounts txn.to_id with
      | some src, some dst =>
        { s with
          accounts := add_balance (add_balance s.accounts src txn.amount) dst (- txn.amount) }
      | _, _ => s
  mark_rolled_back txn.txn_id s

def rollback_loop : Nat → Ledger → Ledger
  | 0, s => s
  | k + 1, s =>
    match s.success_stack with
    | [] => s
    | txn :: rest => rollback_loop k (rollback_txn txn { s with success_stack := rest })

/-- The `ROLLBACK n` command on `long long` balances. -/
def cmd_rollback (n : Int) (s : Ledger) : Ledger :=
  if n ≤ 0 then s else rollback_loop n.toNat s

/-- State after one `PROCESS` command. -/
def process_next (s : Ledger) : Ledger := (cmd_process s).1

/-- State after one `TXN` command. -/
def submit (tokens : List String) (s : Ledger) : Ledger := (cmd_txn tokens s).1

/-- The balance mutation of the success branch of `cmd_process`. -/
def apply_txn (accounts : List Account) (t : Transaction) : List Account :=
  match t.type with
  | .TXN_DEPOSIT =>
    match find_account accounts t.from_id with
    | some src => add_balance accounts src t.amount
    | none => accounts
  | .TXN_WITHDRAW =>
    match find_account accounts t.from_id with
    | some src => add_balance accounts src (- t.amount)
    | none => accounts
  | .TXN_TRANSFER =>
    match find_account accounts t.from_id, find_account accounts t.to_id with
    | some src, some dst => add_balance (add_balance accounts src (- t.amount)) dst t.amount
    | _, _ => accounts

/-- The inverse mutation of `cmd_rollback` for one popped transaction. -/
def undo_txn (accounts : List Account) (t : Transaction) : List Account :=
  match t.type with
  | .TXN_DEPOSIT =>
    match find_account accounts t.from_id with
    | some src => add_balance accounts src (- t.amount)
    | none => accounts
  | .TXN_WITHDRAW =>
    match find_account accounts t.from_id with
    | some src => add_balance accounts src t.amount
    | none => accounts
  | .TXN_TRANSFER =>
    match find_account accounts t.from_id, find_account accounts t.to_id with
    | some src, some dst => add_balance (add_balance accounts src t.amount) dst (- t.amount)
    | _, _ => accounts

/-- The states reached from `s₀` by commands of which `n` are `TXN` lines. -/
inductive Run (s₀ : Ledger) : Nat → Ledger → Prop where
  | refl : Run s₀ 0 s₀
  | create (n : Nat) (s : Ledger) (id : String) (initial_balance : Int) :
      Run s₀ n s → Run s₀ n (cmd_create_account id initial_balance s).1
  | txn (n : Nat) (s : Ledger) (tokens : List String) :
      Run s₀ n s → Run s₀ (n + 1) (cmd_txn tokens s).1
  | process (n : Nat) (s : Ledger) : Run s₀ n s → Run s₀ n (cmd_process s).1
  | rollback (n : Nat) (s : Ledger) (k : Int) : Run s₀ n s → Run s₀ n (cmd_rollback k s)

/-- The largest number of `TXN` lines after which `next_txn_id`, which starts
at 1, has not passed `INT_MAX`. -/
def MAX_TXN_LINES : Nat := 2147483646

end Machine

/-- The values of the type `long long`. -/
def in_range64 (x : Int) : Prop := Machine.LLONG_MIN ≤ x ∧ x ≤ Machine.LLONG_MAX

instance (x : Int) : Decidable (in_range64 x) := by
  unfold in_range64
  infer_instance

/-- The overflow scenario: `CREATE_ACCOUNT A 9223372036854775807` on the start
state. -/
def overflow_account : Ledger :=
  (Machine.cmd_create_account "A" (Machine.atoll "9223372036854775807") empty_ledger).1

/-- The scenario of accounts A with 100 and B with 0 and the three submissions,
run with the machine commands. -/
def machine_scenario_submitted : Ledger :=
  Machine.submit ["TXN", "TRANSFER", "A", "B", "40"]
    (Machine.submit ["TXN", "WITHDRAW", "A", "30"]
      (Machine.submit ["TXN", "DEPOSIT", "A", "50"]
        (Machine.cmd_create_account "B" (Machine.atoll "0")
          (Machine.cmd_create_account "A" (Machine.atoll "100") empty_ledger).1).1))

/-- The machine scenario after three `PROCESS` commands. -/
def machine_scenario_processed : Ledger :=
  Machine.process_next (Machine.process_next (Machine.process_next machine_scenario_submitted))

/-- The transaction a well-formed `TXN` line stands for when it is given the id
`id`, with the amount read by the machine `atoll`. -/
def Machine.submitted_txn (id : Int) (tokens : List String) : Transaction :=
  match parse_type (tokens.getD 1 "") with
  | some .TXN_TRANSFER =>
    { txn_id := id, type := .TXN_TRANSFER,
      from_id := copy_str MAX_ID_LEN (tokens.getD 2 ""),
      to_id := copy_str MAX_ID_LEN (tokens.getD 3 ""),
      amount := Machine.atoll (tokens.getD 4 "") }
  | some .TXN_WITHDRAW =>
    { txn_id := id, type := .TXN_WITHDRAW,
      from_id := copy_str MAX_ID_LEN (tokens.getD 2 ""), to_id := "",
      amount := Machine.atoll (tokens.getD 3 "") }
  | _ =>
    { txn_id := id, type := .TXN_DEPOSIT,
      from_id := copy_str MAX_ID_LEN (tokens.getD 2 ""), to_id := "",
      amount := Machine.atoll (tokens.getD 3 "") }

/-- The overflow scenario with `TXN WITHDRAW A -1` queued. -/
def overflow_withdraw : Ledger :=
  Machine.submit ["TXN", "WITHDRAW", "A", "-1"] overflow_account

/-- The machine scenario accounts with `TXN WITHDRAW A -100` queued. -/
def negative_withdraw_state : Ledger :=
  Machine.submit ["TXN", "WITHDRAW", "A", "-100"]
    (Machine.cmd_create_account "B" (Machine.atoll "0")
      (Machine.cmd_create_account "A" (Machine.atoll "100") empty_ledger).1).1

/-- The invariant of a state reached by machine commands with at most `n` `TXN`
lines, `n` small enough that `next_txn_id` has not passed `INT_MAX`. -/
structure Within (n : Nat) (s : Ledger) : Prop where
  consistent : Consistent s
  next_pos : 1 ≤ s.next_txn_id
  next_le : s.next_txn_id ≤ (n : Int) + 1
  held : (s.audit.length : Int) + (s.txn_queue.length : Int) + 1 ≤ s.next_txn_id

/-- A `TXN` line that is rejected for its format: a deposit with a fifth token. -/
def rejected_line : List String := ["TXN", "DEPOSIT", "A", "1", "B"]

/-- The start state after 2147483646 rejected `TXN` lines and two accepted
ones. -/
def wrapped_ids : Ledger :=
  Machine.submit ["TXN", "DEPOSIT", "A", "1"]
    (Machine.submit ["TXN", "DEPOSIT", "A", "1"]
      ((Machine.submit rejected_line)^[2147483646] empty_ledger))

/-- The state after `CREATE_ACCOUNT A 0`, `TXN DEPOSIT A 1`, `PROCESS`, then
4294967295 rejected `TXN` lines, then `TXN DEPOSIT A 2` and `PROCESS`: the second
deposit has the id of the first. -/
def repeated_id_state : Ledger :=
  Machine.process_next
    (Machine.submit ["TXN", "DEPOSIT", "A", "2"]
      ((Machine.submit rejected_line)^[4294967295]
        (Machine.process_next
          (Machine.submit ["TXN", "DEPOSIT", "A", "1"]
            (Machine.cmd_create_account "A" (Machine.atoll "0") empty_ledger).1))))

/-- The number of increments after which the 32-bit counter, started at 1, holds
the id `id`: the position of `id` in the order in which ids are handed out. -/
def id_rank (id : Int) : Int := (id - 1) % 4294967296

/-- The largest number of `TXN` lines after which no id has been handed out
twice: the number of values of an `int`. -/
def MAX_ID_LINES : Nat := 4294967296

/-- The invariant of a state reached by machine commands in which `next_txn_id`
has been incremented `N` times: the Success entries mirror the stack, and the ids
in the log and the queue are distinct and ordered by the time they were handed
out. -/
structure DistinctIds (N : Nat) (s : Ledger) : Prop where
  next : s.next_txn_id = Machine.wrap32 (1 + (N : Int))
  history : (s.audit.filter (fun e => e.status = .AUDIT_SUCCESS)).map (fun e => e.txn) =
    s.success_stack.reverse
  ids_nodup : (s.audit.map (fun e => e.txn.txn_id)).Nodup
  queue_sorted : s.txn_queue.Pairwise (fun a b => id_rank a.txn_id < id_rank b.txn_id)
  queue_lt : ∀ t ∈ s.txn_queue, id_rank t.txn_id < (N : Int)
  audit_lt : ∀ e ∈ s.audit, id_rank e.txn.txn_id < (N : Int)
  audit_lt_queue : ∀ e ∈ s.audit, ∀ t ∈ s.txn_queue,
    id_rank e.txn.txn_id < id_rank t.txn_id

/-! ## Lemmas: the account table -/

theorem find_account_add_balance (l : List Account) (i : Nat) (d : Int) (id : String) :
    find_account (add_balance l i d) id = find_account l id := by
  induction l generalizing i with
  | nil => rfl
  | cons a rest ih =>
    cases i with
    | zero => simp [add_balance, find_account]
    | succ i => simp [add_balance, find_account, ih]

theorem add_balance_length (l : List Account) (i : Nat) (d : Int) :
    (add_balance l i d).length = l.length := by
  induction l generalizing i with
  | nil => rfl
  | cons a rest ih =>
    cases i with
    | zero => simp [add_balance]
    | succ i => simp [add_balance, ih]

theorem add_balance_zero (l : List Account) (i : Nat) : add_balance l i 0 = l := by
  induction l generalizing i with
  | nil => rfl
  | cons a rest ih =>
    cases i with
    | zero => simp [add_balance]
    | succ i => simp [add_balance, ih]

theorem add_balance_add (l : List Account) (i : Nat) (x y : Int) :
    add_balance (add_balance l i x) i y = add_balance l i (x + y) := by
  induction l generalizing i with
  | nil => rfl
  | cons a rest ih =>
    cases i with
    | zero => simp [add_balance, add_assoc]
    | succ i => simp [add_balance, ih]

theorem add_balance_comm (l : List Account) (i j : Nat) (x y : Int) :
    add_balance (add_balance l i x) j y = add_balance (add_balance l j y) i x := by
  induction l generalizing i j with
  | nil => rfl
  | cons a rest ih =>
    cases i <;> cases j <;> simp [add_balance, add_right_comm]
    exact ih _ _

theorem find_account_lt (l : List Account) (id : String) (i : Nat)
    (h : find_account l id = some i) : i < l.length := by
  induction l generalizing i with
  | nil => simp [find_account] at h
  | cons a rest ih =>
    simp only [find_account] at h
    split at h
    · simp at h; subst h; simp
    · cases hf : find_account rest id with
      | none => simp [hf] at h
      | some k =>
        simp [hf] at h
        subst h
        have := ih k hf
        simp; omega

theorem balance_at_add_balance_same (l : List Account) (i : Nat) (d : Int)
    (h : i < l.length) : balance_at (add_balance l i d) i = balance_at l i + d := by
  induction l generalizing i with
  | nil => simp at h
  | cons a rest ih =>
    cases i with
    | zero => simp [add_balance, balance_at]
    | succ i =>
      simp only [add_balance, balance_at]
      exact ih i (by simpa using h)

theorem balance_at_add_balance_ne (l : List Account) (i j : Nat) (d : Int)
    (h : i ≠ j) : balance_at (add_balance l i d) j = balance_at l j := by
  induction l generalizing i j with
  | nil => rfl
  | cons a rest ih =>
    cases i <;> cases j <;> simp_all [add_balance, balance_at]

/-- The slot found by `find_account` is in use and carries the id. -/
theorem find_account_get (l : List Account) (id : String) (i : Nat)
    (h : find_account l id = some i) :
    ∃ a, l.get? i = some a ∧ a.in_use = true ∧ a.id = id := by
  induction l generalizing i with
  | nil => simp [find_account] at h
  | cons a rest ih =>
    simp only [find_account] at h
    split at h
    · rename_i hc
      simp at h; subst h
      exact ⟨a, rfl, hc.1, hc.2⟩
    · cases hf : find_account rest id with
      | none => simp [hf] at h
      | some k =>
        simp [hf] at h
        subst h
        simpa using ih k hf

theorem total_balance_add_balance (l : List Account) (i : Nat) (d : Int) (a : Account)
    (hget : l.get? i = some a) (huse : a.in_use = true) :
    total_balance (add_balance l i d) = total_balance l + d := by
  induction l generalizing i with
  | nil => simp at hget
  | cons b rest ih =>
    cases i with
    | zero =>
      simp at hget
      subst hget
      simp [add_balance, total_balance, huse]
      ring
    | succ i =>
      simp at hget
      simp only [add_balance, total_balance]
      rw [ih i (by simpa using hget)]
      ring

theorem slot_add_balance_ne (l : List Account) (i j : Nat) (d : Int) (h : i ≠ j) :
    (add_balance l i d).get? j = l.get? j := by
  induction l generalizing i j with
  | nil => rfl
  | cons a rest ih =>
    cases i <;> cases j <;> simp_all [add_balance]

theorem slot_add_balance_same (l : List Account) (i : Nat) (d : Int) :
    (add_balance l i d).get? i = (l.get? i).map (fun a => { a with balance := a.balance + d }) := by
  induction l generalizing i with
  | nil => rfl
  | cons a rest ih =>
    cases i <;> simp_all [add_balance]

/-! ## Lemmas: the branches of `cmd_process` and `cmd_rollback` -/

theorem cmd_process_fail (s : Ledger) (t : Transaction) (rest : List Transaction)
    (hq : s.txn_queue = t :: rest) (hc : can_apply s.accounts t = false) :
    ∃ msg, cmd_process s =
      (append_audit t .AUDIT_FAIL msg { s with txn_queue := rest }, .failure) := by
  unfold cmd_process
  rw [hq]
  unfold can_apply at hc
  cases ht : t.type <;> simp only [ht] at hc ⊢
  · cases hf : find_account s.accounts t.from_id <;> simp_all
    exact ⟨_, rfl⟩
  · cases hf : find_account s.accounts t.from_id <;> simp_all <;> exact ⟨_, rfl⟩
  · cases hf : find_account s.accounts t.from_id <;>
      cases hg : find_account s.accounts t.to_id <;> simp_all <;> exact ⟨_, rfl⟩

theorem cmd_process_ok (s : Ledger) (t : Transaction) (rest : List Transaction)
    (hq : s.txn_queue = t :: rest) (hc : can_apply s.accounts t = true) :
    ∃ msg, cmd_process s =
      (push_success t (append_audit t .AUDIT_SUCCESS msg
        { s with txn_queue := rest, accounts := apply_txn s.accounts t }), .success) := by
  unfold cmd_process
  rw [hq]
  unfold can_apply at hc
  unfold apply_txn
  cases ht : t.type <;> simp only [ht] at hc ⊢
  · cases hf : find_account s.accounts t.from_id <;> simp_all
    exact ⟨_, rfl⟩
  · cases hf : find_account s.accounts t.from_id <;> simp_all
    rw [if_neg (not_lt.mpr hc)]
    exact ⟨_, rfl⟩
  · cases hf : find_account s.accounts t.from_id <;>
      cases hg : find_account s.accounts t.to_id <;> simp_all
    rw [if_neg (not_lt.mpr hc)]
    exact ⟨_, rfl⟩

theorem rollback_txn_eq (t : Transaction) (s : Ledger) :
    rollback_txn t s =
      { s with accounts := undo_txn s.accounts t, audit := mark_nodes s.audit t.txn_id } := by
  unfold rollback_txn undo_txn mark_rolled_back
  cases ht : t.type <;> simp only [ht]
  · cases hf : find_account s.accounts t.from_id <;> simp
  · cases hf : find_account s.accounts t.from_id <;> simp
  · cases hf : find_account s.accounts t.from_id <;>
      cases hg : find_account s.accounts t.to_id <;> simp

/-! ## Lemmas: one `PROCESS` command and iterations of it -/

theorem total_balance_apply_txn (l : List Account) (t : Transaction)
    (hc : can_apply l t = true) :
    total_balance (apply_txn l t) = total_balance l + net_change t := by
  unfold can_apply at hc
  unfold apply_txn net_change
  cases ht : t.type <;> simp only [ht] at hc ⊢
  · cases hf : find_account l t.from_id with
    | none => simp [hf] at hc
    | some i =>
      obtain ⟨a, hget, huse, _⟩ := find_account_get l _ _ hf
      simp only
      exact total_balance_add_balance l i _ a hget huse
  · cases hf : find_account l t.from_id with
    | none => simp [hf] at hc
    | some i =>
      obtain ⟨a, hget, huse, _⟩ := find_account_get l _ _ hf
      simp only
      exact total_balance_add_balance l i _ a hget huse
  · cases hf : find_account l t.from_id with
    | none => simp [hf] at hc
    | some i =>
      cases hg : find_account l t.to_id with
      | none => simp [hf, hg] at hc
      | some j =>
        obtain ⟨a, hget, huse, _⟩ := find_account_get l _ _ hf
        have hg2 : find_account (add_balance l i (-t.amount)) t.to_id = some j := by
          rw [find_account_add_balance]; exact hg
        obtain ⟨b, hgetb, huseb, _⟩ := find_account_get _ _ _ hg2
        simp only
        rw [total_balance_add_balance _ j _ b hgetb huseb,
          total_balance_add_balance l i _ a hget huse]
        ring

/-- Outcome and state of `cmd_process` on a non-empty queue, by `can_apply`. -/
theorem cmd_process_outcome (s : Ledger) (t : Transaction) (rest : List Transaction)
    (hq : s.txn_queue = t :: rest) :
    (cmd_process s).2 = (if can_apply s.accounts t = true then .success else .failure) := by
  by_cases hc : can_apply s.accounts t = true
  · obtain ⟨msg, h⟩ := cmd_process_ok s t rest hq hc
    simp [h, hc]
  · obtain ⟨msg, h⟩ := cmd_process_fail s t rest hq (by simpa using hc)
    simp [h, hc]

theorem process_next_accounts (s : Ledger) (t : Transaction) (rest : List Transaction)
    (hq : s.txn_queue = t :: rest) :
    (process_next s).accounts =
      (if can_apply s.accounts t = true then apply_txn s.accounts t else s.accounts) := by
  unfold process_next
  by_cases hc : can_apply s.accounts t = true
  · obtain ⟨msg, h⟩ := cmd_process_ok s t rest hq hc
    simp [h, hc, push_success, append_audit]
  · obtain ⟨msg, h⟩ := cmd_process_fail s t rest hq (by simpa using hc)
    simp [h, hc, append_audit]

theorem process_next_stack (s : Ledger) (t : Transaction) (rest : List Transaction)
    (hq : s.txn_queue = t :: rest) :
    (process_next s).success_stack =
      (if can_apply s.accounts t = true then t :: s.success_stack else s.success_stack) := by
  unfold process_next
  by_cases hc : can_apply s.accounts t = true
  · obtain ⟨msg, h⟩ := cmd_process_ok s t rest hq hc
    simp [h, hc, push_success, append_audit]
  · obtain ⟨msg, h⟩ := cmd_process_fail s t rest hq (by simpa using hc)
    simp [h, hc, append_audit]

theorem process_next_queue (s : Ledger) : (process_next s).txn_queue = s.txn_queue.tail := by
  unfold process_next
  cases hq : s.txn_queue with
  | nil => simp [cmd_process, hq]
  | cons t rest =>
    by_cases hc : can_apply s.accounts t = true
    · obtain ⟨msg, h⟩ := cmd_process_ok s t rest hq hc
      simp [h, push_success, append_audit]
    · obtain ⟨msg, h⟩ := cmd_process_fail s t rest hq (by simpa using hc)
      simp [h, append_audit]

theorem process_next_nil (s : Ledger) (hq : s.txn_queue = []) : process_next s = s := by
  simp [process_next, cmd_process, hq]

theorem amount_sum_append (k : TxnType) (l₁ l₂ : List Transaction) :
    amount_sum k (l₁ ++ l₂) = amount_sum k l₁ + amount_sum k l₂ := by
  simp [amount_sum]

theorem amount_sum_singleton (k : TxnType) (t : Transaction) :
    amount_sum k [t] = if t.type = k then t.amount else 0 := by
  by_cases h : t.type = k <;> simp [amount_sum, List.filter, h]

theorem net_change_eq (t : Transaction) :
    net_change t = amount_sum .TXN_DEPOSIT [t] - amount_sum .TXN_WITHDRAW [t] := by
  rw [amount_sum_singleton, amount_sum_singleton]
  unfold net_change
  cases ht : t.type <;> simp

/-- Over `n` `PROCESS` commands the total changes by the successful deposits
minus the successful withdrawals, and the stack grows by the successes. -/
theorem process_iterate_total (n : Nat) (s : Ledger) :
    total_balance (process_next^[n] s).accounts =
        total_balance s.accounts + amount_sum .TXN_DEPOSIT (successes n s)
          - amount_sum .TXN_WITHDRAW (successes n s) ∧
      (process_next^[n] s).success_stack = (successes n s).reverse ++ s.success_stack := by
  induction n generalizing s with
  | zero => simp [successes, amount_sum]
  | succ n ih =>
    rw [Function.iterate_succ_apply]
    cases hq : s.txn_queue with
    | nil =>
      rw [process_next_nil s hq]
      have := ih s
      have hs : successes (n + 1) s = [] := by simp [successes, hq]
      have h0 : ∀ m, process_next^[m] s = s := by
        intro m
        induction m with
        | zero => rfl
        | succ m ihm => rw [Function.iterate_succ_apply, process_next_nil s hq, ihm]
      rw [h0 n, hs]
      simp [amount_sum]
    | cons t rest =>
      obtain ⟨h1, h2⟩ := ih (process_next s)
      have hs : successes (n + 1) s =
          (if (cmd_process s).2 = .success then [t] else []) ++ successes n (process_next s) := by
        simp [successes, hq]
      rw [h1, h2, hs, cmd_process_outcome s t rest hq, process_next_accounts s t rest hq,
        process_next_stack s t rest hq]
      by_cases hc : can_apply s.accounts t = true
      · simp only [hc, if_true]
        rw [total_balance_apply_txn _ _ hc, amount_sum_append, amount_sum_append, net_change_eq]
        constructor
        · ring
        · simp
      · simp only [hc]
        simp [amount_sum]

/-! ## Lemmas: submissions and the order of processing -/

theorem cmd_txn_well_formed (tokens : List String) (s : Ledger) (h : well_formed tokens) :
    cmd_txn tokens s =
      (enqueue (submitted_txn s.next_txn_id tokens)
        { s with next_txn_id := s.next_txn_id + 1 }, .queued s.next_txn_id) := by
  unfold well_formed at h
  unfold cmd_txn submitted_txn
  rcases h with ⟨h | h, hl⟩ | ⟨h, hl⟩ <;> simp only [h, hl] <;> simp

theorem submit_fold (subs : List (List String)) (s : Ledger)
    (h : ∀ x ∈ subs, well_formed x) :
    subs.foldl (fun st x => submit x st) s =
      { s with
        txn_queue := s.txn_queue ++ submitted_txns s.next_txn_id subs
        next_txn_id := s.next_txn_id + subs.length } := by
  induction subs generalizing s with
  | nil => simp [submitted_txns]
  | cons x rest ih =>
    rw [List.foldl_cons, ih _ (fun y hy => h y (List.mem_cons_of_mem _ hy))]
    simp only [submit, cmd_txn_well_formed x s (h x (List.mem_cons_self _ _)), enqueue,
      submitted_txns, List.length_cons]
    simp only [List.append_assoc, List.singleton_append, Nat.cast_add, Nat.cast_one]
    congr 1
    omega

theorem process_iterate_queue (n : Nat) (s : Ledger) :
    (process_next^[n] s).txn_queue = s.txn_queue.drop n := by
  induction n generalizing s with
  | zero => simp
  | succ n ih =>
    rw [Function.iterate_succ_apply, ih, process_next_queue]
    simp [List.drop_succ_cons, List.tail_drop]

/-- The audit entry that `cmd_process` appends for the head of the queue. -/
theorem process_next_audit (s : Ledger) (t : Transaction) (rest : List Transaction)
    (hq : s.txn_queue = t :: rest) :
    ∃ msg, (process_next s).audit = s.audit ++
        [{ index := s.audit_count + 1, txn := t,
           status := if can_apply s.accounts t = true then .AUDIT_SUCCESS else .AUDIT_FAIL,
           message := msg }] ∧
      (process_next s).audit_count = s.audit_count + 1 := by
  unfold process_next
  by_cases hc : can_apply s.accounts t = true
  · obtain ⟨msg, h⟩ := cmd_process_ok s t rest hq hc
    exact ⟨copy_str MSG_LEN msg, by simp [h, hc, push_success, append_audit]⟩
  · obtain ⟨msg, h⟩ := cmd_process_fail s t rest hq (by simpa using hc)
    exact ⟨copy_str MSG_LEN msg, by simp [h, hc, append_audit]⟩

theorem process_next_fixed (s : Ledger) :
    (process_next s).next_txn_id = s.next_txn_id ∧
      (process_next s).account_count = s.account_count := by
  unfold process_next
  cases hq : s.txn_queue with
  | nil => simp [cmd_process, hq]
  | cons t rest =>
    by_cases hc : can_apply s.accounts t = true
    · obtain ⟨msg, h⟩ := cmd_process_ok s t rest hq hc
      simp [h, push_success, append_audit]
    · obtain ⟨msg, h⟩ := cmd_process_fail s t rest hq (by simpa using hc)
      simp [h, append_audit]


theorem drop_eq_cons_of_slot {α : Type} (l : List α) (i : Nat) (t : α) (h : l.get? i = some t) :
    l.drop i = t :: l.drop (i + 1) := by
  induction l generalizing i with
  | nil => simp at h
  | cons a rest ih =>
    cases i with
    | zero => simp at h; simp [h]
    | succ i => simpa using ih i (by simpa using h)

theorem submitted_txns_length (id : Int) (subs : List (List String)) :
    (submitted_txns id subs).length = subs.length := by
  induction subs generalizing id with
  | nil => rfl
  | cons x rest ih => simp [submitted_txns, ih]

theorem process_iterate_audit_txns (n : Nat) (s : Ledger) :
    (process_next^[n] s).audit.map (fun e => e.txn) =
      s.audit.map (fun e => e.txn) ++ s.txn_queue.take n := by
  induction n generalizing s with
  | zero => simp
  | succ n ih =>
    rw [Function.iterate_succ_apply]
    cases hq : s.txn_queue with
    | nil =>
      rw [process_next_nil s hq]
      have := ih s
      rw [hq] at this
      simpa using this
    | cons t rest =>
      obtain ⟨msg, ha, _⟩ := process_next_audit s t rest hq
      rw [ih, ha, process_next_queue, hq]
      simp

/-! ## Lemmas: the rollback loop -/

theorem cmd_process_success_iff (s : Ledger) :
    (cmd_process s).2 = .success ↔
      ∃ t rest, s.txn_queue = t :: rest ∧ can_apply s.accounts t = true := by
  cases hq : s.txn_queue with
  | nil => simp [cmd_process, hq]
  | cons t rest =>
    rw [cmd_process_outcome s t rest hq]
    by_cases hc : can_apply s.accounts t = true <;> simp [hc]

theorem can_apply_find (l : List Account) (t : Transaction) (hc : can_apply l t = true) :
    ∃ i, find_account l t.from_id = some i := by
  unfold can_apply at hc
  cases ht : t.type <;> simp only [ht] at hc
  · cases hf : find_account l t.from_id <;> simp_all
  · cases hf : find_account l t.from_id <;> simp_all
  · cases hf : find_account l t.from_id <;> cases hg : find_account l t.to_id <;> simp_all

theorem undo_apply_txn (l : List Account) (t : Transaction) :
    undo_txn (apply_txn l t) t = l := by
  unfold undo_txn apply_txn
  cases ht : t.type <;> simp only
  · cases hf : find_account l t.from_id with
    | none => simp [hf]
    | some i => simp [find_account_add_balance, hf, add_balance_add, add_balance_zero]
  · cases hf : find_account l t.from_id with
    | none => simp [hf]
    | some i => simp [find_account_add_balance, hf, add_balance_add, add_balance_zero]
  · cases hf : find_account l t.from_id with
    | none => simp [hf]
    | some i =>
      cases hg : find_account l t.to_id with
      | none => simp [hf, hg]
      | some j =>
        simp only [find_account_add_balance, hf, hg]
        rw [add_balance_comm (add_balance l i (-t.amount)) j i, add_balance_add,
          add_balance_add, add_balance_comm]
        simp [add_balance_zero]

theorem rollback_txn_fields (t : Transaction) (s : Ledger) :
    (rollback_txn t s).accounts = undo_txn s.accounts t ∧
      (rollback_txn t s).success_stack = s.success_stack ∧
      (rollback_txn t s).txn_queue = s.txn_queue ∧
      (rollback_txn t s).next_txn_id = s.next_txn_id ∧
      (rollback_txn t s).audit = mark_nodes s.audit t.txn_id ∧
      (rollback_txn t s).audit_count = s.audit_count ∧
      (rollback_txn t s).account_count = s.account_count := by
  rw [rollback_txn_eq]
  simp

theorem rollback_loop_nil (k : Nat) (s : Ledger) (h : s.success_stack = []) :
    rollback_loop k s = s := by
  cases k <;> simp [rollback_loop, h]

theorem rollback_loop_cons (k : Nat) (s : Ledger) (t : Transaction) (rest : List Transaction)
    (h : s.success_stack = t :: rest) :
    rollback_loop (k + 1) s = rollback_loop k (rollback_txn t { s with success_stack := rest }) := by
  simp [rollback_loop, h]

/-- The accounts and the stack after the rollback loop depend only on the
accounts and the stack before it. -/
theorem rollback_loop_congr (k : Nat) (s₁ s₂ : Ledger)
    (ha : s₁.accounts = s₂.accounts) (hs : s₁.success_stack = s₂.success_stack) :
    (rollback_loop k s₁).accounts = (rollback_loop k s₂).accounts ∧
      (rollback_loop k s₁).success_stack = (rollback_loop k s₂).success_stack := by
  induction k generalizing s₁ s₂ with
  | zero => exact ⟨ha, hs⟩
  | succ k ih =>
    cases h2 : s₂.success_stack with
    | nil =>
      rw [rollback_loop_nil _ s₂ h2, rollback_loop_nil _ s₁ (hs.trans h2)]
      exact ⟨ha, hs⟩
    | cons t rest =>
      rw [rollback_loop_cons k s₂ t rest h2, rollback_loop_cons k s₁ t rest (hs.trans h2)]
      apply ih
      · rw [(rollback_txn_fields _ _).1, (rollback_txn_fields _ _).1]
        simp [ha]
      · rw [(rollback_txn_fields _ _).2.1, (rollback_txn_fields _ _).2.1]

theorem rollback_loop_succ (k : Nat) (s : Ledger) :
    rollback_loop (k + 1) s = rollback_loop k (rollback_loop 1 s) := by
  cases h : s.success_stack with
  | nil => rw [rollback_loop_nil _ s h, rollback_loop_nil _ s h, rollback_loop_nil _ s h]
  | cons t rest =>
    rw [rollback_loop_cons k s t rest h, rollback_loop_cons 0 s t rest h]
    rfl

theorem cmd_rollback_pos (k : Nat) (s : Ledger) :
    cmd_rollback ((k + 1 : Nat) : Int) s = rollback_loop (k + 1) s := by
  unfold cmd_rollback
  rw [if_neg (by omega)]
  simp

theorem cmd_rollback_one (s : Ledger) : cmd_rollback 1 s = rollback_loop 1 s :=
  cmd_rollback_pos 0 s

theorem rollback_loop_iterate (k : Nat) (s : Ledger) :
    rollback_loop k s = (cmd_rollback 1)^[k] s := by
  induction k generalizing s with
  | zero => rfl
  | succ k ih =>
    rw [rollback_loop_succ, Function.iterate_succ_apply, ih, cmd_rollback_one]

/-- After `n` successful `PROCESS` commands, `k ≤ n` iterations of the rollback
loop restore the accounts and the stack of the state after `n - k` commands. -/
theorem rollback_loop_after_process (k : Nat) :
    ∀ (n : Nat) (s : Ledger), k ≤ n →
      (∀ i, i < n → (cmd_process (process_next^[i] s)).2 = .success) →
      (rollback_loop k (process_next^[n] s)).accounts = (process_next^[n - k] s).accounts ∧
        (rollback_loop k (process_next^[n] s)).success_stack =
          (process_next^[n - k] s).success_stack := by
  induction k with
  | zero => intro n s _ _; exact ⟨rfl, rfl⟩
  | succ k ih =>
    intro n s hkn hok
    obtain ⟨m, rfl⟩ : ∃ m, n = m + 1 := ⟨n - 1, by omega⟩
    obtain ⟨t, rest, hq, hc⟩ := (cmd_process_success_iff _).1 (hok m (by omega))
    have hacc := process_next_accounts _ t rest hq
    have hst := process_next_stack _ t rest hq
    simp only [hc, if_true] at hacc hst
    rw [Function.iterate_succ_apply', rollback_loop_cons k _ t _ hst]
    have hcongr := rollback_loop_congr k
      (rollback_txn t { process_next (process_next^[m] s) with
        success_stack := (process_next^[m] s).success_stack })
      (process_next^[m] s)
      (by rw [(rollback_txn_fields _ _).1]; simp only [hacc]; exact undo_apply_txn _ _)
      (by rw [(rollback_txn_fields _ _).2.1])
    have hih := ih m s (by omega) (fun i hi => hok i (by omega))
    rw [hcongr.1, hcongr.2, hih.1, hih.2]
    have : m + 1 - (k + 1) = m - k := by omega
    rw [this]
    exact ⟨rfl, rfl⟩

theorem can_apply_iff (s : Ledger) (t : Transaction) :
    can_apply s.accounts t = true ↔ success_condition s t := by
  unfold can_apply success_condition cmd_balance
  cases ht : t.type <;> simp only
  · cases hf : find_account s.accounts t.from_id <;> simp
  · cases hf : find_account s.accounts t.from_id <;> simp
  · cases hf : find_account s.accounts t.from_id <;>
      cases hg : find_account s.accounts t.to_id <;> simp

theorem rollback_loop_stack (k : Nat) (s : Ledger) :
    (rollback_loop k s).success_stack = s.success_stack.drop k := by
  induction k generalizing s with
  | zero => rfl
  | succ k ih =>
    cases h : s.success_stack with
    | nil => rw [rollback_loop_nil _ s h, h]; rfl
    | cons t rest =>
      rw [rollback_loop_cons k s t rest h, ih, (rollback_txn_fields _ _).2.1]
      rfl

theorem rollback_loop_ge (k : Nat) (s : Ledger) (h : s.success_stack.length ≤ k) :
    rollback_loop k s = rollback_loop s.success_stack.length s := by
  induction k generalizing s with
  | zero =>
    have : s.success_stack.length = 0 := by omega
    rw [this]
  | succ k ih =>
    cases hs : s.success_stack with
    | nil => rw [rollback_loop_nil _ s hs, List.length_nil]; rfl
    | cons t rest =>
      rw [hs] at h
      rw [rollback_loop_cons k s t rest hs, List.length_cons, rollback_loop_cons _ s t rest hs]
      have hlen : (rollback_txn t { s with success_stack := rest }).success_stack.length
          = rest.length := by rw [(rollback_txn_fields _ _).2.1]
      rw [ih _ (by rw [hlen]; simpa using h), hlen]

theorem rollback_loop_min (k : Nat) (s : Ledger) :
    rollback_loop k s = rollback_loop (min k s.success_stack.length) s := by
  by_cases h : k ≤ s.success_stack.length
  · rw [Nat.min_eq_left h]
  · rw [Nat.min_eq_right (by omega), rollback_loop_ge k s (by omega)]

/-! ## Lemmas: the effect of a transaction on single accounts -/

theorem find_account_ne (l : List Account) (id₁ id₂ : String) (i j : Nat)
    (h₁ : find_account l id₁ = some i) (h₂ : find_account l id₂ = some j) (hne : id₁ ≠ id₂) :
    i ≠ j := by
  obtain ⟨a, ha, _, hai⟩ := find_account_get l id₁ i h₁
  obtain ⟨b, hb, _, hbi⟩ := find_account_get l id₂ j h₂
  rintro rfl
  rw [ha] at hb
  injection hb with hab
  subst hab
  exact hne (hai.symm.trans hbi)

theorem find_account_apply_txn (l : List Account) (t : Transaction) (id : String) :
    find_account (apply_txn l t) id = find_account l id := by
  unfold apply_txn
  cases ht : t.type <;> simp only
  · cases hf : find_account l t.from_id <;> simp [find_account_add_balance]
  · cases hf : find_account l t.from_id <;> simp [find_account_add_balance]
  · cases hf : find_account l t.from_id <;> cases hg : find_account l t.to_id <;>
      simp [find_account_add_balance]

/-- Slots other than the ones found for the accounts of `t` are not touched. -/
theorem slot_apply_txn (l : List Account) (t : Transaction) (j : Nat)
    (h₁ : find_account l t.from_id ≠ some j)
    (h₂ : t.type = .TXN_TRANSFER → find_account l t.to_id ≠ some j) :
    (apply_txn l t).get? j = l.get? j := by
  unfold apply_txn
  cases ht : t.type <;> simp only
  · cases hf : find_account l t.from_id with
    | none => rfl
    | some i => exact slot_add_balance_ne _ _ _ _ (fun h => h₁ (by rw [hf, h]))
  · cases hf : find_account l t.from_id with
    | none => rfl
    | some i => exact slot_add_balance_ne _ _ _ _ (fun h => h₁ (by rw [hf, h]))
  · cases hf : find_account l t.from_id with
    | none => rfl
    | some i =>
      cases hg : find_account l t.to_id with
      | none => rfl
      | some k =>
        simp only
        rw [slot_add_balance_ne _ _ _ _ (fun h => h₂ ht (by rw [hg, h])),
          slot_add_balance_ne _ _ _ _ (fun h => h₁ (by rw [hf, h]))]

theorem balance_at_eq_slot (l : List Account) (j : Nat) :
    balance_at l j = ((l.get? j).map (fun a => a.balance)).getD 0 := by
  induction l generalizing j with
  | nil => rfl
  | cons a rest ih =>
    cases j with
    | zero => rfl
    | succ j => simpa [balance_at] using ih j

theorem balance_at_congr_slot (l₁ l₂ : List Account) (j : Nat) (h : l₁.get? j = l₂.get? j) :
    balance_at l₁ j = balance_at l₂ j := by
  rw [balance_at_eq_slot, balance_at_eq_slot, h]

/-! ## Lemmas: the audit log -/

/-- Without a matching Success entry `mark_nodes` leaves the list as it is. -/
theorem mark_nodes_no_match (l : List AuditNode) (id : Int)
    (h : ∀ x ∈ l, ¬ (x.txn.txn_id = id ∧ x.status = .AUDIT_SUCCESS)) :
    mark_nodes l id = l := by
  induction l with
  | nil => rfl
  | cons a rest ih =>
    simp only [mark_nodes]
    rw [if_neg (h a (List.mem_cons_self _ _)), ih (fun x hx => h x (List.mem_cons_of_mem _ hx))]

/-- The loop `mark_nodes` amends the first matching Success entry and nothing else. -/
theorem mark_nodes_first_match (pre post : List AuditNode) (e : AuditNode) (id : Int)
    (hpre : ∀ x ∈ pre, ¬ (x.txn.txn_id = id ∧ x.status = .AUDIT_SUCCESS))
    (hid : e.txn.txn_id = id) (hst : e.status = .AUDIT_SUCCESS) :
    mark_nodes (pre ++ e :: post) id =
      pre ++ { e with status := .AUDIT_ROLLED_BACK, message := rolled_back_message id } :: post := by
  induction pre with
  | nil => simp [mark_nodes, hid, hst]
  | cons a rest ih =>
    have h := ih (fun x hx => hpre x (List.mem_cons_of_mem _ hx))
    rw [List.cons_append, List.cons_append]
    simp only [mark_nodes]
    rw [if_neg (hpre a (List.mem_cons_self _ _)), h]

theorem mark_nodes_length (l : List AuditNode) (id : Int) :
    (mark_nodes l id).length = l.length := by
  induction l with
  | nil => rfl
  | cons a rest ih =>
    simp only [mark_nodes]
    split <;> simp [ih]

theorem mark_nodes_ids (l : List AuditNode) (id : Int) :
    (mark_nodes l id).map (fun e => e.txn.txn_id) = l.map (fun e => e.txn.txn_id) := by
  induction l with
  | nil => rfl
  | cons a rest ih =>
    simp only [mark_nodes]
    split <;> simp [ih]

theorem mark_nodes_index (l : List AuditNode) (id : Int) :
    (mark_nodes l id).map (fun e => e.index) = l.map (fun e => e.index) := by
  induction l with
  | nil => rfl
  | cons a rest ih =>
    simp only [mark_nodes]
    split <;> simp [ih]

/-- The last element of a filtered and mapped list comes from a last matching
element of the list. -/
theorem filter_map_eq_append_singleton {α β : Type} (p : α → Bool) (f : α → β)
    (l : List α) (xs : List β) (t : β) (h : (l.filter p).map f = xs ++ [t]) :
    ∃ pre e post, l = pre ++ e :: post ∧ p e = true ∧ f e = t ∧
      (∀ x ∈ post, p x = false) ∧ (pre.filter p).map f = xs := by
  induction l using List.reverseRecOn with
  | nil => simp at h
  | append_singleton l a ih =>
    by_cases hp : p a = true
    · rw [List.filter_append, List.map_append] at h
      simp only [List.filter, hp, List.map] at h
      obtain ⟨h1, h2⟩ := List.append_inj' h rfl
      refine ⟨l, a, [], rfl, hp, by simpa using h2, by simp, h1⟩
    · rw [List.filter_append, List.map_append] at h
      simp only [List.filter, hp, List.map, List.append_nil] at h
      obtain ⟨pre, e, post, hl, hpe, hfe, hpost, hpre⟩ := ih h
      refine ⟨pre, e, post ++ [a], by simp [hl], hpe, hfe, ?_, hpre⟩
      intro x hx
      rcases List.mem_append.1 hx with hx | hx
      · exact hpost x hx
      · simp at hx; subst hx; simpa using hp

/-! ## Lemmas: the invariant is preserved -/

theorem numbering_append (l : List AuditNode) (e₀ : AuditNode)
    (h : ∀ (i : Nat) (e : AuditNode), l[i]? = some e → e.index = (i : Int) + 1)
    (h₀ : e₀.index = (l.length : Int) + 1) :
    ∀ (i : Nat) (e : AuditNode), (l ++ [e₀])[i]? = some e → e.index = (i : Int) + 1 := by
  intro i e hi
  by_cases hlt : i < l.length
  · rw [List.getElem?_append_left hlt] at hi
    exact h i e hi
  · rw [List.getElem?_append_right (by omega)] at hi
    have : i - l.length = 0 := by
      by_contra hne
      obtain ⟨k, hk⟩ : ∃ k, i - l.length = k + 1 := ⟨i - l.length - 1, by omega⟩
      rw [hk] at hi
      simp at hi
    rw [this] at hi
    simp at hi
    subst hi
    rw [h₀]
    have : i = l.length := by omega
    rw [this]

theorem numbering_mark (l : List AuditNode) (id : Int)
    (h : ∀ (i : Nat) (e : AuditNode), l[i]? = some e → e.index = (i : Int) + 1) :
    ∀ (i : Nat) (e : AuditNode), (mark_nodes l id)[i]? = some e → e.index = (i : Int) + 1 := by
  intro i e hi
  have hm := congrArg (fun m => m[i]?) (mark_nodes_index l id)
  simp only [List.getElem?_map, hi, Option.map_some'] at hm
  cases hl : l[i]? with
  | none => simp [hl] at hm
  | some e₁ =>
    simp only [hl, Option.map_some', Option.some.injEq] at hm
    rw [hm]
    exact h i e₁ hl

theorem consistent_empty : Consistent empty_ledger := by
  constructor <;> simp [empty_ledger]

theorem consistent_next_id (s : Ledger) (h : Consistent s) :
    Consistent { s with next_txn_id := s.next_txn_id + 1 } := by
  obtain ⟨h1, h2, h3, h4, h5, h6, h7, h8⟩ := h
  refine ⟨h1, h2, h3, h4, h5, ?_, ?_, h8⟩
  · intro t ht; have := h6 t ht; simp only; omega
  · intro e he; have := h7 e he; simp only; omega

theorem consistent_enqueue (s : Ledger) (t : Transaction) (h : Consistent s)
    (ht : t.txn_id = s.next_txn_id) :
    Consistent (enqueue t { s with next_txn_id := s.next_txn_id + 1 }) := by
  obtain ⟨h1, h2, h3, h4, h5, h6, h7, h8⟩ := h
  refine ⟨h1, h2, h3, h4, ?_, ?_, ?_, ?_⟩
  · simp only [enqueue]
    rw [List.pairwise_append]
    refine ⟨h5, by simp, ?_⟩
    intro a ha b hb
    simp at hb; subst hb
    rw [ht]; exact h6 a ha
  · intro x hx
    simp only [enqueue] at hx ⊢
    rcases List.mem_append.1 hx with hx | hx
    · have := h6 x hx; omega
    · simp at hx; subst hx; omega
  · intro e he; have := h7 e he; simp only [enqueue]; omega
  · intro e he x hx
    simp only [enqueue] at hx he
    rcases List.mem_append.1 hx with hx | hx
    · exact h8 e he x hx
    · simp at hx; subst hx; rw [ht]; exact h7 e he

/-- In a consistent state with `t` on top of the stack, the audit log splits
around the one entry of `t`, which is the last Success entry. -/
theorem consistent_top_entry (s : Ledger) (h : Consistent s) (t : Transaction)
    (rest : List Transaction) (hs : s.success_stack = t :: rest) :
    ∃ pre e post, s.audit = pre ++ e :: post ∧ e.txn = t ∧ e.status = .AUDIT_SUCCESS ∧
      (∀ x ∈ pre, x.txn.txn_id ≠ t.txn_id) ∧ (∀ x ∈ post, x.txn.txn_id ≠ t.txn_id) ∧
      (∀ x ∈ post, x.status ≠ .AUDIT_SUCCESS) ∧
      (pre.filter (fun e => e.status = .AUDIT_SUCCESS)).map (fun e => e.txn) = rest.reverse := by
  have h3 := h.history
  rw [hs, List.reverse_cons] at h3
  obtain ⟨pre, e, post, hl, hpe, hfe, hpost, hpre⟩ :=
    filter_map_eq_append_singleton _ _ _ _ _ h3
  have hnd := h.ids_nodup
  rw [hl, List.map_append, List.map_cons] at hnd
  have hnd2 := List.nodup_append.1 hnd
  have hnd3 := List.nodup_cons.1 hnd2.2.1
  refine ⟨pre, e, post, hl, hfe, by simpa using hpe, ?_, ?_, ?_, hpre⟩
  · intro x hx hid
    refine hnd2.2.2 (List.mem_map.2 ⟨x, hx, rfl⟩) ?_
    rw [hid, ← hfe]
    exact List.mem_cons_self _ _
  · intro x hx hid
    apply hnd3.1
    rw [hfe, ← hid]
    exact List.mem_map.2 ⟨x, hx, rfl⟩
  · intro x hx
    simpa using hpost x hx

theorem cmd_create_account_frame (id : String) (b : Int) (s : Ledger) :
    (cmd_create_account id b s).1.txn_queue = s.txn_queue ∧
      (cmd_create_account id b s).1.success_stack = s.success_stack ∧
      (cmd_create_account id b s).1.audit = s.audit ∧
      (cmd_create_account id b s).1.audit_count = s.audit_count ∧
      (cmd_create_account id b s).1.next_txn_id = s.next_txn_id := by
  unfold cmd_create_account
  cases find_account s.accounts id with
  | some i => simp
  | none =>
    cases find_free s.accounts with
    | none => simp
    | some idx => simp

theorem cmd_txn_frame (tokens : List String) (s : Ledger) :
    (cmd_txn tokens s).1.accounts = s.accounts ∧
      (cmd_txn tokens s).1.account_count = s.account_count ∧
      (cmd_txn tokens s).1.success_stack = s.success_stack ∧
      (cmd_txn tokens s).1.audit = s.audit ∧
      (cmd_txn tokens s).1.audit_count = s.audit_count := by
  unfold cmd_txn
  split
  · simp
  · cases hp : parse_type (tokens.getD 1 "") with
    | none => simp
    | some ty => cases ty <;> simp only <;> split <;> simp [enqueue]

/-- What `mark_nodes` does to the entry at a position: nothing, or Success to
RolledBack with the rollback note. -/
theorem mark_nodes_entry (l : List AuditNode) (id : Int) (i : Nat) (e : AuditNode)
    (h : l[i]? = some e) :
    ∃ e₁, (mark_nodes l id)[i]? = some e₁ ∧
      (e₁ = e ∨ (e.status = .AUDIT_SUCCESS ∧
        e₁ = { e with status := .AUDIT_ROLLED_BACK,
                      message := rolled_back_message e.txn.txn_id })) := by
  induction l generalizing i with
  | nil => simp at h
  | cons a rest ih =>
    simp only [mark_nodes]
    split
    · rename_i hc
      cases i with
      | zero =>
        simp at h; subst h
        refine ⟨{ a with status := .AUDIT_ROLLED_BACK, message := rolled_back_message id },
          by simp, Or.inr ⟨hc.2, by rw [hc.1]⟩⟩
      | succ i => exact ⟨e, by simpa using h, Or.inl rfl⟩
    · cases i with
      | zero => exact ⟨e, by simpa using h, Or.inl rfl⟩
      | succ i =>
        obtain ⟨e₁, h1, h2⟩ := ih i (by simpa using h)
        exact ⟨e₁, by simpa using h1, h2⟩

theorem amended_or_same_trans (e e₁ e₂ : AuditNode) (h₁ : amended_or_same e e₁)
    (h₂ : amended_or_same e₁ e₂) : amended_or_same e e₂ := by
  unfold amended_or_same at *
  rcases h₁ with rfl | ⟨hs, rfl⟩
  · exact h₂
  · rcases h₂ with rfl | ⟨hs2, _⟩
    · exact Or.inr ⟨hs, rfl⟩
    · simp at hs2

/-! ## Lemmas: balances under correct operation -/

theorem find_free_add_balance (l : List Account) (i : Nat) (d : Int) :
    find_free (add_balance l i d) = find_free l := by
  induction l generalizing i with
  | nil => rfl
  | cons a rest ih =>
    cases i with
    | zero => simp [add_balance, find_free]
    | succ i => simp [add_balance, find_free, ih]

theorem in_use_first_add_balance (l : List Account) (i : Nat) (d : Int)
    (h : in_use_first l) : in_use_first (add_balance l i d) := by
  induction l generalizing i with
  | nil => exact h
  | cons a rest ih =>
    cases i with
    | zero =>
      simp only [add_balance, in_use_first] at h ⊢
      rcases h with ⟨h1, h2⟩ | h
      · exact Or.inl ⟨h1, h2⟩
      · right
        intro b hb
        rcases List.mem_cons.1 hb with rfl | hb
        · exact h a (List.mem_cons_self _ _)
        · exact h b (List.mem_cons_of_mem _ hb)
    | succ i =>
      simp only [add_balance, in_use_first] at h ⊢
      rcases h with ⟨h1, h2⟩ | h
      · exact Or.inl ⟨h1, ih i h2⟩
      · have hall : ∀ b ∈ rest, b.in_use = false := fun b hb => h b (List.mem_cons_of_mem _ hb)
        have hr : in_use_first rest := by
          cases rest with
          | nil => trivial
          | cons c r => exact Or.inr hall
        have := ih i hr
        right
        intro b hb
        rcases List.mem_cons.1 hb with rfl | hb
        · exact h _ (List.mem_cons_self _ _)
        · -- members of `add_balance rest i d` keep their flag
          have hflag : ∀ (l : List Account) (i : Nat), (∀ b ∈ l, b.in_use = false) →
              ∀ b ∈ add_balance l i d, b.in_use = false := by
            intro l
            induction l with
            | nil => intro i _ b hb; simp [add_balance] at hb
            | cons c r ihl =>
              intro i hl b hb
              cases i with
              | zero =>
                simp only [add_balance] at hb
                rcases List.mem_cons.1 hb with rfl | hb
                · exact hl c (List.mem_cons_self _ _)
                · exact hl b (List.mem_cons_of_mem _ hb)
              | succ i =>
                simp only [add_balance] at hb
                rcases List.mem_cons.1 hb with rfl | hb
                · exact hl _ (List.mem_cons_self _ _)
                · exact ihl i (fun x hx => hl x (List.mem_cons_of_mem _ hx)) b hb
          exact hflag rest i hall b hb

theorem find_account_none_of_free (l : List Account) (id : String)
    (h : ∀ b ∈ l, b.in_use = false) : find_account l id = none := by
  induction l with
  | nil => rfl
  | cons a rest ih =>
    simp only [find_account]
    rw [if_neg (by simp [h a (List.mem_cons_self _ _)]),
      ih (fun b hb => h b (List.mem_cons_of_mem _ hb))]
    rfl

theorem in_use_first_tail (a : Account) (rest : List Account) (h : in_use_first (a :: rest)) :
    in_use_first rest := by
  simp only [in_use_first] at h
  rcases h with ⟨_, h⟩ | h
  · exact h
  · cases rest with
    | nil => trivial
    | cons c r => exact Or.inr (fun b hb => h b (List.mem_cons_of_mem _ hb))

/-- A slot found by `find_account` comes before the first free slot. -/
theorem find_account_lt_find_free (l : List Account) (id : String) (i idx : Nat)
    (hp : in_use_first l) (hfree : find_free l = some idx) (hf : find_account l id = some i) :
    i < idx := by
  induction l generalizing i idx with
  | nil => simp [find_account] at hf
  | cons a rest ih =>
    have hp' := in_use_first_tail a rest hp
    simp only [in_use_first] at hp
    rcases hp with ⟨hu, _⟩ | hall
    · simp only [find_free, hu] at hfree
      cases hfr : find_free rest with
      | none => simp [hfr] at hfree
      | some k =>
        simp [hfr] at hfree
        subst hfree
        simp only [find_account] at hf
        split at hf
        · simp at hf; omega
        · cases hfa : find_account rest id with
          | none => simp [hfa] at hf
          | some j =>
            simp [hfa] at hf
            subst hf
            have := ih j k hp' hfr hfa
            omega
    · rw [find_account_none_of_free _ _ hall] at hf
      cases hf

theorem find_account_set_account_lt (l : List Account) (id : String) (i idx : Nat)
    (b : Account) (hf : find_account l id = some i) (hlt : i < idx) :
    find_account (set_account l idx b) id = some i := by
  induction l generalizing i idx with
  | nil => simp [find_account] at hf
  | cons a rest ih =>
    cases idx with
    | zero => omega
    | succ k =>
      simp only [set_account, find_account] at hf ⊢
      split
      · rename_i hc
        rw [if_pos hc] at hf
        exact hf
      · rename_i hc
        rw [if_neg hc] at hf
        cases hfa : find_account rest id with
        | none => simp [hfa] at hf
        | some j =>
          simp [hfa] at hf
          subst hf
          rw [ih j k hfa (by omega)]
          rfl

theorem add_balance_set_account (l : List Account) (i idx : Nat) (d : Int) (b : Account)
    (hne : i ≠ idx) :
    add_balance (set_account l idx b) i d = set_account (add_balance l i d) idx b := by
  induction l generalizing i idx with
  | nil => rfl
  | cons a rest ih =>
    cases i <;> cases idx <;> simp_all [add_balance, set_account]

theorem find_free_set_get (l : List Account) (idx : Nat) (h : find_free l = some idx) :
    idx < l.length := by
  induction l generalizing idx with
  | nil => simp [find_free] at h
  | cons a rest ih =>
    simp only [find_free] at h
    split at h
    · simp at h; subst h; simp
    · cases hfr : find_free rest with
      | none => simp [hfr] at h
      | some k =>
        simp [hfr] at h
        subst h
        have := ih k hfr
        simp; omega

theorem in_use_first_set_account (l : List Account) (idx : Nat) (b : Account)
    (hp : in_use_first l) (hfree : find_free l = some idx) (hb : b.in_use = true) :
    in_use_first (set_account l idx b) := by
  induction l generalizing idx with
  | nil => trivial
  | cons a rest ih =>
    have hp' := in_use_first_tail a rest hp
    simp only [find_free] at hfree
    split at hfree
    · rename_i hu
      simp at hfree; subst hfree
      simp only [set_account, in_use_first]
      exact Or.inl ⟨hb, hp'⟩
    · rename_i hu
      cases hfr : find_free rest with
      | none => simp [hfr] at hfree
      | some k =>
        simp [hfr] at hfree
        subst hfree
        simp only [set_account, in_use_first]
        exact Or.inl ⟨by simpa using hu, ih k hp' hfr⟩

theorem find_account_undo_txn (l : List Account) (t : Transaction) (id : String) :
    find_account (undo_txn l t) id = find_account l id := by
  unfold undo_txn
  cases ht : t.type <;> simp only
  · cases hf : find_account l t.from_id <;> simp [find_account_add_balance]
  · cases hf : find_account l t.from_id <;> simp [find_account_add_balance]
  · cases hf : find_account l t.from_id <;> cases hg : find_account l t.to_id <;>
      simp [find_account_add_balance]

theorem find_free_undo_txn (l : List Account) (t : Transaction) :
    find_free (undo_txn l t) = find_free l := by
  unfold undo_txn
  cases ht : t.type <;> simp only
  · cases hf : find_account l t.from_id <;> simp [find_free_add_balance]
  · cases hf : find_account l t.from_id <;> simp [find_free_add_balance]
  · cases hf : find_account l t.from_id <;> cases hg : find_account l t.to_id <;>
      simp [find_free_add_balance]

theorem in_use_first_undo_txn (l : List Account) (t : Transaction) (h : in_use_first l) :
    in_use_first (undo_txn l t) := by
  unfold undo_txn
  cases ht : t.type <;> simp only
  · cases hf : find_account l t.from_id
    · exact h
    · exact in_use_first_add_balance _ _ _ h
  · cases hf : find_account l t.from_id
    · exact h
    · exact in_use_first_add_balance _ _ _ h
  · cases hf : find_account l t.from_id <;> cases hg : find_account l t.to_id
    · exact h
    · exact h
    · exact h
    · exact in_use_first_add_balance _ _ _ (in_use_first_add_balance _ _ _ h)

theorem in_use_first_apply_txn (l : List Account) (t : Transaction) (h : in_use_first l) :
    in_use_first (apply_txn l t) := by
  unfold apply_txn
  cases ht : t.type <;> simp only
  · cases hf : find_account l t.from_id
    · exact h
    · exact in_use_first_add_balance _ _ _ h
  · cases hf : find_account l t.from_id
    · exact h
    · exact in_use_first_add_balance _ _ _ h
  · cases hf : find_account l t.from_id <;> cases hg : find_account l t.to_id
    · exact h
    · exact h
    · exact h
    · exact in_use_first_add_balance _ _ _ (in_use_first_add_balance _ _ _ h)

/-- Undoing a transaction whose accounts are found commutes with filling the
first free slot. -/
theorem undo_txn_set_account (l : List Account) (t : Transaction) (idx : Nat) (b : Account)
    (hp : in_use_first l) (hfree : find_free l = some idx) (hfound : accounts_found l t) :
    undo_txn (set_account l idx b) t = set_account (undo_txn l t) idx b := by
  obtain ⟨h1, h2⟩ := hfound
  cases hf : find_account l t.from_id with
  | none => exact absurd hf h1
  | some i =>
    have hi := find_account_lt_find_free l _ i idx hp hfree hf
    have hf2 := find_account_set_account_lt l _ i idx b hf hi
    unfold undo_txn
    cases ht : t.type <;> simp only [hf, hf2]
    · exact add_balance_set_account _ _ _ _ _ (by omega)
    · exact add_balance_set_account _ _ _ _ _ (by omega)
    · cases hg : find_account l t.to_id with
      | none => exact absurd hg (h2 ht)
      | some j =>
        have hj := find_account_lt_find_free l _ j idx hp hfree hg
        have hg2 := find_account_set_account_lt l _ j idx b hg hj
        simp only [hg2]
        rw [add_balance_set_account _ _ _ _ _ (by omega),
          add_balance_set_account _ _ _ _ _ (by omega)]

theorem nonneg_set_account (l : List Account) (idx : Nat) (b : Account)
    (h : ∀ a ∈ l, 0 ≤ a.balance) (hb : 0 ≤ b.balance) :
    ∀ a ∈ set_account l idx b, 0 ≤ a.balance := by
  induction l generalizing idx with
  | nil => intro a ha; simp [set_account] at ha
  | cons c rest ih =>
    intro a ha
    cases idx with
    | zero =>
      simp only [set_account] at ha
      rcases List.mem_cons.1 ha with rfl | ha
      · exact hb
      · exact h a (List.mem_cons_of_mem _ ha)
    | succ k =>
      simp only [set_account] at ha
      rcases List.mem_cons.1 ha with rfl | ha
      · exact h _ (List.mem_cons_self _ _)
      · exact ih k (fun x hx => h x (List.mem_cons_of_mem _ hx)) a ha

theorem stack_safe_nonneg (l : List Account) (st : List Transaction) (h : stack_safe l st) :
    ∀ a ∈ l, 0 ≤ a.balance := by
  cases st with
  | nil => exact h
  | cons t rest => exact h.1

theorem stack_safe_set_account (st : List Transaction) (l : List Account) (idx : Nat)
    (b : Account) (hp : in_use_first l) (hfree : find_free l = some idx)
    (hb : 0 ≤ b.balance) (h : stack_safe l st) :
    stack_safe (set_account l idx b) st := by
  induction st generalizing l with
  | nil => exact nonneg_set_account l idx b h hb
  | cons t rest ih =>
    obtain ⟨h1, h2, h3⟩ := h
    refine ⟨nonneg_set_account l idx b h1 hb, ?_, ?_⟩
    · obtain ⟨f1, f2⟩ := h2
      constructor
      · cases hf : find_account l t.from_id with
        | none => exact absurd hf f1
        | some i =>
          rw [find_account_set_account_lt l _ i idx b hf
            (find_account_lt_find_free l _ i idx hp hfree hf)]
          simp
      · intro ht
        cases hg : find_account l t.to_id with
        | none => exact absurd hg (f2 ht)
        | some j =>
          rw [find_account_set_account_lt l _ j idx b hg
            (find_account_lt_find_free l _ j idx hp hfree hg)]
          simp
    · rw [undo_txn_set_account l t idx b hp hfree h2]
      exact ih _ (in_use_first_undo_txn l t hp) (by rw [find_free_undo_txn]; exact hfree) h3

theorem nonneg_balance_at (l : List Account) (i : Nat) (h : ∀ a ∈ l, 0 ≤ a.balance) :
    0 ≤ balance_at l i := by
  induction l generalizing i with
  | nil => simp [balance_at]
  | cons c rest ih =>
    cases i with
    | zero => exact h c (List.mem_cons_self _ _)
    | succ k => exact ih k (fun x hx => h x (List.mem_cons_of_mem _ hx))

theorem nonneg_add_balance (l : List Account) (i : Nat) (d : Int)
    (h : ∀ a ∈ l, 0 ≤ a.balance) (hd : 0 ≤ balance_at l i + d) :
    ∀ a ∈ add_balance l i d, 0 ≤ a.balance := by
  induction l generalizing i with
  | nil => intro a ha; simp [add_balance] at ha
  | cons c rest ih =>
    intro a ha
    cases i with
    | zero =>
      simp only [add_balance] at ha
      rcases List.mem_cons.1 ha with rfl | ha
      · exact hd
      · exact h a (List.mem_cons_of_mem _ ha)
    | succ k =>
      simp only [add_balance] at ha
      rcases List.mem_cons.1 ha with rfl | ha
      · exact h _ (List.mem_cons_self _ _)
      · exact ih k (fun x hx => h x (List.mem_cons_of_mem _ hx)) hd a ha

theorem nonneg_apply_txn (l : List Account) (t : Transaction)
    (h : ∀ a ∈ l, 0 ≤ a.balance) (ha : 0 ≤ t.amount) (hc : can_apply l t = true) :
    ∀ a ∈ apply_txn l t, 0 ≤ a.balance := by
  unfold can_apply at hc
  unfold apply_txn
  cases ht : t.type <;> simp only [ht] at hc ⊢
  · cases hf : find_account l t.from_id with
    | none => exact h
    | some i =>
      have := nonneg_balance_at l i h
      exact nonneg_add_balance l i _ h (by omega)
  · cases hf : find_account l t.from_id with
    | none => exact h
    | some i =>
      simp [hf] at hc
      exact nonneg_add_balance l i _ h (by omega)
  · cases hf : find_account l t.from_id with
    | none => exact h
    | some i =>
      cases hg : find_account l t.to_id with
      | none => exact h
      | some j =>
        simp [hf, hg] at hc
        have h1 := nonneg_add_balance l i (-t.amount) h (by omega)
        have := nonneg_balance_at _ j h1
        exact nonneg_add_balance _ j _ h1 (by omega)

theorem can_apply_accounts_found (l : List Account) (t : Transaction)
    (hc : can_apply l t = true) : accounts_found l t := by
  unfold can_apply at hc
  unfold accounts_found
  cases ht : t.type <;> simp only [ht] at hc
  · cases hf : find_account l t.from_id <;> simp_all
  · cases hf : find_account l t.from_id <;> simp_all
  · cases hf : find_account l t.from_id <;> cases hg : find_account l t.to_id <;> simp_all

theorem in_use_first_replicate (n : Nat) (a : Account) (h : a.in_use = false) :
    in_use_first (List.replicate n a) := by
  cases n with
  | zero => trivial
  | succ n =>
    rw [List.replicate_succ]
    right
    intro b hb
    rw [← List.replicate_succ] at hb
    rw [List.eq_of_mem_replicate hb]
    exact h

theorem safe_empty : Safe empty_ledger := by
  constructor
  · exact in_use_first_replicate _ _ rfl
  · intro t ht
    simp [empty_ledger] at ht
  · intro a ha
    simp only [empty_ledger] at ha
    rw [List.eq_of_mem_replicate ha]

theorem safe_create (s : Ledger) (id : String) (b : Int) (hb : 0 ≤ b) (h : Safe s) :
    Safe (cmd_create_account id b s).1 := by
  unfold cmd_create_account
  cases hf : find_account s.accounts id with
  | some i => exact h
  | none =>
    cases hg : find_free s.accounts with
    | none => exact h
    | some idx =>
      exact ⟨in_use_first_set_account _ _ _ h.slots hg rfl, h.queue_nonneg,
        stack_safe_set_account _ _ _ _ h.slots hg hb h.balances⟩

theorem cmd_txn_queue_mem (tokens : List String) (s : Ledger) :
    ∀ t ∈ (cmd_txn tokens s).1.txn_queue,
      t ∈ s.txn_queue ∨ (well_formed tokens ∧ t = submitted_txn s.next_txn_id tokens) := by
  by_cases hw : well_formed tokens
  · rw [cmd_txn_well_formed tokens s hw]
    intro t ht
    simp only [enqueue] at ht
    rcases List.mem_append.1 ht with ht | ht
    · exact Or.inl ht
    · simp at ht; exact Or.inr ⟨hw, ht⟩
  · intro t ht
    left
    unfold well_formed at hw
    unfold cmd_txn at ht
    split at ht
    · exact ht
    · cases hp : parse_type (tokens.getD 1 "") with
      | none => simp only [hp] at ht; exact ht
      | some ty =>
        simp only [hp] at ht hw
        cases ty <;> simp only at ht <;> split at ht <;> first
          | exact ht
          | (exfalso; apply hw; simp_all)

theorem safe_txn (s : Ledger) (tokens : List String)
    (ha : well_formed tokens → 0 ≤ (submitted_txn s.next_txn_id tokens).amount)
    (h : Safe s) : Safe (cmd_txn tokens s).1 := by
  obtain ⟨f1, _, f3, _, _⟩ := cmd_txn_frame tokens s
  refine ⟨by rw [f1]; exact h.slots, ?_, by rw [f1, f3]; exact h.balances⟩
  intro t ht
  rcases cmd_txn_queue_mem tokens s t ht with ht | ⟨hw, rfl⟩
  · exact h.queue_nonneg t ht
  · exact ha hw

theorem safe_process (s : Ledger) (h : Safe s) : Safe (process_next s) := by
  cases hq : s.txn_queue with
  | nil => rw [process_next_nil s hq]; exact h
  | cons t rest =>
    have hqueue : (process_next s).txn_queue = rest := by rw [process_next_queue, hq]; rfl
    have hacc := process_next_accounts s t rest hq
    have hst := process_next_stack s t rest hq
    have hamt : 0 ≤ t.amount := h.queue_nonneg t (by rw [hq]; exact List.mem_cons_self _ _)
    have hqn : ∀ x ∈ (process_next s).txn_queue, 0 ≤ x.amount := by
      rw [hqueue]
      intro x hx
      exact h.queue_nonneg x (by rw [hq]; exact List.mem_cons_of_mem _ hx)
    by_cases hc : can_apply s.accounts t = true
    · simp only [hc, if_true] at hacc hst
      refine ⟨by rw [hacc]; exact in_use_first_apply_txn _ _ h.slots, hqn, ?_⟩
      rw [hacc, hst]
      refine ⟨nonneg_apply_txn _ _ (stack_safe_nonneg _ _ h.balances) hamt hc, ?_, ?_⟩
      · obtain ⟨f1, f2⟩ := can_apply_accounts_found _ _ hc
        exact ⟨by rw [find_account_apply_txn]; exact f1,
          fun ht => by rw [find_account_apply_txn]; exact f2 ht⟩
      · rw [undo_apply_txn]; exact h.balances
    · simp only [hc] at hacc hst
      exact ⟨by rw [hacc]; exact h.slots, hqn, by rw [hacc, hst]; exact h.balances⟩

theorem safe_rollback_loop (k : Nat) (s : Ledger) (h : Safe s) : Safe (rollback_loop k s) := by
  induction k generalizing s with
  | zero => exact h
  | succ k ih =>
    cases hs : s.success_stack with
    | nil => rw [rollback_loop_nil _ s hs]; exact h
    | cons t rest =>
      rw [rollback_loop_cons k s t rest hs]
      apply ih
      have hf := rollback_txn_fields t { s with success_stack := rest }
      simp only at hf
      have hb := h.balances
      rw [hs] at hb
      exact ⟨by rw [hf.1]; exact in_use_first_undo_txn _ _ h.slots,
        by rw [hf.2.2.1]; exact h.queue_nonneg,
        by rw [hf.1, hf.2.1]; exact hb.2.2⟩

theorem safe_rollback (n : Int) (s : Ledger) (h : Safe s) : Safe (cmd_rollback n s) := by
  unfold cmd_rollback
  split
  · exact h
  · exact safe_rollback_loop _ s h

theorem reachable_nonneg_safe (s : Ledger) (h : ReachableNonneg s) : Safe s := by
  induction h with
  | init => exact safe_empty
  | create s id b hb _ ih => exact safe_create s id b hb ih
  | txn s tokens ha _ ih => exact safe_txn s tokens ha ih
  | process s _ ih => exact safe_process s ih
  | rollback s n _ ih => exact safe_rollback n s ih

theorem scenario_processed_nonneg : ReachableNonneg scenario_processed :=
  ReachableNonneg.process _ (ReachableNonneg.process _ (ReachableNonneg.process _
    (ReachableNonneg.txn _ _ (fun _ => by decide)
      (ReachableNonneg.txn _ _ (fun _ => by decide)
        (ReachableNonneg.txn _ _ (fun _ => by decide)
          (ReachableNonneg.create _ _ _ (by decide)
            (ReachableNonneg.create _ _ _ (by decide) ReachableNonneg.init)))))))

/-! ## Lemmas: transaction ids -/

theorem rollback_loop_frame (k : Nat) (s : Ledger) :
    (rollback_loop k s).txn_queue = s.txn_queue ∧
      (rollback_loop k s).next_txn_id = s.next_txn_id ∧
      (rollback_loop k s).audit_count = s.audit_count ∧
      (rollback_loop k s).account_count = s.account_count := by
  induction k generalizing s with
  | zero => exact ⟨rfl, rfl, rfl, rfl⟩
  | succ k ih =>
    cases hs : s.success_stack with
    | nil => rw [rollback_loop_nil _ s hs]; exact ⟨rfl, rfl, rfl, rfl⟩
    | cons t rest =>
      rw [rollback_loop_cons k s t rest hs]
      have hf := rollback_txn_fields t { s with success_stack := rest }
      simp only at hf
      obtain ⟨h1, h2, h3, h4⟩ := ih (rollback_txn t { s with success_stack := rest })
      exact ⟨h1.trans hf.2.2.1, h2.trans hf.2.2.2.1, h3.trans hf.2.2.2.2.2.1,
        h4.trans hf.2.2.2.2.2.2⟩

theorem cmd_rollback_frame (n : Int) (s : Ledger) :
    (cmd_rollback n s).txn_queue = s.txn_queue ∧
      (cmd_rollback n s).next_txn_id = s.next_txn_id ∧
      (cmd_rollback n s).audit_count = s.audit_count ∧
      (cmd_rollback n s).account_count = s.account_count := by
  unfold cmd_rollback
  split
  · exact ⟨rfl, rfl, rfl, rfl⟩
  · exact rollback_loop_frame _ s

/-! ## Lemmas: creating an account -/

theorem copy_str_short (size : Nat) (str : String) (h : str.length ≤ size - 1) :
    copy_str size str = str := by
  cases str with
  | mk data =>
    unfold copy_str
    have h₁ : data.length ≤ size - 1 := h
    simp only
    rw [List.take_of_length_le h₁]

theorem find_free_none_iff (l : List Account) :
    find_free l = none ↔ (l.filter (fun a => a.in_use)).length = l.length := by
  induction l with
  | nil => simp [find_free]
  | cons a rest ih =>
    have hle := List.length_filter_le (fun a : Account => a.in_use) rest
    cases hu : a.in_use with
    | false =>
      simp only [find_free, hu, List.filter, List.length_cons]
      constructor
      · intro h; simp at h
      · intro h; omega
    | true =>
      simp only [find_free, hu, List.filter, List.length_cons]
      rw [if_neg (by simp)]
      constructor
      · intro h
        have : find_free rest = none := by
          cases hr : find_free rest with
          | none => rfl
          | some k => simp [hr] at h
        rw [ih.1 this]
      · intro h
        rw [ih.2 (by omega)]
        rfl

theorem in_use_count_set_account (l : List Account) (idx : Nat) (b : Account)
    (hfree : find_free l = some idx) (hb : b.in_use = true) :
    ((set_account l idx b).filter (fun a => a.in_use)).length =
      (l.filter (fun a => a.in_use)).length + 1 := by
  induction l generalizing idx with
  | nil => simp [find_free] at hfree
  | cons a rest ih =>
    simp only [find_free] at hfree
    split at hfree
    · rename_i hu
      simp at hfree; subst hfree
      simp [set_account, List.filter, hu, hb]
    · rename_i hu
      cases hfr : find_free rest with
      | none => simp [hfr] at hfree
      | some k =>
        simp [hfr] at hfree
        subst hfree
        have hu' : a.in_use = true := by simpa using hu
        simp [set_account, List.filter, hu', ih k hfr]

/-- The slot filled by `cmd_create_account` is found under the stored id when
no slot in use carried that id. -/
theorem find_account_set_account_new (l : List Account) (idx : Nat) (b : Account)
    (hfree : find_free l = some idx) (hnone : find_account l b.id = none)
    (hb : b.in_use = true) :
    find_account (set_account l idx b) b.id = some idx := by
  induction l generalizing idx with
  | nil => simp [find_free] at hfree
  | cons a rest ih =>
    simp only [find_free] at hfree
    split at hfree
    · simp at hfree; subst hfree
      simp [set_account, find_account, hb]
    · rename_i hu
      cases hfr : find_free rest with
      | none => simp [hfr] at hfree
      | some k =>
        simp [hfr] at hfree
        subst hfree
        simp only [find_account] at hnone
        split at hnone
        · simp at hnone
        · rename_i hc
          have hn : find_account rest b.id = none := by
            cases hr : find_account rest b.id with
            | none => rfl
            | some j => simp [hr] at hnone
          simp only [set_account, find_account]
          rw [if_neg hc, ih k hfr hn]
          rfl

theorem find_account_set_account_other (l : List Account) (idx : Nat) (b : Account)
    (id : String) (hfree : find_free l = some idx) (hne : b.id ≠ id) :
    find_account (set_account l idx b) id = find_account l id := by
  induction l generalizing idx with
  | nil => simp [find_free] at hfree
  | cons a rest ih =>
    simp only [find_free] at hfree
    split at hfree
    · rename_i hu
      simp at hfree; subst hfree
      simp [set_account, find_account, hu, hne]
    · cases hfr : find_free rest with
      | none => simp [hfr] at hfree
      | some k =>
        simp [hfr] at hfree
        subst hfree
        simp only [set_account, find_account]
        rw [ih k hfr]

theorem slot_set_account_ne (l : List Account) (idx j : Nat) (b : Account) (h : idx ≠ j) :
    (set_account l idx b)[j]? = l[j]? := by
  induction l generalizing idx j with
  | nil => rfl
  | cons a rest ih =>
    cases idx <;> cases j <;> simp_all [set_account]

theorem slot_set_account_same (l : List Account) (idx : Nat) (b : Account)
    (h : idx < l.length) : (set_account l idx b)[idx]? = some b := by
  induction l generalizing idx with
  | nil => simp at h
  | cons a rest ih =>
    cases idx with
    | zero => simp [set_account]
    | succ k => simpa [set_account] using ih k (by simpa using h)

theorem find_free_slot (l : List Account) (idx : Nat) (h : find_free l = some idx) :
    ∃ a, l[idx]? = some a ∧ a.in_use = false := by
  induction l generalizing idx with
  | nil => simp [find_free] at h
  | cons a rest ih =>
    simp only [find_free] at h
    split at h
    · rename_i hu
      simp at h; subst h
      exact ⟨a, by simp, hu⟩
    · cases hfr : find_free rest with
      | none => simp [hfr] at h
      | some k =>
        simp [hfr] at h
        subst h
        simpa using ih k hfr

theorem set_account_length (l : List Account) (idx : Nat) (b : Account) :
    (set_account l idx b).length = l.length := by
  induction l generalizing idx with
  | nil => rfl
  | cons a rest ih => cases idx <;> simp [set_account, ih]

/-! ## Lemmas: the commands on machine integers -/

theorem wrap64_of_range (x : Int) (h₁ : Machine.LLONG_MIN ≤ x) (h₂ : x ≤ Machine.LLONG_MAX) :
    Machine.wrap64 x = x := by
  unfold Machine.LLONG_MIN at h₁
  unfold Machine.LLONG_MAX at h₂
  unfold Machine.wrap64
  omega

theorem wrap32_of_range (x : Int) (h₁ : Machine.INT_MIN ≤ x) (h₂ : x ≤ Machine.INT_MAX) :
    Machine.wrap32 x = x := by
  unfold Machine.INT_MIN at h₁
  unfold Machine.INT_MAX at h₂
  unfold Machine.wrap32
  omega

theorem wrap32_add_one (x : Int) : Machine.wrap32 (Machine.wrap32 x + 1) = Machine.wrap32 (x + 1) := by
  unfold Machine.wrap32
  omega

/-- The machine `+=` is the unbounded one with the difference to the reduced
value as the amount. -/
theorem machine_add_balance_eq (l : List Account) (i : Nat) (d : Int) :
    Machine.add_balance l i d =
      add_balance l i (Machine.wrap64 (balance_at l i + d) - balance_at l i) := by
  induction l generalizing i with
  | nil => rfl
  | cons a rest ih =>
    cases i with
    | zero =>
      simp only [Machine.add_balance, add_balance, balance_at]
      congr 2
      omega
    | succ i =>
      simp only [Machine.add_balance, add_balance, balance_at]
      rw [ih]

theorem machine_find_account_add_balance (l : List Account) (i : Nat) (d : Int) (id : String) :
    find_account (Machine.add_balance l i d) id = find_account l id := by
  rw [machine_add_balance_eq, find_account_add_balance]

theorem machine_add_balance_length (l : List Account) (i : Nat) (d : Int) :
    (Machine.add_balance l i d).length = l.length := by
  rw [machine_add_balance_eq, add_balance_length]

theorem machine_balance_at_same (l : List Account) (i : Nat) (d : Int) (h : i < l.length) :
    balance_at (Machine.add_balance l i d) i = Machine.wrap64 (balance_at l i + d) := by
  rw [machine_add_balance_eq, balance_at_add_balance_same _ _ _ h]
  omega

theorem machine_balance_at_ne (l : List Account) (i j : Nat) (d : Int) (h : i ≠ j) :
    balance_at (Machine.add_balance l i d) j = balance_at l j := by
  rw [machine_add_balance_eq, balance_at_add_balance_ne _ _ _ _ h]

theorem machine_slot_add_balance_ne (l : List Account) (i j : Nat) (d : Int) (h : i ≠ j) :
    (Machine.add_balance l i d).get? j = l.get? j := by
  rw [machine_add_balance_eq, slot_add_balance_ne _ _ _ _ h]

theorem machine_cmd_process_fail (s : Ledger) (t : Transaction) (rest : List Transaction)
    (hq : s.txn_queue = t :: rest) (hc : can_apply s.accounts t = false) :
    ∃ msg, Machine.cmd_process s =
      (Machine.append_audit t .AUDIT_FAIL msg { s with txn_queue := rest }, .failure) := by
  unfold Machine.cmd_process
  rw [hq]
  unfold can_apply at hc
  cases ht : t.type <;> simp only [ht] at hc ⊢
  · cases hf : find_account s.accounts t.from_id <;> simp_all
    exact ⟨_, rfl⟩
  · cases hf : find_account s.accounts t.from_id <;> simp_all <;> exact ⟨_, rfl⟩
  · cases hf : find_account s.accounts t.from_id <;>
      cases hg : find_account s.accounts t.to_id <;> simp_all <;> exact ⟨_, rfl⟩

theorem machine_cmd_process_ok (s : Ledger) (t : Transaction) (rest : List Transaction)
    (hq : s.txn_queue = t :: rest) (hc : can_apply s.accounts t = true) :
    ∃ msg, Machine.cmd_process s =
      (push_success t (Machine.append_audit t .AUDIT_SUCCESS msg
        { s with txn_queue := rest, accounts := Machine.apply_txn s.accounts t }), .success) := by
  unfold Machine.cmd_process
  rw [hq]
  unfold can_apply at hc
  unfold Machine.apply_txn
  cases ht : t.type <;> simp only [ht] at hc ⊢
  · cases hf : find_account s.accounts t.from_id <;> simp_all
    exact ⟨_, rfl⟩
  · cases hf : find_account s.accounts t.from_id <;> simp_all
    rw [if_neg (not_lt.mpr hc)]
    exact ⟨_, rfl⟩
  · cases hf : find_account s.accounts t.from_id <;>
      cases hg : find_account s.accounts t.to_id <;> simp_all
    rw [if_neg (not_lt.mpr hc)]
    exact ⟨_, rfl⟩

/-- The fields of the state after one machine `PROCESS` command on a non-empty
queue. -/
theorem machine_process_fields (s : Ledger) (t : Transaction) (rest : List Transaction)
    (hq : s.txn_queue = t :: rest) :
    (Machine.cmd_process s).2 =
        (if can_apply s.accounts t = true then .success else .failure) ∧
      (Machine.process_next s).accounts =
        (if can_apply s.accounts t = true then Machine.apply_txn s.accounts t
          else s.accounts) ∧
      (Machine.process_next s).success_stack =
        (if can_apply s.accounts t = true then t :: s.success_stack else s.success_stack) ∧
      (Machine.process_next s).txn_queue = rest ∧
      (Machine.process_next s).next_txn_id = s.next_txn_id ∧
      (Machine.process_next s).account_count = s.account_count ∧
      (Machine.process_next s).audit_count = Machine.wrap32 (s.audit_count + 1) ∧
      ∃ msg, (Machine.process_next s).audit = s.audit ++
        [{ index := Machine.wrap32 (s.audit_count + 1), txn := t,
           status := if can_apply s.accounts t = true then .AUDIT_SUCCESS else .AUDIT_FAIL,
           message := msg }] := by
  unfold Machine.process_next
  by_cases hc : can_apply s.accounts t = true
  · obtain ⟨msg, h⟩ := machine_cmd_process_ok s t rest hq hc
    rw [h]
    simp only [hc, if_true, push_success, Machine.append_audit]
    exact ⟨trivial, trivial, trivial, trivial, trivial, trivial, trivial, _, rfl⟩
  · obtain ⟨msg, h⟩ := machine_cmd_process_fail s t rest hq (by simpa using hc)
    rw [h]
    simp only [hc, Machine.append_audit]
    refine ⟨by simp, by simp, by simp, by simp, by simp, by simp, by simp, copy_str MSG_LEN msg, by simp⟩

theorem machine_process_next_nil (s : Ledger) (hq : s.txn_queue = []) :
    Machine.process_next s = s := by
  simp [Machine.process_next, Machine.cmd_process, hq]

theorem machine_rollback_txn_fields (t : Transaction) (s : Ledger) :
    (Machine.rollback_txn t s).accounts = Machine.undo_txn s.accounts t ∧
      (Machine.rollback_txn t s).success_stack = s.success_stack ∧
      (Machine.rollback_txn t s).txn_queue = s.txn_queue ∧
      (Machine.rollback_txn t s).next_txn_id = s.next_txn_id ∧
      (Machine.rollback_txn t s).audit = mark_nodes s.audit t.txn_id ∧
      (Machine.rollback_txn t s).audit_count = s.audit_count ∧
      (Machine.rollback_txn t s).account_count = s.account_count := by
  unfold Machine.rollback_txn Machine.undo_txn mark_rolled_back
  cases ht : t.type <;> simp only [ht]
  · cases hf : find_account s.accounts t.from_id <;> simp
  · cases hf : find_account s.accounts t.from_id <;> simp
  · cases hf : find_account s.accounts t.from_id <;>
      cases hg : find_account s.accounts t.to_id <;> simp

theorem machine_rollback_loop_nil (k : Nat) (s : Ledger) (h : s.success_stack = []) :
    Machine.rollback_loop k s = s := by
  cases k <;> simp [Machine.rollback_loop, h]

theorem machine_rollback_loop_cons (k : Nat) (s : Ledger) (t : Transaction)
    (rest : List Transaction) (h : s.success_stack = t :: rest) :
    Machine.rollback_loop (k + 1) s =
      Machine.rollback_loop k (Machine.rollback_txn t { s with success_stack := rest }) := by
  simp [Machine.rollback_loop, h]

theorem machine_cmd_rollback_one (s : Ledger) :
    Machine.cmd_rollback 1 s = Machine.rollback_loop 1 s := by
  unfold Machine.cmd_rollback
  rw [if_neg (by omega)]
  rfl

theorem machine_find_account_apply_txn (l : List Account) (t : Transaction) (id : String) :
    find_account (Machine.apply_txn l t) id = find_account l id := by
  unfold Machine.apply_txn
  cases ht : t.type <;> simp only
  · cases hf : find_account l t.from_id <;> simp [machine_find_account_add_balance]
  · cases hf : find_account l t.from_id <;> simp [machine_find_account_add_balance]
  · cases hf : find_account l t.from_id <;> cases hg : find_account l t.to_id <;>
      simp [machine_find_account_add_balance]

theorem machine_slot_apply_txn (l : List Account) (t : Transaction) (j : Nat)
    (h₁ : find_account l t.from_id ≠ some j)
    (h₂ : t.type = .TXN_TRANSFER → find_account l t.to_id ≠ some j) :
    (Machine.apply_txn l t).get? j = l.get? j := by
  unfold Machine.apply_txn
  cases ht : t.type <;> simp only
  · cases hf : find_account l t.from_id with
    | none => rfl
    | some i => exact machine_slot_add_balance_ne _ _ _ _ (fun h => h₁ (by rw [hf, h]))
  · cases hf : find_account l t.from_id with
    | none => rfl
    | some i => exact machine_slot_add_balance_ne _ _ _ _ (fun h => h₁ (by rw [hf, h]))
  · cases hf : find_account l t.from_id with
    | none => rfl
    | some i =>
      cases hg : find_account l t.to_id with
      | none => rfl
      | some k =>
        simp only
        rw [machine_slot_add_balance_ne _ _ _ _ (fun h => h₂ ht (by rw [hg, h])),
          machine_slot_add_balance_ne _ _ _ _ (fun h => h₁ (by rw [hf, h]))]

theorem wrap64_in_range (x : Int) (h : in_range64 x) : Machine.wrap64 x = x :=
  wrap64_of_range x h.1 h.2

theorem machine_cmd_txn_well_formed (tokens : List String) (s : Ledger)
    (h : well_formed tokens) :
    Machine.cmd_txn tokens s =
      (enqueue (Machine.submitted_txn s.next_txn_id tokens)
        { s with next_txn_id := Machine.wrap32 (s.next_txn_id + 1) }, .queued s.next_txn_id) := by
  unfold well_formed at h
  unfold Machine.cmd_txn Machine.submitted_txn
  rcases h with ⟨h | h, hl⟩ | ⟨h, hl⟩ <;> simp only [h, hl] <;> simp

theorem machine_process_deposit_found (s : Ledger) (t : Transaction)
    (rest : List Transaction) (b : Int) (hq : s.txn_queue = t :: rest)
    (ht : t.type = .TXN_DEPOSIT) (hbal : cmd_balance t.from_id s = some b) :
    (Machine.cmd_process s).2 = .success ∧
      cmd_balance t.from_id (Machine.process_next s) =
        some (Machine.wrap64 (b + t.amount)) := by
  unfold cmd_balance at hbal
  cases hf : find_account s.accounts t.from_id with
  | none => simp [hf] at hbal
  | some i =>
    simp only [hf, Option.map_some', Option.some.injEq] at hbal
    have hc : can_apply s.accounts t = true := by simp [can_apply, ht, hf]
    obtain ⟨hout, hacc, _⟩ := machine_process_fields s t rest hq
    simp only [hc, if_true] at hout hacc
    refine ⟨hout, ?_⟩
    unfold cmd_balance
    rw [hacc]
    simp only [Machine.apply_txn, ht, hf]
    rw [machine_find_account_add_balance, hf]
    simp only [Option.map_some']
    rw [machine_balance_at_same _ _ _ (find_account_lt _ _ _ hf), hbal]

theorem machine_process_withdraw_found (s : Ledger) (t : Transaction)
    (rest : List Transaction) (b : Int) (hq : s.txn_queue = t :: rest)
    (ht : t.type = .TXN_WITHDRAW) (hbal : cmd_balance t.from_id s = some b)
    (hle : t.amount ≤ b) :
    (Machine.cmd_process s).2 = .success ∧
      cmd_balance t.from_id (Machine.process_next s) =
        some (Machine.wrap64 (b - t.amount)) := by
  unfold cmd_balance at hbal
  cases hf : find_account s.accounts t.from_id with
  | none => simp [hf] at hbal
  | some i =>
    simp only [hf, Option.map_some', Option.some.injEq] at hbal
    have hc : can_apply s.accounts t = true := by simp [can_apply, ht, hf, hbal, hle]
    obtain ⟨hout, hacc, _⟩ := machine_process_fields s t rest hq
    simp only [hc, if_true] at hout hacc
    refine ⟨hout, ?_⟩
    unfold cmd_balance
    rw [hacc]
    simp only [Machine.apply_txn, ht, hf]
    rw [machine_find_account_add_balance, hf]
    simp only [Option.map_some']
    rw [machine_balance_at_same _ _ _ (find_account_lt _ _ _ hf), hbal]
    rfl

/-! ## Lemmas: transaction ids on machine integers -/

theorem machine_cmd_txn_cases (tokens : List String) (s : Ledger) :
    Machine.cmd_txn tokens s = (s, .invalid_command) ∨
      Machine.cmd_txn tokens s = (s, .invalid_type) ∨
      Machine.cmd_txn tokens s =
        ({ s with next_txn_id := Machine.wrap32 (s.next_txn_id + 1) }, .invalid_format) ∨
      ∃ t : Transaction, t.txn_id = s.next_txn_id ∧
        Machine.cmd_txn tokens s =
          (enqueue t { s with next_txn_id := Machine.wrap32 (s.next_txn_id + 1) },
            .queued s.next_txn_id) := by
  unfold Machine.cmd_txn
  split
  · exact Or.inl rfl
  · cases hp : parse_type (tokens.getD 1 "") with
    | none => exact Or.inr (Or.inl rfl)
    | some ty =>
      cases ty <;> simp only <;> split <;>
        first
        | exact Or.inr (Or.inr (Or.inl rfl))
        | exact Or.inr (Or.inr (Or.inr ⟨_, rfl, rfl⟩))

theorem machine_cmd_create_account_frame (id : String) (b : Int) (s : Ledger) :
    (Machine.cmd_create_account id b s).1.txn_queue = s.txn_queue ∧
      (Machine.cmd_create_account id b s).1.success_stack = s.success_stack ∧
      (Machine.cmd_create_account id b s).1.audit = s.audit ∧
      (Machine.cmd_create_account id b s).1.audit_count = s.audit_count ∧
      (Machine.cmd_create_account id b s).1.next_txn_id = s.next_txn_id := by
  unfold Machine.cmd_create_account
  cases find_account s.accounts id with
  | some i => simp
  | none =>
    cases find_free s.accounts with
    | none => simp
    | some idx => simp

/-- The invariant carries over to any state that differs only in fields the
invariant does not read. -/
theorem consistent_congr (s s₁ : Ledger) (h : Consistent s)
    (h₁ : s₁.txn_queue = s.txn_queue) (h₂ : s₁.success_stack = s.success_stack)
    (h₃ : s₁.audit = s.audit) (h₄ : s₁.audit_count = s.audit_count)
    (h₅ : s₁.next_txn_id = s.next_txn_id) : Consistent s₁ := by
  obtain ⟨c1, c2, c3, c4, c5, c6, c7, c8⟩ := h
  refine ⟨?_, ?_, ?_, ?_, ?_, ?_, ?_, ?_⟩
  · rw [h₃]; exact c1
  · rw [h₃, h₄]; exact c2
  · rw [h₃, h₂]; exact c3
  · rw [h₃]; exact c4
  · rw [h₁]; exact c5
  · rw [h₁, h₅]; exact c6
  · rw [h₃, h₅]; exact c7
  · rw [h₃, h₁]; exact c8

/-- The invariant after a `PROCESS` step, from the fields of the new state. -/
theorem consistent_of_process (s s₁ : Ledger) (t : Transaction) (rest : List Transaction)
    (e : AuditNode) (h : Consistent s) (hq : s.txn_queue = t :: rest)
    (ha : s₁.audit = s.audit ++ [e]) (hei : e.index = s.audit_count + 1) (het : e.txn = t)
    (hcnt : s₁.audit_count = s.audit_count + 1) (hqueue : s₁.txn_queue = rest)
    (hnext : s₁.next_txn_id = s.next_txn_id)
    (hst : (e.status = .AUDIT_SUCCESS ∧ s₁.success_stack = t :: s.success_stack) ∨
      (e.status ≠ .AUDIT_SUCCESS ∧ s₁.success_stack = s.success_stack)) :
    Consistent s₁ := by
  obtain ⟨h1, h2, h3, h4, h5, h6, h7, h8⟩ := h
  rw [hq] at h5 h6 h8
  rw [List.pairwise_cons] at h5
  refine ⟨?_, ?_, ?_, ?_, ?_, ?_, ?_, ?_⟩
  · rw [ha]
    exact numbering_append _ _ h1 (by rw [hei, h2])
  · rw [hcnt, ha, h2]; simp
  · rw [ha, List.filter_append, List.map_append, h3]
    rcases hst with ⟨hs, hstack⟩ | ⟨hs, hstack⟩
    · rw [hstack]; simp [List.filter, hs, het]
    · rw [hstack]; simp [List.filter, hs]
  · rw [ha, List.map_append, List.nodup_append]
    refine ⟨h4, by simp, ?_⟩
    intro x hx1 hx2
    simp at hx2
    obtain ⟨e₀, he₀, hex⟩ := List.mem_map.1 hx1
    have := h8 e₀ he₀ t (List.mem_cons_self _ _)
    rw [het] at hx2
    omega
  · rw [hqueue]; exact h5.2
  · rw [hqueue, hnext]
    intro x hx; exact h6 x (List.mem_cons_of_mem _ hx)
  · rw [ha, hnext]
    intro x hx
    rcases List.mem_append.1 hx with hx | hx
    · exact h7 x hx
    · simp at hx; subst hx; rw [het]; exact h6 t (List.mem_cons_self _ _)
  · rw [ha, hqueue]
    intro x hx q hq'
    rcases List.mem_append.1 hx with hx | hx
    · exact h8 x hx q (List.mem_cons_of_mem _ hq')
    · simp at hx; subst hx; rw [het]; exact h5.1 q hq'

/-- The invariant after one iteration of the rollback loop, from the fields of
the new state. -/
theorem consistent_of_rollback (s s₁ : Ledger) (t : Transaction) (rest : List Transaction)
    (h : Consistent s) (hs : s.success_stack = t :: rest)
    (ha : s₁.audit = mark_nodes s.audit t.txn_id) (hstack : s₁.success_stack = rest)
    (hqueue : s₁.txn_queue = s.txn_queue) (hnext : s₁.next_txn_id = s.next_txn_id)
    (hcnt : s₁.audit_count = s.audit_count) : Consistent s₁ := by
  obtain ⟨pre, e, post, hl, het, hes, hpre, hpost, hpost2, hfil⟩ :=
    consistent_top_entry s h t rest hs
  have hmark : mark_nodes s.audit t.txn_id =
      pre ++ { e with status := .AUDIT_ROLLED_BACK,
                      message := rolled_back_message t.txn_id } :: post := by
    rw [hl]
    exact mark_nodes_first_match pre post e t.txn_id (fun x hx hc => hpre x hx hc.1)
      (by rw [het]) hes
  obtain ⟨h1, h2, h3, h4, h5, h6, h7, h8⟩ := h
  have hmem : ∀ x ∈ mark_nodes s.audit t.txn_id, ∃ y ∈ s.audit, y.txn.txn_id = x.txn.txn_id := by
    intro x hx
    have : x.txn.txn_id ∈ (mark_nodes s.audit t.txn_id).map (fun e => e.txn.txn_id) :=
      List.mem_map.2 ⟨x, hx, rfl⟩
    rw [mark_nodes_ids] at this
    obtain ⟨y, hy, hyx⟩ := List.mem_map.1 this
    exact ⟨y, hy, hyx⟩
  refine ⟨?_, ?_, ?_, ?_, ?_, ?_, ?_, ?_⟩
  · rw [ha]; exact numbering_mark _ _ h1
  · rw [hcnt, ha, mark_nodes_length]; exact h2
  · rw [ha, hstack, hmark, List.filter_append, List.map_append, hfil]
    have : List.filter (fun e => decide (e.status = AuditStatus.AUDIT_SUCCESS)) post = [] := by
      rw [List.filter_eq_nil_iff]
      intro x hx
      simpa using hpost2 x hx
    simp [List.filter, this]
  · rw [ha, mark_nodes_ids]; exact h4
  · rw [hqueue]; exact h5
  · rw [hqueue, hnext]; exact h6
  · rw [ha, hnext]
    intro x hx
    obtain ⟨y, hy, hyx⟩ := hmem x hx
    rw [← hyx]; exact h7 y hy
  · rw [ha, hqueue]
    intro x hx q hq
    obtain ⟨y, hy, hyx⟩ := hmem x hx
    rw [← hyx]; exact h8 y hy q hq

theorem within_empty : Within 0 empty_ledger := by
  refine ⟨consistent_empty, ?_, ?_, ?_⟩ <;> simp [empty_ledger]

theorem within_mono (n m : Nat) (s : Ledger) (h : Within n s) (hnm : n ≤ m) : Within m s := by
  obtain ⟨h1, h2, h3, h4⟩ := h
  exact ⟨h1, h2, by omega, h4⟩

theorem within_create (n : Nat) (s : Ledger) (id : String) (b : Int) (h : Within n s) :
    Within n (Machine.cmd_create_account id b s).1 := by
  obtain ⟨f1, f2, f3, f4, f5⟩ := machine_cmd_create_account_frame id b s
  obtain ⟨h1, h2, h3, h4⟩ := h
  exact ⟨consistent_congr _ _ h1 f1 f2 f3 f4 f5, by rw [f5]; exact h2, by rw [f5]; exact h3,
    by rw [f3, f1, f5]; exact h4⟩

theorem within_txn (n : Nat) (s : Ledger) (tokens : List String) (h : Within n s)
    (hn : n + 1 ≤ Machine.MAX_TXN_LINES) : Within (n + 1) (Machine.cmd_txn tokens s).1 := by
  obtain ⟨h1, h2, h3, h4⟩ := h
  unfold Machine.MAX_TXN_LINES at hn
  have hw : Machine.wrap32 (s.next_txn_id + 1) = s.next_txn_id + 1 := by
    apply wrap32_of_range
    · unfold Machine.INT_MIN; omega
    · unfold Machine.INT_MAX; omega
  rcases machine_cmd_txn_cases tokens s with hc | hc | hc | ⟨t, ht, hc⟩
  · rw [hc]; exact ⟨h1, h2, by push_cast; omega, h4⟩
  · rw [hc]; exact ⟨h1, h2, by push_cast; omega, h4⟩
  · rw [hc, hw]
    exact ⟨consistent_next_id s h1, by simp only; omega, by simp only; push_cast; omega,
      by simp only; omega⟩
  · rw [hc, hw]
    refine ⟨consistent_enqueue s t h1 ht, ?_, ?_, ?_⟩
    · simp only [enqueue]; omega
    · simp only [enqueue]; push_cast; omega
    · simp only [enqueue, List.length_append, List.length_singleton]; push_cast; omega

theorem within_process (n : Nat) (s : Ledger) (h : Within n s)
    (hn : n ≤ Machine.MAX_TXN_LINES) : Within n (Machine.process_next s) := by
  cases hq : s.txn_queue with
  | nil => rw [machine_process_next_nil s hq]; exact h
  | cons t rest =>
    obtain ⟨_, _, hst, hqueue, hnext, _, hcnt, msg, ha⟩ := machine_process_fields s t rest hq
    obtain ⟨h1, h2, h3, h4⟩ := h
    unfold Machine.MAX_TXN_LINES at hn
    have hlen : (s.txn_queue.length : Int) = rest.length + 1 := by rw [hq]; simp
    have hw : Machine.wrap32 (s.audit_count + 1) = s.audit_count + 1 := by
      have := h1.count
      apply wrap32_of_range
      · unfold Machine.INT_MIN; omega
      · unfold Machine.INT_MAX; omega
    rw [hw] at hcnt ha
    refine ⟨consistent_of_process s _ t rest _ h1 hq ha rfl rfl hcnt hqueue hnext ?_, ?_, ?_, ?_⟩
    · by_cases hc : can_apply s.accounts t = true
      · left; simp only [hc, if_true] at hst ⊢; exact ⟨trivial, hst⟩
      · right; simp only [hc] at hst ⊢; exact ⟨by simp, hst⟩
    · rw [hnext]; exact h2
    · rw [hnext]; exact h3
    · rw [ha, hqueue, hnext]
      simp only [List.length_append, List.length_singleton]
      push_cast
      omega

theorem within_rollback_loop (n k : Nat) (s : Ledger) (h : Within n s) :
    Within n (Machine.rollback_loop k s) := by
  induction k generalizing s with
  | zero => exact h
  | succ k ih =>
    cases hs : s.success_stack with
    | nil => rw [machine_rollback_loop_nil _ s hs]; exact h
    | cons t rest =>
      rw [machine_rollback_loop_cons k s t rest hs]
      apply ih
      have hf := machine_rollback_txn_fields t { s with success_stack := rest }
      simp only at hf
      obtain ⟨_, f2, f3, f4, f5, f6, _⟩ := hf
      obtain ⟨h1, h2, h3, h4⟩ := h
      refine ⟨consistent_of_rollback s _ t rest h1 hs f5 f2 f3 f4 f6, ?_, ?_, ?_⟩
      · rw [f4]; exact h2
      · rw [f4]; exact h3
      · rw [f5, f3, f4, mark_nodes_length]; exact h4

theorem within_rollback (n : Nat) (k : Int) (s : Ledger) (h : Within n s) :
    Within n (Machine.cmd_rollback k s) := by
  unfold Machine.cmd_rollback
  split
  · exact h
  · exact within_rollback_loop n _ s h

/-- Every state reached by machine commands with at most `MAX_TXN_LINES` `TXN`
lines satisfies the invariant. -/
theorem run_within (k : Nat) (s₀ s : Ledger) (hrun : Machine.Run s₀ k s) :
    ∀ m : Nat, Within m s₀ → m + k ≤ Machine.MAX_TXN_LINES → Within (m + k) s := by
  induction hrun with
  | refl => intro m h _; exact h
  | create n s₁ id b _ ih => intro m h hb; exact within_create _ _ id b (ih m h hb)
  | txn n s₁ tokens _ ih =>
    intro m h hb
    exact within_txn (m + n) _ tokens (ih m h (by omega)) (by omega)
  | process n s₁ _ ih => intro m h hb; exact within_process _ _ (ih m h hb) hb
  | rollback n s₁ j _ ih => intro m h hb; exact within_rollback _ j _ (ih m h hb)

theorem reachable_within (n : Nat) (s : Ledger) (hrun : Machine.Run empty_ledger n s)
    (hn : n ≤ Machine.MAX_TXN_LINES) : Within n s := by
  have := run_within n empty_ledger s hrun 0 within_empty (by omega)
  simpa using this

theorem machine_rollback_loop_frame (k : Nat) (s : Ledger) :
    (Machine.rollback_loop k s).txn_queue = s.txn_queue ∧
      (Machine.rollback_loop k s).next_txn_id = s.next_txn_id := by
  induction k generalizing s with
  | zero => exact ⟨rfl, rfl⟩
  | succ k ih =>
    cases hs : s.success_stack with
    | nil => rw [machine_rollback_loop_nil _ s hs]; exact ⟨rfl, rfl⟩
    | cons t rest =>
      rw [machine_rollback_loop_cons k s t rest hs]
      have hf := machine_rollback_txn_fields t { s with success_stack := rest }
      simp only at hf
      obtain ⟨h1, h2⟩ := ih (Machine.rollback_txn t { s with success_stack := rest })
      exact ⟨h1.trans hf.2.2.1, h2.trans hf.2.2.2.1⟩

/-- Along machine commands with `k` `TXN` lines `next_txn_id` does not decrease
and grows by at most `k`, as long as it stays below `INT_MAX`. -/
theorem run_next_id (k : Nat) (s₀ s : Ledger) (hrun : Machine.Run s₀ k s)
    (hpos : 1 ≤ s₀.next_txn_id) (hb : s₀.next_txn_id + k ≤ Machine.INT_MAX) :
    s₀.next_txn_id ≤ s.next_txn_id ∧ s.next_txn_id ≤ s₀.next_txn_id + k := by
  induction hrun with
  | refl => simp
  | create n s₁ id b _ ih =>
    rw [(machine_cmd_create_account_frame id b s₁).2.2.2.2]; exact ih hb
  | txn n s₁ tokens _ ih =>
    have hb' : s₀.next_txn_id + n ≤ Machine.INT_MAX := by push_cast at hb; omega
    obtain ⟨i1, i2⟩ := ih hb'
    unfold Machine.INT_MAX at hb
    push_cast at hb
    have hw : Machine.wrap32 (s₁.next_txn_id + 1) = s₁.next_txn_id + 1 := by
      apply wrap32_of_range
      · unfold Machine.INT_MIN; omega
      · unfold Machine.INT_MAX; omega
    rcases machine_cmd_txn_cases tokens s₁ with hc | hc | hc | ⟨t, _, hc⟩
    · rw [hc]; push_cast; constructor <;> omega
    · rw [hc]; push_cast; constructor <;> omega
    · rw [hc, hw]; constructor <;> (simp only; push_cast; omega)
    · rw [hc, hw]; constructor <;> (simp only [enqueue]; push_cast; omega)
  | process n s₁ _ ih =>
    have : (Machine.cmd_process s₁).1.next_txn_id = s₁.next_txn_id := by
      cases hq : s₁.txn_queue with
      | nil =>
        have := machine_process_next_nil s₁ hq
        unfold Machine.process_next at this
        rw [this]
      | cons t rest => exact (machine_process_fields s₁ t rest hq).2.2.2.2.1
    rw [this]; exact ih hb
  | rollback n s₁ j _ ih =>
    have : (Machine.cmd_rollback j s₁).next_txn_id = s₁.next_txn_id := by
      unfold Machine.cmd_rollback
      split
      · rfl
      · exact (machine_rollback_loop_frame _ s₁).2
    rw [this]; exact ih hb

theorem machine_rejected_line (s : Ledger) :
    Machine.submit rejected_line s =
      { s with next_txn_id := Machine.wrap32 (s.next_txn_id + 1) } := by
  simp [Machine.submit, Machine.cmd_txn, rejected_line, parse_type]

theorem machine_rejected_lines (n : Nat) (s : Ledger) :
    (Machine.submit rejected_line)^[n + 1] s =
      { s with next_txn_id := Machine.wrap32 (s.next_txn_id + ((n + 1 : Nat) : Int)) } := by
  induction n with
  | zero => simp [machine_rejected_line]
  | succ n ih =>
    rw [Function.iterate_succ_apply', ih, machine_rejected_line]
    simp only
    congr 1
    rw [wrap32_add_one]
    congr 1
    push_cast
    ring

theorem machine_cmd_txn_queued (tokens : List String) (s : Ledger) (id : Int)
    (h : (Machine.cmd_txn tokens s).2 = .queued id) :
    id = s.next_txn_id ∧
      (Machine.cmd_txn tokens s).1.next_txn_id = Machine.wrap32 (s.next_txn_id + 1) := by
  rcases machine_cmd_txn_cases tokens s with hc | hc | hc | ⟨t, _, hc⟩
  · rw [hc] at h; simp at h
  · rw [hc] at h; simp at h
  · rw [hc] at h; simp at h
  · rw [hc] at h ⊢
    simp at h
    exact ⟨h.symm, rfl⟩

theorem machine_cmd_txn_audit (tokens : List String) (s : Ledger) :
    (Machine.cmd_txn tokens s).1.audit = s.audit := by
  rcases machine_cmd_txn_cases tokens s with hc | hc | hc | ⟨t, _, hc⟩ <;> simp [hc, enqueue]

theorem machine_rollback_loop_entry (k : Nat) (s : Ledger) (i : Nat) (e : AuditNode)
    (h : s.audit[i]? = some e) :
    ∃ e₁, (Machine.rollback_loop k s).audit[i]? = some e₁ ∧ amended_or_same e e₁ := by
  induction k generalizing s e with
  | zero => exact ⟨e, h, Or.inl rfl⟩
  | succ k ih =>
    cases hs : s.success_stack with
    | nil => rw [machine_rollback_loop_nil _ s hs]; exact ⟨e, h, Or.inl rfl⟩
    | cons t rest =>
      rw [machine_rollback_loop_cons k s t rest hs]
      have hf := machine_rollback_txn_fields t { s with success_stack := rest }
      simp only at hf
      obtain ⟨e₁, h1, h2⟩ := mark_nodes_entry s.audit t.txn_id i e h
      rw [← hf.2.2.2.2.1] at h1
      obtain ⟨e₂, h3, h4⟩ := ih _ e₁ h1
      exact ⟨e₂, h3, amended_or_same_trans _ _ _ h2 h4⟩

theorem machine_run_entry (k : Nat) (s s₁ : Ledger) (hrun : Machine.Run s k s₁) (i : Nat)
    (e : AuditNode) (h : s.audit[i]? = some e) :
    ∃ e₁, s₁.audit[i]? = some e₁ ∧ amended_or_same e e₁ := by
  induction hrun with
  | refl => exact ⟨e, h, Or.inl rfl⟩
  | create n s₂ id b _ ih =>
    rw [(machine_cmd_create_account_frame id b s₂).2.2.1]; exact ih
  | txn n s₂ tokens _ ih =>
    rw [machine_cmd_txn_audit]; exact ih
  | process n s₂ _ ih =>
    obtain ⟨e₁, h1, h2⟩ := ih
    cases hq : s₂.txn_queue with
    | nil =>
      have := machine_process_next_nil s₂ hq
      unfold Machine.process_next at this
      rw [this]; exact ⟨e₁, h1, h2⟩
    | cons t rest =>
      obtain ⟨_, _, _, _, _, _, _, msg, ha⟩ := machine_process_fields s₂ t rest hq
      unfold Machine.process_next at ha
      rw [ha]
      have hlt : i < s₂.audit.length := by
        by_contra hge
        rw [List.getElem?_eq_none (by omega)] at h1
        simp at h1
      rw [List.getElem?_append_left hlt]
      exact ⟨e₁, h1, h2⟩
  | rollback n s₂ j _ ih =>
    obtain ⟨e₁, h1, h2⟩ := ih
    unfold Machine.cmd_rollback
    split
    · exact ⟨e₁, h1, h2⟩
    · obtain ⟨e₂, h3, h4⟩ := machine_rollback_loop_entry _ s₂ i e₁ h1
      exact ⟨e₂, h3, amended_or_same_trans _ _ _ h2 h4⟩

theorem machine_scenario_run : Machine.Run empty_ledger 3 machine_scenario_processed :=
  Machine.Run.process _ _ (Machine.Run.process _ _ (Machine.Run.process _ _
    (Machine.Run.txn _ _ _ (Machine.Run.txn _ _ _ (Machine.Run.txn _ _ _
      (Machine.Run.create _ _ _ _ (Machine.Run.create _ _ _ _ Machine.Run.refl)))))))

/-! ## Lemmas: transactions on the stack find their accounts -/

theorem machine_in_use_first_add_balance (l : List Account) (i : Nat) (d : Int)
    (h : in_use_first l) : in_use_first (Machine.add_balance l i d) := by
  rw [machine_add_balance_eq]
  exact in_use_first_add_balance _ _ _ h

theorem machine_find_account_undo_txn (l : List Account) (t : Transaction) (id : String) :
    find_account (Machine.undo_txn l t) id = find_account l id := by
  unfold Machine.undo_txn
  cases ht : t.type <;> simp only
  · cases hf : find_account l t.from_id <;> simp [machine_find_account_add_balance]
  · cases hf : find_account l t.from_id <;> simp [machine_find_account_add_balance]
  · cases hf : find_account l t.from_id <;> cases hg : find_account l t.to_id <;>
      simp [machine_find_account_add_balance]

theorem machine_in_use_first_apply_txn (l : List Account) (t : Transaction)
    (h : in_use_first l) : in_use_first (Machine.apply_txn l t) := by
  unfold Machine.apply_txn
  cases ht : t.type <;> simp only
  · cases hf : find_account l t.from_id
    · exact h
    · exact machine_in_use_first_add_balance _ _ _ h
  · cases hf : find_account l t.from_id
    · exact h
    · exact machine_in_use_first_add_balance _ _ _ h
  · cases hf : find_account l t.from_id <;> cases hg : find_account l t.to_id
    · exact h
    · exact h
    · exact h
    · exact machine_in_use_first_add_balance _ _ _ (machine_in_use_first_add_balance _ _ _ h)

theorem machine_in_use_first_undo_txn (l : List Account) (t : Transaction)
    (h : in_use_first l) : in_use_first (Machine.undo_txn l t) := by
  unfold Machine.undo_txn
  cases ht : t.type <;> simp only
  · cases hf : find_account l t.from_id
    · exact h
    · exact machine_in_use_first_add_balance _ _ _ h
  · cases hf : find_account l t.from_id
    · exact h
    · exact machine_in_use_first_add_balance _ _ _ h
  · cases hf : find_account l t.from_id <;> cases hg : find_account l t.to_id
    · exact h
    · exact h
    · exact h
    · exact machine_in_use_first_add_balance _ _ _ (machine_in_use_first_add_balance _ _ _ h)

theorem accounts_found_congr (l₁ l₂ : List Account) (t : Transaction)
    (h : ∀ id, find_account l₂ id = find_account l₁ id) (hf : accounts_found l₁ t) :
    accounts_found l₂ t := by
  unfold accounts_found at *
  rw [h, h]
  exact hf

theorem accounts_found_set_account (l : List Account) (t : Transaction) (idx : Nat)
    (b : Account) (hp : in_use_first l) (hfree : find_free l = some idx)
    (hf : accounts_found l t) : accounts_found (set_account l idx b) t := by
  obtain ⟨f1, f2⟩ := hf
  constructor
  · cases h : find_account l t.from_id with
    | none => exact absurd h f1
    | some i =>
      rw [find_account_set_account_lt l _ i idx b h
        (find_account_lt_find_free l _ i idx hp hfree h)]
      simp
  · intro ht
    cases h : find_account l t.to_id with
    | none => exact absurd h (f2 ht)
    | some j =>
      rw [find_account_set_account_lt l _ j idx b h
        (find_account_lt_find_free l _ j idx hp hfree h)]
      simp

theorem machine_rollback_loop_found (k : Nat) (s : Ledger)
    (h : in_use_first s.accounts ∧ ∀ t ∈ s.success_stack, accounts_found s.accounts t) :
    in_use_first (Machine.rollback_loop k s).accounts ∧
      ∀ t ∈ (Machine.rollback_loop k s).success_stack,
        accounts_found (Machine.rollback_loop k s).accounts t := by
  induction k generalizing s with
  | zero => exact h
  | succ k ih =>
    cases hs : s.success_stack with
    | nil => rw [machine_rollback_loop_nil _ s hs]; exact h
    | cons t rest =>
      rw [machine_rollback_loop_cons k s t rest hs]
      apply ih
      have hf := machine_rollback_txn_fields t { s with success_stack := rest }
      simp only at hf
      rw [hf.1, hf.2.1]
      refine ⟨machine_in_use_first_undo_txn _ _ h.1, ?_⟩
      intro x hx
      exact accounts_found_congr _ _ x (machine_find_account_undo_txn _ _)
        (h.2 x (by rw [hs]; exact List.mem_cons_of_mem _ hx))

/-- In every state the machine commands produce, each transaction on the
success stack finds its accounts: both of them for a transfer. -/
theorem machine_stack_accounts_found (n : Nat) (s : Ledger)
    (hrun : Machine.Run empty_ledger n s) :
    in_use_first s.accounts ∧ ∀ t ∈ s.success_stack, accounts_found s.accounts t := by
  induction hrun with
  | refl =>
    refine ⟨in_use_first_replicate _ _ rfl, ?_⟩
    intro t ht
    simp [empty_ledger] at ht
  | create n s₁ id b _ ih =>
    unfold Machine.cmd_create_account
    cases hf : find_account s₁.accounts id with
    | some i => exact ih
    | none =>
      cases hg : find_free s₁.accounts with
      | none => exact ih
      | some idx =>
        refine ⟨in_use_first_set_account _ _ _ ih.1 hg rfl, ?_⟩
        intro t ht
        exact accounts_found_set_account _ _ _ _ ih.1 hg (ih.2 t ht)
  | txn n s₁ tokens _ ih =>
    rcases machine_cmd_txn_cases tokens s₁ with hc | hc | hc | ⟨t, _, hc⟩ <;>
      (rw [hc]; exact ih)
  | process n s₁ _ ih =>
    cases hq : s₁.txn_queue with
    | nil =>
      have := machine_process_next_nil s₁ hq
      unfold Machine.process_next at this
      rw [this]; exact ih
    | cons t rest =>
      obtain ⟨_, hacc, hst, _⟩ := machine_process_fields s₁ t rest hq
      unfold Machine.process_next at hacc hst
      rw [hacc, hst]
      by_cases hc : can_apply s₁.accounts t = true
      · simp only [hc, if_true]
        refine ⟨machine_in_use_first_apply_txn _ _ ih.1, ?_⟩
        intro x hx
        apply accounts_found_congr _ _ x (machine_find_account_apply_txn _ _)
        rcases List.mem_cons.1 hx with rfl | hx
        · exact can_apply_accounts_found _ _ hc
        · exact ih.2 x hx
      · simp only [hc]
        exact ih
  | rollback n s₁ j _ ih =>
    unfold Machine.cmd_rollback
    split
    · exact ih
    · exact machine_rollback_loop_found _ s₁ ih

/-! ## Lemmas: distinct ids on the machine -/

theorem id_rank_next (N : Nat) (h : N < 4294967296) :
    id_rank (Machine.wrap32 (1 + (N : Int))) = (N : Int) := by
  unfold id_rank Machine.wrap32
  omega

theorem id_rank_nonneg (id : Int) : 0 ≤ id_rank id := by
  unfold id_rank
  omega

theorem distinct_empty : DistinctIds 0 empty_ledger := by
  constructor <;> simp [empty_ledger, Machine.wrap32]

/-- In a state whose Success entries mirror the stack and whose audit ids are
distinct, the audit log splits around the one entry of the top of the stack. -/
theorem top_entry_of_history (s : Ledger)
    (hh : (s.audit.filter (fun e => e.status = .AUDIT_SUCCESS)).map (fun e => e.txn) =
      s.success_stack.reverse)
    (hnd : (s.audit.map (fun e => e.txn.txn_id)).Nodup)
    (t : Transaction) (rest : List Transaction) (hs : s.success_stack = t :: rest) :
    ∃ pre e post, s.audit = pre ++ e :: post ∧ e.txn = t ∧ e.status = .AUDIT_SUCCESS ∧
      (∀ x ∈ pre, x.txn.txn_id ≠ t.txn_id) ∧ (∀ x ∈ post, x.txn.txn_id ≠ t.txn_id) ∧
      (∀ x ∈ post, x.status ≠ .AUDIT_SUCCESS) ∧
      (pre.filter (fun e => e.status = .AUDIT_SUCCESS)).map (fun e => e.txn) = rest.reverse := by
  rw [hs, List.reverse_cons] at hh
  obtain ⟨pre, e, post, hl, hpe, hfe, hpost, hpre⟩ :=
    filter_map_eq_append_singleton _ _ _ _ _ hh
  rw [hl, List.map_append, List.map_cons] at hnd
  have hnd2 := List.nodup_append.1 hnd
  have hnd3 := List.nodup_cons.1 hnd2.2.1
  refine ⟨pre, e, post, hl, hfe, by simpa using hpe, ?_, ?_, ?_, hpre⟩
  · intro x hx hid
    refine hnd2.2.2 (List.mem_map.2 ⟨x, hx, rfl⟩) ?_
    rw [hid, ← hfe]
    exact List.mem_cons_self _ _
  · intro x hx hid
    apply hnd3.1
    rw [hfe, ← hid]
    exact List.mem_map.2 ⟨x, hx, rfl⟩
  · intro x hx
    simpa using hpost x hx

theorem distinct_create (N : Nat) (s : Ledger) (id : String) (b : Int)
    (h : DistinctIds N s) : DistinctIds N (Machine.cmd_create_account id b s).1 := by
  obtain ⟨f1, f2, f3, _, f5⟩ := machine_cmd_create_account_frame id b s
  obtain ⟨h1, h2, h3, h4, h5, h6, h7⟩ := h
  refine ⟨?_, ?_, ?_, ?_, ?_, ?_, ?_⟩
  · rw [f5]; exact h1
  · rw [f3, f2]; exact h2
  · rw [f3]; exact h3
  · rw [f1]; exact h4
  · rw [f1]; exact h5
  · rw [f3]; exact h6
  · rw [f3, f1]; exact h7

theorem distinct_txn (N : Nat) (s : Ledger) (tokens : List String) (h : DistinctIds N s)
    (hN : N < 4294967296) :
    DistinctIds N (Machine.cmd_txn tokens s).1 ∨
      DistinctIds (N + 1) (Machine.cmd_txn tokens s).1 := by
  obtain ⟨h1, h2, h3, h4, h5, h6, h7⟩ := h
  have hnext : Machine.wrap32 (s.next_txn_id + 1) = Machine.wrap32 (1 + ((N + 1 : Nat) : Int)) := by
    rw [h1, wrap32_add_one]
    unfold Machine.wrap32
    omega
  rcases machine_cmd_txn_cases tokens s with hc | hc | hc | ⟨t, ht, hc⟩
  · left; rw [hc]; exact ⟨h1, h2, h3, h4, h5, h6, h7⟩
  · left; rw [hc]; exact ⟨h1, h2, h3, h4, h5, h6, h7⟩
  · right; rw [hc]
    refine ⟨hnext, h2, h3, h4, ?_, ?_, h7⟩
    · intro x hx; have := h5 x hx; push_cast; omega
    · intro x hx; have := h6 x hx; push_cast; omega
  · right; rw [hc]
    have hrank : id_rank t.txn_id = (N : Int) := by
      rw [ht, h1]; exact id_rank_next N hN
    refine ⟨hnext, h2, h3, ?_, ?_, ?_, ?_⟩
    · simp only [enqueue]
      rw [List.pairwise_append]
      refine ⟨h4, by simp, ?_⟩
      intro a ha b hb
      simp at hb; subst hb
      rw [hrank]; exact h5 a ha
    · intro x hx
      simp only [enqueue] at hx
      rcases List.mem_append.1 hx with hx | hx
      · have := h5 x hx; push_cast; omega
      · simp at hx; subst hx; rw [hrank]; push_cast; omega
    · intro x hx; have := h6 x hx; push_cast; omega
    · intro x hx q hq
      simp only [enqueue] at hq hx
      rcases List.mem_append.1 hq with hq | hq
      · exact h7 x hx q hq
      · simp at hq; subst hq; rw [hrank]; exact h6 x hx

theorem distinct_process (N : Nat) (s : Ledger) (h : DistinctIds N s) :
    DistinctIds N (Machine.process_next s) := by
  cases hq : s.txn_queue with
  | nil => rw [machine_process_next_nil s hq]; exact h
  | cons t rest =>
    obtain ⟨_, _, hst, hqueue, hnext, _, _, msg, ha⟩ := machine_process_fields s t rest hq
    obtain ⟨h1, h2, h3, h4, h5, h6, h7⟩ := h
    rw [hq] at h4 h5 h7
    rw [List.pairwise_cons] at h4
    refine ⟨?_, ?_, ?_, ?_, ?_, ?_, ?_⟩
    · rw [hnext]; exact h1
    · rw [ha, hst, List.filter_append, List.map_append, h2]
      by_cases hc : can_apply s.accounts t = true <;> simp [hc, List.filter]
    · rw [ha, List.map_append, List.nodup_append]
      refine ⟨h3, by simp, ?_⟩
      intro x hx1 hx2
      simp at hx2
      obtain ⟨e₀, he₀, hex⟩ := List.mem_map.1 hx1
      have := h7 e₀ he₀ t (List.mem_cons_self _ _)
      rw [← hx2, ← hex] at this
      omega
    · rw [hqueue]; exact h4.2
    · rw [hqueue]
      intro x hx; exact h5 x (List.mem_cons_of_mem _ hx)
    · rw [ha]
      intro x hx
      rcases List.mem_append.1 hx with hx | hx
      · exact h6 x hx
      · simp at hx; subst hx; exact h5 t (List.mem_cons_self _ _)
    · rw [ha, hqueue]
      intro x hx q hq'
      rcases List.mem_append.1 hx with hx | hx
      · exact h7 x hx q (List.mem_cons_of_mem _ hq')
      · simp at hx; subst hx; exact h4.1 q hq'

theorem distinct_rollback_loop (N k : Nat) (s : Ledger) (h : DistinctIds N s) :
    DistinctIds N (Machine.rollback_loop k s) := by
  induction k generalizing s with
  | zero => exact h
  | succ k ih =>
    cases hs : s.success_stack with
    | nil => rw [machine_rollback_loop_nil _ s hs]; exact h
    | cons t rest =>
      rw [machine_rollback_loop_cons k s t rest hs]
      apply ih
      have hf := machine_rollback_txn_fields t { s with success_stack := rest }
      simp only at hf
      obtain ⟨_, f2, f3, f4, f5, _, _⟩ := hf
      obtain ⟨pre, e, post, hl, het, hes, hpre, hpost, hpost2, hfil⟩ :=
        top_entry_of_history s h.history h.ids_nodup t rest hs
      have hmark : mark_nodes s.audit t.txn_id =
          pre ++ { e with status := .AUDIT_ROLLED_BACK,
                          message := rolled_back_message t.txn_id } :: post := by
        rw [hl]
        exact mark_nodes_first_match pre post e t.txn_id (fun x hx hc => hpre x hx hc.1)
          (by rw [het]) hes
      obtain ⟨h1, h2, h3, h4, h5, h6, h7⟩ := h
      have hmem : ∀ x ∈ mark_nodes s.audit t.txn_id,
          ∃ y ∈ s.audit, y.txn.txn_id = x.txn.txn_id := by
        intro x hx
        have : x.txn.txn_id ∈ (mark_nodes s.audit t.txn_id).map (fun e => e.txn.txn_id) :=
          List.mem_map.2 ⟨x, hx, rfl⟩
        rw [mark_nodes_ids] at this
        obtain ⟨y, hy, hyx⟩ := List.mem_map.1 this
        exact ⟨y, hy, hyx⟩
      refine ⟨?_, ?_, ?_, ?_, ?_, ?_, ?_⟩
      · rw [f4]; exact h1
      · rw [f5, f2, hmark, List.filter_append, List.map_append, hfil]
        have : List.filter (fun e => decide (e.status = AuditStatus.AUDIT_SUCCESS)) post = [] := by
          rw [List.filter_eq_nil_iff]
          intro x hx
          simpa using hpost2 x hx
        simp [List.filter, this]
      · rw [f5, mark_nodes_ids]; exact h3
      · rw [f3]; exact h4
      · rw [f3]; exact h5
      · rw [f5]
        intro x hx
        obtain ⟨y, hy, hyx⟩ := hmem x hx
        rw [← hyx]; exact h6 y hy
      · rw [f5, f3]
        intro x hx q hq
        obtain ⟨y, hy, hyx⟩ := hmem x hx
        rw [← hyx]; exact h7 y hy q hq

theorem distinct_rollback (N : Nat) (k : Int) (s : Ledger) (h : DistinctIds N s) :
    DistinctIds N (Machine.cmd_rollback k s) := by
  unfold Machine.cmd_rollback
  split
  · exact h
  · exact distinct_rollback_loop N _ s h

/-- Every state reached from the start state by machine commands with at most
`MAX_ID_LINES` `TXN` lines has distinct ids. -/
theorem run_distinct (n : Nat) (s : Ledger) (hrun : Machine.Run empty_ledger n s) :
    n ≤ MAX_ID_LINES → ∃ N : Nat, N ≤ n ∧ DistinctIds N s := by
  induction hrun with
  | refl => intro _; exact ⟨0, le_refl _, distinct_empty⟩
  | create n s₁ id b _ ih =>
    intro hb
    obtain ⟨N, hN, h⟩ := ih hb
    exact ⟨N, hN, distinct_create N s₁ id b h⟩
  | txn n s₁ tokens _ ih =>
    intro hb
    unfold MAX_ID_LINES at hb
    obtain ⟨N, hN, h⟩ := ih (by unfold MAX_ID_LINES; omega)
    rcases distinct_txn N s₁ tokens h (by omega) with h' | h'
    · exact ⟨N, by omega, h'⟩
    · exact ⟨N + 1, by omega, h'⟩
  | process n s₁ _ ih =>
    intro hb
    obtain ⟨N, hN, h⟩ := ih hb
    exact ⟨N, hN, distinct_process N s₁ h⟩
  | rollback n s₁ j _ ih =>
    intro hb
    obtain ⟨N, hN, h⟩ := ih hb
    exact ⟨N, hN, distinct_rollback N j s₁ h⟩

/-! ## Properties of the specification -/

/-- C1. Conservation of money: on a non-empty queue one `PROCESS` command changes
the sum of the balances of the in-use accounts by `+amount` for a successful
deposit, by `-amount` for a successful withdrawal, by 0 for a transfer (same or
distinct accounts, successful or not) and by 0 when the transaction fails; over
`n` commands the total changes by the successful deposit amounts minus the
successful withdrawal amounts, where the successes are the transactions pushed on
the success stack. Balances are unbounded integers. -/
theorem conservation_of_money (s : Ledger) :
    (∀ t rest, s.txn_queue = t :: rest →
      ((cmd_process s).2 = .success → t.type = .TXN_DEPOSIT →
        total_balance (process_next s).accounts = total_balance s.accounts + t.amount) ∧
      ((cmd_process s).2 = .success → t.type = .TXN_WITHDRAW →
        total_balance (process_next s).accounts = total_balance s.accounts - t.amount) ∧
      (t.type = .TXN_TRANSFER →
        total_balance (process_next s).accounts = total_balance s.accounts) ∧
      ((cmd_process s).2 = .failure →
        total_balance (process_next s).accounts = total_balance s.accounts)) ∧
    (∀ n : Nat,
      total_balance (process_next^[n] s).accounts =
          total_balance s.accounts + amount_sum .TXN_DEPOSIT (successes n s)
            - amount_sum .TXN_WITHDRAW (successes n s) ∧
        (process_next^[n] s).success_stack = (successes n s).reverse ++ s.success_stack) := by
  refine ⟨?_, fun n => process_iterate_total n s⟩
  intro t rest hq
  rw [cmd_process_outcome s t rest hq, process_next_accounts s t rest hq]
  by_cases hc : can_apply s.accounts t = true
  · simp only [hc, if_true]
    rw [total_balance_apply_txn _ _ hc]
    unfold net_change
    refine ⟨?_, ?_, ?_, ?_⟩
    · intro _ ht; simp [ht]
    · intro _ ht; simp [ht]; ring
    · intro ht; simp [ht]
    · intro h; simp at h
  · simp [hc]

set_option maxRecDepth 100000 in
theorem conservation_of_money_witness :
    (cmd_process scenario_submitted).2 = .success ∧
      total_balance (process_next scenario_submitted).accounts =
        total_balance scenario_submitted.accounts + 50 ∧
      total_balance (process_next^[3] scenario_submitted).accounts
        = total_balance scenario_submitted.accounts + 50 - 30 :=
  ⟨by decide,
    ((conservation_of_money scenario_submitted).1
      { txn_id := 1, type := .TXN_DEPOSIT, from_id := "A", to_id := "", amount := 50 }
      _ rfl).1 (by decide) rfl,
    by
      have h := ((conservation_of_money scenario_submitted).2 3).1
      rw [show amount_sum .TXN_DEPOSIT (successes 3 scenario_submitted) = 50 from by decide,
        show amount_sum .TXN_WITHDRAW (successes 3 scenario_submitted) = 30 from by decide] at h
      exact h⟩

/-- C2. Processing is FIFO: when the queue holds `q1..qk` and the well-formed
lines `t1..tm` are submitted afterwards, the queue is `q1..qk, t1..tm` (the new
transactions numbered from the next id), and for every position `i` of that list
the `(i+1)`-th `PROCESS` command finds its `i`-th element at the front, removes
exactly it, appends one audit entry for it (Success or Fail) and applies its
balance mutation exactly when its checks pass; before that command the audit log
is the old one followed by entries for the first `i` elements, in order. -/
theorem processing_is_fifo (s : Ledger) (subs : List (List String))
    (hwf : ∀ x ∈ subs, well_formed x) :
    (subs.foldl (fun st x => submit x st) s).txn_queue =
        s.txn_queue ++ submitted_txns s.next_txn_id subs ∧
      (s.txn_queue ++ submitted_txns s.next_txn_id subs).length =
        s.txn_queue.length + subs.length ∧
      ∀ (i : Nat) (t : Transaction),
        (s.txn_queue ++ submitted_txns s.next_txn_id subs).get? i = some t →
        (process_next^[i] (subs.foldl (fun st x => submit x st) s)).txn_queue =
            t :: (s.txn_queue ++ submitted_txns s.next_txn_id subs).drop (i + 1) ∧
          (process_next^[i + 1] (subs.foldl (fun st x => submit x st) s)).txn_queue =
            (s.txn_queue ++ submitted_txns s.next_txn_id subs).drop (i + 1) ∧
          (process_next^[i] (subs.foldl (fun st x => submit x st) s)).audit.map (fun e => e.txn) =
            s.audit.map (fun e => e.txn) ++
              (s.txn_queue ++ submitted_txns s.next_txn_id subs).take i ∧
          (∃ e : AuditNode,
            (process_next^[i + 1] (subs.foldl (fun st x => submit x st) s)).audit =
              (process_next^[i] (subs.foldl (fun st x => submit x st) s)).audit ++ [e] ∧
            e.txn = t ∧ (e.status = .AUDIT_SUCCESS ∨ e.status = .AUDIT_FAIL)) ∧
          (process_next^[i + 1] (subs.foldl (fun st x => submit x st) s)).accounts =
            (if can_apply (process_next^[i] (subs.foldl (fun st x => submit x st) s)).accounts t
                = true
              then apply_txn (process_next^[i] (subs.foldl (fun st x => submit x st) s)).accounts t
              else (process_next^[i] (subs.foldl (fun st x => submit x st) s)).accounts) := by
  have hfold := submit_fold subs s hwf
  generalize subs.foldl (fun st x => submit x st) s = s' at hfold ⊢
  have hq' : s'.txn_queue = s.txn_queue ++ submitted_txns s.next_txn_id subs := by
    rw [hfold]
  have ha' : s'.audit = s.audit := by rw [hfold]
  refine ⟨hq', by simp [submitted_txns_length], ?_⟩
  intro i t hget
  have hqi : (process_next^[i] s').txn_queue =
      t :: (s.txn_queue ++ submitted_txns s.next_txn_id subs).drop (i + 1) := by
    rw [process_iterate_queue, hq']
    exact drop_eq_cons_of_slot _ _ _ hget
  obtain ⟨msg, haud, _⟩ := process_next_audit _ _ _ hqi
  refine ⟨hqi, ?_, ?_, ?_, ?_⟩
  · rw [process_iterate_queue, hq']
  · rw [process_iterate_audit_txns, ha', hq']
  · rw [Function.iterate_succ_apply', haud]
    refine ⟨_, rfl, rfl, ?_⟩
    by_cases hc : can_apply (process_next^[i] s').accounts t = true <;> simp [hc]
  · rw [Function.iterate_succ_apply']
    exact process_next_accounts _ _ _ hqi

set_option maxRecDepth 100000 in
theorem processing_is_fifo_witness :
    (process_next^[1] (List.foldl (fun st x => submit x st) scenario_accounts
        [["TXN", "DEPOSIT", "A", "50"], ["TXN", "WITHDRAW", "zz", "30"]])).txn_queue =
      { txn_id := 2, type := .TXN_WITHDRAW, from_id := "zz", to_id := "", amount := 30 } ::
        (scenario_accounts.txn_queue ++ submitted_txns scenario_accounts.next_txn_id
          [["TXN", "DEPOSIT", "A", "50"], ["TXN", "WITHDRAW", "zz", "30"]]).drop (1 + 1) :=
  ((processing_is_fifo scenario_accounts
      [["TXN", "DEPOSIT", "A", "50"], ["TXN", "WITHDRAW", "zz", "30"]]
      (by decide)).2.2 1 _ (by decide)).1

/-- C3. Rollback is LIFO and exact: if `n` consecutive `PROCESS` commands all
succeed (`S1..Sn`), then for `1 ≤ k ≤ n` the command `ROLLBACK k` leaves the
account table and the success stack as they were right after the first `n - k` of
them; it is `k` single rollbacks, the `(j+1)`-th of which finds `S(n-j)` on top of
the stack and restores the accounts and the stack from before `S(n-j)` was
applied. -/
theorem rollback_is_lifo_exact (s : Ledger) (n : Nat)
    (hok : ∀ i, i < n → (cmd_process (process_next^[i] s)).2 = .success)
    (k : Nat) (hk : 1 ≤ k) (hkn : k ≤ n) :
    (cmd_rollback (k : Int) (process_next^[n] s)).accounts =
        (process_next^[n - k] s).accounts ∧
      (cmd_rollback (k : Int) (process_next^[n] s)).success_stack =
        (process_next^[n - k] s).success_stack ∧
      cmd_rollback (k : Int) (process_next^[n] s) = (cmd_rollback 1)^[k] (process_next^[n] s) ∧
      ∀ j, j < k →
        ((cmd_rollback 1)^[j] (process_next^[n] s)).success_stack.head? =
            (process_next^[n - 1 - j] s).txn_queue.head? ∧
          (process_next^[n - 1 - j] s).txn_queue ≠ [] ∧
          ((cmd_rollback 1)^[j + 1] (process_next^[n] s)).accounts =
            (process_next^[n - 1 - j] s).accounts ∧
          ((cmd_rollback 1)^[j + 1] (process_next^[n] s)).success_stack =
            (process_next^[n - 1 - j] s).success_stack := by
  obtain ⟨k', rfl⟩ : ∃ k', k = k' + 1 := ⟨k - 1, by omega⟩
  rw [cmd_rollback_pos]
  have h := rollback_loop_after_process (k' + 1) n s hkn hok
  refine ⟨h.1, h.2, rollback_loop_iterate _ _, ?_⟩
  intro j hj
  rw [← rollback_loop_iterate, ← rollback_loop_iterate]
  have hj0 := rollback_loop_after_process j n s (by omega) hok
  have hj1 := rollback_loop_after_process (j + 1) n s (by omega) hok
  have e1 : n - (j + 1) = n - 1 - j := by omega
  have e2 : n - j = (n - 1 - j) + 1 := by omega
  rw [e1] at hj1
  obtain ⟨t, rest, hq, hc⟩ := (cmd_process_success_iff _).1 (hok (n - 1 - j) (by omega))
  have hst := process_next_stack _ t rest hq
  simp only [hc, if_true] at hst
  refine ⟨?_, ?_, hj1.1, hj1.2⟩
  · rw [hj0.2, e2, Function.iterate_succ_apply', hst, hq]
    rfl
  · rw [hq]; simp

set_option maxRecDepth 100000 in
theorem rollback_is_lifo_exact_witness :
    (cmd_rollback 2 (process_next^[3] scenario_submitted)).accounts =
      (process_next^[1] scenario_submitted).accounts :=
  (rollback_is_lifo_exact scenario_submitted 3
    (by
      intro i hi
      have : i = 0 ∨ i = 1 ∨ i = 2 := by omega
      rcases this with rfl | rfl | rfl <;> decide)
    2 (by decide) (by decide)).1

set_option maxRecDepth 100000 in
/-- C4 as stated fails: in the scenario (accounts A with 100 and B with 0, then
Deposit A 50, Withdraw A 30, Transfer A to B 40, three `PROCESS` commands) the
balances are not A = 120, B = 40 followed by A = 160, B = 0 after `ROLLBACK 1`:
the transfer debits A. -/
theorem scenario_as_stated_fails :
    ¬ (cmd_balance "A" scenario_processed = some 120 ∧
        cmd_balance "B" scenario_processed = some 40 ∧
        scenario_processed.audit.map (fun e => e.status) =
          [.AUDIT_SUCCESS, .AUDIT_SUCCESS, .AUDIT_SUCCESS] ∧
        cmd_balance "A" (cmd_rollback 1 scenario_processed) = some 160 ∧
        cmd_balance "B" (cmd_rollback 1 scenario_processed) = some 0 ∧
        (cmd_rollback 1 scenario_processed).audit.map (fun e => (e.txn.type, e.status)) =
          [(.TXN_DEPOSIT, .AUDIT_SUCCESS), (.TXN_WITHDRAW, .AUDIT_SUCCESS),
            (.TXN_TRANSFER, .AUDIT_ROLLED_BACK)]) := by
  decide

set_option maxRecDepth 100000 in
/-- C4 amended: in the scenario the three `PROCESS` commands leave A = 80 and
B = 40 with three audit entries, all Success; `ROLLBACK 1` then undoes the
transfer and gives A = 120, B = 0, and the audit entry of the transfer has status
RolledBack while the other two stay Success. -/
theorem scenario_balances :
    cmd_balance "A" scenario_accounts = some 100 ∧
      cmd_balance "B" scenario_accounts = some 0 ∧
      scenario_submitted.txn_queue =
        [{ txn_id := 1, type := .TXN_DEPOSIT, from_id := "A", to_id := "", amount := 50 },
          { txn_id := 2, type := .TXN_WITHDRAW, from_id := "A", to_id := "", amount := 30 },
          { txn_id := 3, type := .TXN_TRANSFER, from_id := "A", to_id := "B", amount := 40 }] ∧
      cmd_balance "A" scenario_processed = some 80 ∧
      cmd_balance "B" scenario_processed = some 40 ∧
      scenario_processed.audit.map (fun e => e.status) =
        [.AUDIT_SUCCESS, .AUDIT_SUCCESS, .AUDIT_SUCCESS] ∧
      cmd_balance "A" (cmd_rollback 1 scenario_processed) = some 120 ∧
      cmd_balance "B" (cmd_rollback 1 scenario_processed) = some 0 ∧
      (cmd_rollback 1 scenario_processed).audit.map (fun e => (e.txn.type, e.status)) =
        [(.TXN_DEPOSIT, .AUDIT_SUCCESS), (.TXN_WITHDRAW, .AUDIT_SUCCESS),
          (.TXN_TRANSFER, .AUDIT_ROLLED_BACK)] := by
  decide

/-- C5. For a non-empty queue with head `t`, `PROCESS` appends one audit entry
for `t` whose status is Success exactly when `t` is a deposit whose account
exists, or a withdrawal whose account exists with balance at least the amount, or
a transfer whose two accounts exist with source balance at least the amount; in
every other case the status is Fail. The printed outcome agrees. -/
theorem process_success_condition (s : Ledger) (t : Transaction) (rest : List Transaction)
    (hq : s.txn_queue = t :: rest) :
    ∃ e : AuditNode, (process_next s).audit = s.audit ++ [e] ∧ e.txn = t ∧
      (e.status = .AUDIT_SUCCESS ↔ success_condition s t) ∧
      (¬ success_condition s t → e.status = .AUDIT_FAIL) ∧
      ((cmd_process s).2 = .success ↔ success_condition s t) ∧
      (¬ success_condition s t → (cmd_process s).2 = .failure) := by
  obtain ⟨msg, ha, _⟩ := process_next_audit s t rest hq
  refine ⟨_, ha, rfl, ?_, ?_, ?_, ?_⟩
  · rw [← can_apply_iff]
    by_cases hc : can_apply s.accounts t = true <;> simp [hc]
  · rw [← can_apply_iff]
    intro hc
    simp [hc]
  · rw [← can_apply_iff, cmd_process_outcome s t rest hq]
    by_cases hc : can_apply s.accounts t = true <;> simp [hc]
  · rw [← can_apply_iff, cmd_process_outcome s t rest hq]
    intro hc
    simp [hc]

set_option maxRecDepth 100000 in
theorem process_success_condition_witness :
    ∃ e : AuditNode, (process_next scenario_submitted).audit = scenario_submitted.audit ++ [e] ∧
      e.txn = { txn_id := 1, type := .TXN_DEPOSIT, from_id := "A", to_id := "", amount := 50 } ∧
      (e.status = .AUDIT_SUCCESS ↔ success_condition scenario_submitted
        { txn_id := 1, type := .TXN_DEPOSIT, from_id := "A", to_id := "", amount := 50 }) :=
  let ⟨e, h1, h2, h3, _⟩ := process_success_condition scenario_submitted
    { txn_id := 1, type := .TXN_DEPOSIT, from_id := "A", to_id := "", amount := 50 } _ rfl
  ⟨e, h1, h2, h3⟩

/-- C6. A failed transaction is atomic: when `PROCESS` fails on the head `t` of
the queue (its success conditions do not hold: unknown account, withdrawal above
the balance, transfer with a missing destination or insufficient funds), the
account table is unchanged (no debit of a transfer source), the success stack is
unchanged, exactly `t` is removed from the queue, and exactly one audit entry,
with status Fail and the next sequence number, is appended for `t`. -/
theorem failed_transaction_is_atomic (s : Ledger) (t : Transaction) (rest : List Transaction)
    (hq : s.txn_queue = t :: rest) (hfail : (cmd_process s).2 = .failure) :
    ¬ success_condition s t ∧
      (process_next s).accounts = s.accounts ∧
      (process_next s).success_stack = s.success_stack ∧
      (process_next s).txn_queue = rest ∧
      (process_next s).next_txn_id = s.next_txn_id ∧
      ∃ e : AuditNode, (process_next s).audit = s.audit ++ [e] ∧ e.txn = t ∧
        e.status = .AUDIT_FAIL ∧ e.index = s.audit_count + 1 := by
  have hc : ¬ can_apply s.accounts t = true := by
    intro hc
    rw [cmd_process_outcome s t rest hq] at hfail
    simp [hc] at hfail
  obtain ⟨msg, ha, _⟩ := process_next_audit s t rest hq
  refine ⟨fun h => hc ((can_apply_iff s t).2 h), ?_, ?_, ?_, (process_next_fixed s).1, ?_⟩
  · rw [process_next_accounts s t rest hq]; simp [hc]
  · rw [process_next_stack s t rest hq]; simp [hc]
  · rw [process_next_queue, hq]; rfl
  · exact ⟨_, ha, rfl, by simp [hc], rfl⟩

set_option maxRecDepth 100000 in
theorem failed_transaction_is_atomic_witness :
    (process_next failing_transfer_state).accounts = failing_transfer_state.accounts ∧
      cmd_balance "A" (process_next failing_transfer_state) = some 100 :=
  ⟨(failed_transaction_is_atomic failing_transfer_state
      { txn_id := 1, type := .TXN_TRANSFER, from_id := "A", to_id := "zz", amount := 40 } []
      rfl (by decide)).2.1, by decide⟩

/-- C10. Rollback beyond the available history: when the success stack holds
`h` transactions and `n > h`, `ROLLBACK n` performs exactly `h` single rollbacks,
ends with an empty stack, equals `ROLLBACK h` when `h ≥ 1` and leaves the state
unchanged when `h = 0`; in general `ROLLBACK m` with `m ≥ 1` performs
`min m h` single rollbacks and shortens the stack by as many. The command is a
total function: there is no failing case. -/
theorem rollback_beyond_history (s : Ledger) (n : Int)
    (hn : (s.success_stack.length : Int) < n) :
    (cmd_rollback n s).success_stack = [] ∧
      cmd_rollback n s = (cmd_rollback 1)^[s.success_stack.length] s ∧
      (1 ≤ s.success_stack.length →
        cmd_rollback n s = cmd_rollback (s.success_stack.length : Int) s) ∧
      (s.success_stack.length = 0 → cmd_rollback n s = s) ∧
      ∀ m : Nat, 1 ≤ m →
        cmd_rollback (m : Int) s = (cmd_rollback 1)^[min m s.success_stack.length] s ∧
          (cmd_rollback (m : Int) s).success_stack.length =
            s.success_stack.length - min m s.success_stack.length := by
  have hpos : ¬ n ≤ 0 := by omega
  have hlt : s.success_stack.length ≤ n.toNat := by omega
  have hn' : cmd_rollback n s = rollback_loop s.success_stack.length s := by
    unfold cmd_rollback
    rw [if_neg hpos, rollback_loop_ge _ s hlt]
  refine ⟨?_, ?_, ?_, ?_, ?_⟩
  · rw [hn', rollback_loop_stack]; simp
  · rw [hn', rollback_loop_iterate]
  · intro h1
    obtain ⟨h, hh⟩ : ∃ h, s.success_stack.length = h + 1 := ⟨_, (Nat.sub_add_cancel h1).symm⟩
    rw [hn', hh, cmd_rollback_pos]
  · intro h0
    rw [hn', h0]; rfl
  · intro m hm
    obtain ⟨m', rfl⟩ : ∃ m', m = m' + 1 := ⟨m - 1, by omega⟩
    rw [cmd_rollback_pos, rollback_loop_min, rollback_loop_iterate]
    refine ⟨rfl, ?_⟩
    rw [← rollback_loop_iterate, rollback_loop_stack, List.length_drop]

set_option maxRecDepth 100000 in
theorem rollback_beyond_history_witness :
    (cmd_rollback 7 scenario_processed).success_stack = [] ∧
      cmd_rollback 7 scenario_processed = cmd_rollback 3 scenario_processed :=
  ⟨(rollback_beyond_history scenario_processed 7 (by decide)).1,
    (rollback_beyond_history scenario_processed 7 (by decide)).2.2.1 (by decide)⟩

/-- C13. Balances never go negative under correct operation: in every state
reached from the start state by `CREATE_ACCOUNT` with an initial balance of at
least 0, `TXN` lines whose amount is at least 0, `PROCESS` and `ROLLBACK n` in any
order, the balance of every slot of the table, hence of every account in use and
every balance that `BALANCE` reports, is at least 0. Balances are unbounded
integers. -/
theorem balances_never_negative (s : Ledger) (hr : ReachableNonneg s) :
    (∀ a ∈ s.accounts, 0 ≤ a.balance) ∧
      (∀ a ∈ s.accounts, a.in_use = true → 0 ≤ a.balance) ∧
      ∀ id b, cmd_balance id s = some b → 0 ≤ b := by
  have hn := stack_safe_nonneg _ _ (reachable_nonneg_safe s hr).balances
  refine ⟨hn, fun a ha _ => hn a ha, ?_⟩
  intro id b hb
  unfold cmd_balance at hb
  cases hf : find_account s.accounts id with
  | none => simp [hf] at hb
  | some i =>
    simp [hf] at hb
    subst hb
    exact nonneg_balance_at _ _ hn

set_option maxRecDepth 100000 in
theorem balances_never_negative_witness :
    cmd_balance "A" (cmd_rollback 2 scenario_processed) = some 150 ∧ (0 : Int) ≤ 150 :=
  ⟨by decide,
    (balances_never_negative (cmd_rollback 2 scenario_processed)
      (ReachableNonneg.rollback _ 2 scenario_processed_nonneg)).2.2 "A" 150 (by decide)⟩

set_option maxRecDepth 100000 in
/-- C15 at the failing input: with `next_txn_id = 1`, the line
`TXN DEPOSIT A 50 B` is rejected for its format, yet `next_txn_id` becomes 2 and
the state differs from the one before; the next accepted line then gets id 2
where it would have got id 1. The same happens for `TXN TRANSFER A 40`. Lines
with an unknown type word or fewer than four tokens leave the state unchanged. -/
theorem rejected_format_consumes_id :
    scenario_accounts.next_txn_id = 1 ∧
      (cmd_txn ["TXN", "DEPOSIT", "A", "50", "B"] scenario_accounts).2 = .invalid_format ∧
      (cmd_txn ["TXN", "DEPOSIT", "A", "50", "B"] scenario_accounts).1.next_txn_id = 2 ∧
      (cmd_txn ["TXN", "DEPOSIT", "A", "50", "B"] scenario_accounts).1 ≠ scenario_accounts ∧
      (cmd_txn ["TXN", "DEPOSIT", "A", "50"] scenario_accounts).2 = .queued 1 ∧
      (cmd_txn ["TXN", "DEPOSIT", "A", "50"]
        (cmd_txn ["TXN", "DEPOSIT", "A", "50", "B"] scenario_accounts).1).2 = .queued 2 ∧
      (cmd_txn ["TXN", "TRANSFER", "A", "40"] scenario_accounts).2 = .invalid_format ∧
      (cmd_txn ["TXN", "TRANSFER", "A", "40"] scenario_accounts).1.next_txn_id = 2 ∧
      (cmd_txn ["TXN", "BONUS", "A", "40"] scenario_accounts) =
        (scenario_accounts, .invalid_type) ∧
      (cmd_txn ["TXN", "DEPOSIT", "A"] scenario_accounts) =
        (scenario_accounts, .invalid_command) := by
  decide

/-- C16. Contract of `CREATE_ACCOUNT` for ids of at most 31 characters, on a
table of 100 slots: if an account with the id exists the command fails and
returns the state as it is; otherwise, if 100 accounts are in use, it fails and
returns the state as it is; otherwise it succeeds, `BALANCE id` then reports the
initial balance, the account count (the counter and the number of slots in use)
grows by one, every slot that was in use and every balance reported before are
unchanged, and the queue, the success stack, the audit log and the next id are
unchanged. -/
theorem create_account_contract (s : Ledger) (id : String) (b : Int)
    (hlen : s.accounts.length = MAX_ACCOUNTS) (hid : id.length ≤ 31) :
    (cmd_balance id s ≠ none → cmd_create_account id b s = (s, .already_exists)) ∧
      (cmd_balance id s = none →
        (s.accounts.filter (fun a => a.in_use)).length = MAX_ACCOUNTS →
        cmd_create_account id b s = (s, .table_full)) ∧
      (cmd_balance id s = none →
        (s.accounts.filter (fun a => a.in_use)).length < MAX_ACCOUNTS →
        (cmd_create_account id b s).2 = .created ∧
          cmd_balance id (cmd_create_account id b s).1 = some b ∧
          (cmd_create_account id b s).1.account_count = s.account_count + 1 ∧
          ((cmd_create_account id b s).1.accounts.filter (fun a => a.in_use)).length =
            (s.accounts.filter (fun a => a.in_use)).length + 1 ∧
          (cmd_create_account id b s).1.accounts.length = MAX_ACCOUNTS ∧
          (∀ (j : Nat) (a : Account), s.accounts[j]? = some a → a.in_use = true →
            (cmd_create_account id b s).1.accounts[j]? = some a) ∧
          (∀ id₁ b₁, cmd_balance id₁ s = some b₁ →
            cmd_balance id₁ (cmd_create_account id b s).1 = some b₁) ∧
          (cmd_create_account id b s).1.txn_queue = s.txn_queue ∧
          (cmd_create_account id b s).1.success_stack = s.success_stack ∧
          (cmd_create_account id b s).1.audit = s.audit ∧
          (cmd_create_account id b s).1.audit_count = s.audit_count ∧
          (cmd_create_account id b s).1.next_txn_id = s.next_txn_id) := by
  have hbal : ∀ x, cmd_balance x s = none ↔ find_account s.accounts x = none := by
    intro x; unfold cmd_balance; simp
  refine ⟨?_, ?_, ?_⟩
  · intro h
    rw [Ne, hbal] at h
    unfold cmd_create_account
    cases hf : find_account s.accounts id with
    | none => exact absurd hf h
    | some i => rfl
  · intro h hfull
    rw [hbal] at h
    have hfree : find_free s.accounts = none := by
      rw [find_free_none_iff, hfull, hlen]
    unfold cmd_create_account
    simp only [h, hfree]
  · intro h hroom
    rw [hbal] at h
    cases hfree : find_free s.accounts with
    | none =>
      rw [find_free_none_iff, hlen] at hfree
      omega
    | some idx =>
      have hstored : copy_str MAX_ID_LEN id = id := copy_str_short _ _ hid
      have hs : cmd_create_account id b s =
          ({ s with
              accounts := set_account s.accounts idx { id := id, balance := b, in_use := true }
              account_count := s.account_count + 1 }, .created) := by
        unfold cmd_create_account
        simp only [h, hfree, hstored]
      have hidx := find_free_set_get _ _ hfree
      obtain ⟨fa, hfa, hfu⟩ := find_free_slot _ _ hfree
      have hnew : find_account
          (set_account s.accounts idx { id := id, balance := b, in_use := true }) id
            = some idx :=
        find_account_set_account_new s.accounts idx { id := id, balance := b, in_use := true }
          hfree h rfl
      rw [hs]
      refine ⟨rfl, ?_, rfl, ?_, ?_, ?_, ?_, rfl, rfl, rfl, rfl, rfl⟩
      · simp only [cmd_balance, hnew, Option.map_some']
        rw [balance_at_eq_slot, List.get?_eq_getElem?, slot_set_account_same _ _ _ hidx]
        rfl
      · exact in_use_count_set_account _ _ _ hfree rfl
      · simp only
        rw [set_account_length, hlen]
      · intro j a hj hu
        have hne : idx ≠ j := by
          rintro rfl
          rw [hfa] at hj
          injection hj with hj
          subst hj
          rw [hfu] at hu
          cases hu
        simp only
        rw [slot_set_account_ne _ _ _ _ hne]
        exact hj
      · intro id₁ b₁ hb₁
        unfold cmd_balance at hb₁ ⊢
        simp only
        cases hf₁ : find_account s.accounts id₁ with
        | none => simp [hf₁] at hb₁
        | some i =>
          have hne : id ≠ id₁ := by
            rintro rfl
            rw [h] at hf₁
            cases hf₁
          rw [find_account_set_account_other _ _ _ _ hfree hne, hf₁]
          simp only [hf₁, Option.map_some', Option.some.injEq] at hb₁ ⊢
          rw [← hb₁]
          apply balance_at_congr_slot
          obtain ⟨a, ha, hau, _⟩ := find_account_get _ _ _ hf₁
          have hne2 : idx ≠ i := by
            rintro rfl
            rw [List.get?_eq_getElem?, hfa] at ha
            injection ha with ha
            subst ha
            rw [hfu] at hau
            cases hau
          rw [List.get?_eq_getElem?, List.get?_eq_getElem?, slot_set_account_ne _ _ _ _ hne2]

set_option maxRecDepth 100000 in
theorem create_account_contract_witness :
    (cmd_create_account "C" 7 scenario_accounts).2 = .created ∧
      cmd_balance "C" (cmd_create_account "C" 7 scenario_accounts).1 = some 7 ∧
      cmd_create_account "A" 7 scenario_accounts = (scenario_accounts, .already_exists) :=
  ⟨((create_account_contract scenario_accounts "C" 7 (by decide) (by decide)).2.2
      (by decide) (by decide)).1,
    ((create_account_contract scenario_accounts "C" 7 (by decide) (by decide)).2.2
      (by decide) (by decide)).2.1,
    (create_account_contract scenario_accounts "A" 7 (by decide) (by decide)).1 (by decide)⟩

set_option maxRecDepth 100000 in
/-- C17 at the failing input: `CREATE_ACCOUNT` twice with the same id of 40
characters. The second command is not refused; the table then holds two slots in
use with the same stored id (the first 31 characters); `find_account` reaches only
the first of them, and the id as typed finds no account. -/
theorem long_ids_are_stored_twice :
    (cmd_create_account "aaaaaaaaaaaaaaaaaaaaaaaaaaaaaaaaaaaaaaaa" 20
        (cmd_create_account "aaaaaaaaaaaaaaaaaaaaaaaaaaaaaaaaaaaaaaaa" 10 empty_ledger).1).2
        = .created ∧
      long_id_twice.accounts.take 2 =
        [{ id := "aaaaaaaaaaaaaaaaaaaaaaaaaaaaaaa", balance := 10, in_use := true },
          { id := "aaaaaaaaaaaaaaaaaaaaaaaaaaaaaaa", balance := 20, in_use := true }] ∧
      long_id_twice.account_count = 2 ∧
      find_account long_id_twice.accounts "aaaaaaaaaaaaaaaaaaaaaaaaaaaaaaa" = some 0 ∧
      cmd_balance "aaaaaaaaaaaaaaaaaaaaaaaaaaaaaaa" long_id_twice = some 10 ∧
      cmd_balance "aaaaaaaaaaaaaaaaaaaaaaaaaaaaaaaaaaaaaaaa" long_id_twice = none := by
  decide

/-- C18. Rejected engine commands are no-ops: `PROCESS` on an empty queue
returns the state as it is (accounts, queue, stack, audit log, next id and every
other field), and so does `ROLLBACK n` with `n ≤ 0`. -/
theorem rejected_commands_are_noops (s : Ledger) :
    (s.txn_queue = [] → cmd_process s = (s, .nothing_pending)) ∧
      ∀ n : Int, n ≤ 0 → cmd_rollback n s = s := by
  constructor
  · intro hq
    simp [cmd_process, hq]
  · intro n hn
    simp [cmd_rollback, hn]

set_option maxRecDepth 100000 in
theorem rejected_commands_are_noops_witness :
    cmd_process scenario_processed = (scenario_processed, .nothing_pending) ∧
      cmd_rollback (-3) scenario_processed = scenario_processed :=
  ⟨(rejected_commands_are_noops scenario_processed).1 (by decide),
    (rejected_commands_are_noops scenario_processed).2 (-3) (by decide)⟩

/-- C20. Rollback composes: for `m ≥ 1` and `n ≥ 1`, `ROLLBACK (m + n)` yields
the same state as `ROLLBACK m` followed by `ROLLBACK n`; `ROLLBACK n` is `n`
successive `ROLLBACK 1` commands; and no `ROLLBACK` changes the pending queue or
the next transaction id. -/
theorem rollback_composes (s : Ledger) (m n : Nat) (hm : 1 ≤ m) (hn : 1 ≤ n) :
    cmd_rollback (((m + n : Nat) : Int)) s = cmd_rollback (n : Int) (cmd_rollback (m : Int) s) ∧
      cmd_rollback (n : Int) s = (cmd_rollback 1)^[n] s ∧
      ∀ k : Int, (cmd_rollback k s).txn_queue = s.txn_queue ∧
        (cmd_rollback k s).next_txn_id = s.next_txn_id := by
  obtain ⟨m', rfl⟩ : ∃ m', m = m' + 1 := ⟨m - 1, by omega⟩
  obtain ⟨n', rfl⟩ : ∃ n', n = n' + 1 := ⟨n - 1, by omega⟩
  refine ⟨?_, ?_, ?_⟩
  · have : m' + 1 + (n' + 1) = (m' + n' + 1) + 1 := by omega
    rw [this, cmd_rollback_pos, cmd_rollback_pos, cmd_rollback_pos, ← this,
      rollback_loop_iterate, rollback_loop_iterate, rollback_loop_iterate,
      Nat.add_comm (m' + 1) (n' + 1), Function.iterate_add_apply]
  · rw [cmd_rollback_pos, rollback_loop_iterate]
  · intro k
    exact ⟨(cmd_rollback_frame k s).1, (cmd_rollback_frame k s).2.1⟩

set_option maxRecDepth 100000 in
theorem rollback_composes_witness :
    cmd_rollback 3 scenario_processed = cmd_rollback 2 (cmd_rollback 1 scenario_processed) :=
  (rollback_composes scenario_processed 1 2 (by decide) (by decide)).1

set_option maxRecDepth 100000 in
/-- C7 as stated fails: after `CREATE_ACCOUNT A 9223372036854775807` and
`TXN DEPOSIT A 1`, `PROCESS` succeeds and the balance of A is
-9223372036854775808, not `old + amount`: the `long long` addition overflows. -/
theorem deposit_overflow_as_stated_fails :
    cmd_balance "A" overflow_account = some 9223372036854775807 ∧
      (Machine.cmd_process (Machine.submit ["TXN", "DEPOSIT", "A", "1"] overflow_account)).2
        = .success ∧
      cmd_balance "A"
          (Machine.process_next (Machine.submit ["TXN", "DEPOSIT", "A", "1"] overflow_account))
        = some (-9223372036854775808) ∧
      ¬ cmd_balance "A"
          (Machine.process_next (Machine.submit ["TXN", "DEPOSIT", "A", "1"] overflow_account))
        = some (9223372036854775807 + 1) := by
  decide

/-- C7 amended. Effect of a successful `PROCESS` on the head `t` of the queue,
with `long long` balances: a deposit makes the balance of its account
`old + amount`, a withdrawal `old - amount`, a transfer between distinct accounts
makes the source `old - amount` and the destination `old + amount`, each whenever
that value lies in the range of `long long` (in general the stored balance is the
value reduced modulo 2^64 into that range); the balance of every account not
named by `t`, and every slot of the table other than the ones found for `t`, is
unchanged; `t` is pushed on top of the success stack and removed from the queue,
and one audit entry with status Success holding `t` is appended. -/
theorem successful_process_effect (s : Ledger) (t : Transaction) (rest : List Transaction)
    (hq : s.txn_queue = t :: rest) (hok : (Machine.cmd_process s).2 = .success) :
    (t.type = .TXN_DEPOSIT → ∃ old, cmd_balance t.from_id s = some old ∧
        cmd_balance t.from_id (Machine.process_next s) =
          some (Machine.wrap64 (old + t.amount)) ∧
        (in_range64 (old + t.amount) →
          cmd_balance t.from_id (Machine.process_next s) = some (old + t.amount))) ∧
      (t.type = .TXN_WITHDRAW → ∃ old, cmd_balance t.from_id s = some old ∧
        cmd_balance t.from_id (Machine.process_next s) =
          some (Machine.wrap64 (old - t.amount)) ∧
        (in_range64 (old - t.amount) →
          cmd_balance t.from_id (Machine.process_next s) = some (old - t.amount))) ∧
      (t.type = .TXN_TRANSFER → t.from_id ≠ t.to_id →
        ∃ a b, cmd_balance t.from_id s = some a ∧ cmd_balance t.to_id s = some b ∧
          cmd_balance t.from_id (Machine.process_next s) =
            some (Machine.wrap64 (a - t.amount)) ∧
          cmd_balance t.to_id (Machine.process_next s) =
            some (Machine.wrap64 (b + t.amount)) ∧
          (in_range64 (a - t.amount) →
            cmd_balance t.from_id (Machine.process_next s) = some (a - t.amount)) ∧
          (in_range64 (b + t.amount) →
            cmd_balance t.to_id (Machine.process_next s) = some (b + t.amount))) ∧
      (∀ id, id ≠ t.from_id → (t.type = .TXN_TRANSFER → id ≠ t.to_id) →
        cmd_balance id (Machine.process_next s) = cmd_balance id s) ∧
      (∀ j, find_account s.accounts t.from_id ≠ some j →
        (t.type = .TXN_TRANSFER → find_account s.accounts t.to_id ≠ some j) →
        (Machine.process_next s).accounts.get? j = s.accounts.get? j) ∧
      (Machine.process_next s).success_stack = t :: s.success_stack ∧
      (Machine.process_next s).txn_queue = rest ∧
      ∃ e : AuditNode, (Machine.process_next s).audit = s.audit ++ [e] ∧ e.txn = t ∧
        e.status = .AUDIT_SUCCESS := by
  obtain ⟨hout, hacc, hst, hqueue, _, _, _, msg, ha⟩ := machine_process_fields s t rest hq
  have hc : can_apply s.accounts t = true := by
    by_contra hc
    rw [hout] at hok
    simp [hc] at hok
  simp only [hc, if_true] at hacc hst ha
  have hfind : ∀ id,
      find_account (Machine.process_next s).accounts id = find_account s.accounts id := by
    intro id; rw [hacc, machine_find_account_apply_txn]
  refine ⟨?_, ?_, ?_, ?_, ?_, hst, hqueue, ?_⟩
  · intro ht
    unfold can_apply at hc
    simp only [ht] at hc
    cases hf : find_account s.accounts t.from_id with
    | none => simp [hf] at hc
    | some i =>
      have h1 : cmd_balance t.from_id (Machine.process_next s) =
          some (Machine.wrap64 (balance_at s.accounts i + t.amount)) := by
        simp only [cmd_balance, hfind, hf, Option.map_some']
        rw [hacc]
        simp only [Machine.apply_txn, ht, hf]
        rw [machine_balance_at_same _ _ _ (find_account_lt _ _ _ hf)]
      refine ⟨balance_at s.accounts i, by simp [cmd_balance, hf], h1, ?_⟩
      intro hr
      rw [h1, wrap64_in_range _ hr]
  · intro ht
    unfold can_apply at hc
    simp only [ht] at hc
    cases hf : find_account s.accounts t.from_id with
    | none => simp [hf] at hc
    | some i =>
      have h1 : cmd_balance t.from_id (Machine.process_next s) =
          some (Machine.wrap64 (balance_at s.accounts i - t.amount)) := by
        simp only [cmd_balance, hfind, hf, Option.map_some']
        rw [hacc]
        simp only [Machine.apply_txn, ht, hf]
        rw [machine_balance_at_same _ _ _ (find_account_lt _ _ _ hf)]
        rfl
      refine ⟨balance_at s.accounts i, by simp [cmd_balance, hf], h1, ?_⟩
      intro hr
      rw [h1, wrap64_in_range _ hr]
  · intro ht hne
    unfold can_apply at hc
    simp only [ht] at hc
    cases hf : find_account s.accounts t.from_id with
    | none => simp [hf] at hc
    | some i =>
      cases hg : find_account s.accounts t.to_id with
      | none => simp [hf, hg] at hc
      | some j =>
        have hij : i ≠ j := find_account_ne _ _ _ _ _ hf hg hne
        have h1 : cmd_balance t.from_id (Machine.process_next s) =
            some (Machine.wrap64 (balance_at s.accounts i - t.amount)) := by
          simp only [cmd_balance, hfind, hf, Option.map_some']
          rw [hacc]
          simp only [Machine.apply_txn, ht, hf, hg]
          rw [machine_balance_at_ne _ _ _ _ (Ne.symm hij),
            machine_balance_at_same _ _ _ (find_account_lt _ _ _ hf)]
          rfl
        have h2 : cmd_balance t.to_id (Machine.process_next s) =
            some (Machine.wrap64 (balance_at s.accounts j + t.amount)) := by
          simp only [cmd_balance, hfind, hg, Option.map_some']
          rw [hacc]
          simp only [Machine.apply_txn, ht, hf, hg]
          rw [machine_balance_at_same _ _ _
              (by rw [machine_add_balance_length]; exact find_account_lt _ _ _ hg),
            machine_balance_at_ne _ _ _ _ hij]
        refine ⟨balance_at s.accounts i, balance_at s.accounts j,
          by simp [cmd_balance, hf], by simp [cmd_balance, hg], h1, h2, ?_, ?_⟩
        · intro hr
          rw [h1, wrap64_in_range _ hr]
        · intro hr
          rw [h2, wrap64_in_range _ hr]
  · intro id h1 h2
    simp only [cmd_balance, hfind]
    cases hf : find_account s.accounts id with
    | none => rfl
    | some j =>
      simp only [Option.map_some']
      congr 1
      apply balance_at_congr_slot
      rw [hacc]
      apply machine_slot_apply_txn
      · intro h
        obtain ⟨a, ha1, _, ha2⟩ := find_account_get _ _ _ hf
        obtain ⟨b, hb1, _, hb2⟩ := find_account_get _ _ _ h
        rw [ha1] at hb1
        injection hb1 with hab
        subst hab
        exact h1 (ha2.symm.trans hb2)
      · intro ht h
        obtain ⟨a, ha1, _, ha2⟩ := find_account_get _ _ _ hf
        obtain ⟨b, hb1, _, hb2⟩ := find_account_get _ _ _ h
        rw [ha1] at hb1
        injection hb1 with hab
        subst hab
        exact h2 ht (ha2.symm.trans hb2)
  · intro j h1 h2
    rw [hacc]
    exact machine_slot_apply_txn _ _ _ h1 h2
  · exact ⟨_, ha, rfl, rfl⟩

set_option maxRecDepth 100000 in
theorem successful_process_effect_witness :
    (∃ old, cmd_balance "A" machine_scenario_submitted = some old ∧
      cmd_balance "A" (Machine.process_next machine_scenario_submitted) =
        some (Machine.wrap64 (old + 50)) ∧
      (in_range64 (old + 50) →
        cmd_balance "A" (Machine.process_next machine_scenario_submitted) =
          some (old + 50))) ∧
      cmd_balance "A" machine_scenario_submitted = some 100 ∧
      cmd_balance "A" (Machine.process_next machine_scenario_submitted) = some 150 :=
  ⟨(successful_process_effect machine_scenario_submitted
    { txn_id := 1, type := .TXN_DEPOSIT, from_id := "A", to_id := "", amount := 50 } _
    rfl (by decide)).1 rfl, by decide, by decide⟩

set_option maxRecDepth 100000 in
/-- C9 as stated fails: when `next_txn_id` has gone round the 32-bit range and
two Success entries carry the id 1, with the deposit of 2 on top of the stack,
`ROLLBACK 1` leaves the entry that recorded the deposit of 2 (sequence number 2)
at Success and amends the entry of the other transaction (sequence number 1). -/
theorem rollback_entry_as_stated_fails :
    repeated_id_state.success_stack.head? =
        some { txn_id := 1, type := .TXN_DEPOSIT, from_id := "A", to_id := "", amount := 2 } ∧
      repeated_id_state.audit.map (fun e => (e.index, e.txn.amount, e.status)) =
        [(1, 1, .AUDIT_SUCCESS), (2, 2, .AUDIT_SUCCESS)] ∧
      (Machine.cmd_rollback 1 repeated_id_state).audit.map
          (fun e => (e.index, e.txn.amount, e.status)) =
        [(1, 1, .AUDIT_ROLLED_BACK), (2, 2, .AUDIT_SUCCESS)] := by
  unfold repeated_id_state
  rw [machine_rejected_lines 4294967294]
  decide

/-- C9 amended. Rollback amends exactly one audit entry while the `int` id
counter has not handed out an id twice: in every state reached from the start
state by commands with at most 4294967296 `TXN` lines, with `t` on top of the success
stack, the audit log is `pre ++ e :: post` where `e` holds `t` with status Success
and no other entry carries the id of `t`, and `ROLLBACK 1` turns the log into
`pre ++ e2 :: post` where `e2` is `e` with status RolledBack and the note
`Rolled back transaction <id of t>` as `snprintf` writes it into the 128-byte
buffer (sequence number and transaction unchanged); the length of the log is
unchanged. In any state, `mark_rolled_back` amends the first entry with the given
id and status Success, writing that note, and is a no-op when there is none. -/
theorem rollback_amends_one_entry (n : Nat) (s : Ledger)
    (hr : Machine.Run empty_ledger n s) (hn : n ≤ MAX_ID_LINES)
    (t : Transaction) (rest : List Transaction) (hs : s.success_stack = t :: rest) :
    (∃ pre e post, s.audit = pre ++ e :: post ∧ e.txn = t ∧ e.status = .AUDIT_SUCCESS ∧
        (∀ x ∈ pre ++ post, x.txn.txn_id ≠ t.txn_id) ∧
        (Machine.cmd_rollback 1 s).audit =
          pre ++ { e with
            status := .AUDIT_ROLLED_BACK
            message := copy_str MSG_LEN ("Rolled back transaction " ++ toString t.txn_id) }
            :: post) ∧
      (Machine.cmd_rollback 1 s).audit.length = s.audit.length ∧
      (Machine.cmd_rollback 1 s).audit_count = s.audit_count ∧
      ∀ (s₀ : Ledger) (id : Int),
        ((∀ x ∈ s₀.audit, ¬ (x.txn.txn_id = id ∧ x.status = .AUDIT_SUCCESS)) →
          mark_rolled_back id s₀ = s₀) ∧
        ∀ pre e post, s₀.audit = pre ++ e :: post →
          (∀ x ∈ pre, ¬ (x.txn.txn_id = id ∧ x.status = .AUDIT_SUCCESS)) →
          e.txn.txn_id = id → e.status = .AUDIT_SUCCESS →
          mark_rolled_back id s₀ =
            { s₀ with audit := pre ++ { e with
                status := .AUDIT_ROLLED_BACK
                message := copy_str MSG_LEN ("Rolled back transaction " ++ toString id) }
                :: post } := by
  obtain ⟨N, _, hd⟩ := run_distinct n s hr hn
  obtain ⟨pre, e, post, hl, het, hes, hpre, hpost, _, _⟩ :=
    top_entry_of_history s hd.history hd.ids_nodup t rest hs
  have hrb : Machine.cmd_rollback 1 s =
      Machine.rollback_txn t { s with success_stack := rest } := by
    rw [machine_cmd_rollback_one, machine_rollback_loop_cons 0 s t rest hs]; rfl
  have hf := machine_rollback_txn_fields t { s with success_stack := rest }
  simp only at hf
  refine ⟨⟨pre, e, post, hl, het, hes, ?_, ?_⟩, ?_, ?_, ?_⟩
  · intro x hx
    rcases List.mem_append.1 hx with hx | hx
    · exact hpre x hx
    · exact hpost x hx
  · rw [hrb, hf.2.2.2.2.1, hl]
    exact mark_nodes_first_match pre post e t.txn_id (fun x hx h => hpre x hx h.1)
      (by rw [het]) hes
  · rw [hrb, hf.2.2.2.2.1, mark_nodes_length]
  · rw [hrb, hf.2.2.2.2.2.1]
  · intro s₀ id
    constructor
    · intro h
      unfold mark_rolled_back
      rw [mark_nodes_no_match _ _ h]
    · intro pre e post hl hpre hid hst
      unfold mark_rolled_back
      rw [hl, mark_nodes_first_match pre post e id hpre hid hst]
      rfl

set_option maxRecDepth 100000 in
theorem rollback_amends_one_entry_witness :
    (Machine.cmd_rollback 1 machine_scenario_processed).audit.length =
        machine_scenario_processed.audit.length ∧
      (Machine.cmd_rollback 1 machine_scenario_processed).audit.map
          (fun e => (e.status, e.message)) =
        [(.AUDIT_SUCCESS, "Balance: 150"), (.AUDIT_SUCCESS, "Balance: 120"),
          (.AUDIT_ROLLED_BACK, "Rolled back transaction 3")] :=
  ⟨(rollback_amends_one_entry 3 machine_scenario_processed machine_scenario_run (by decide)
      { txn_id := 3, type := .TXN_TRANSFER, from_id := "A", to_id := "B", amount := 40 } _
      rfl).2.1, by decide⟩

set_option maxRecDepth 100000 in
/-- C12 as stated fails: when `next_txn_id` has gone round the 32-bit range, a
second successful deposit carries the id of the first; `ROLLBACK 1` pops the
second but amends the audit entry of the first, so the Success entries (the
deposit of 2) are no longer the transactions of the success stack (the deposit
of 1). -/
theorem history_as_stated_fails :
    ((Machine.cmd_rollback 1 repeated_id_state).audit.filter
        (fun e => e.status = .AUDIT_SUCCESS)).map (fun e => e.txn) =
        [{ txn_id := 1, type := .TXN_DEPOSIT, from_id := "A", to_id := "", amount := 2 }] ∧
      (Machine.cmd_rollback 1 repeated_id_state).success_stack.reverse =
        [{ txn_id := 1, type := .TXN_DEPOSIT, from_id := "A", to_id := "", amount := 1 }] ∧
      ¬ ((Machine.cmd_rollback 1 repeated_id_state).audit.filter
          (fun e => e.status = .AUDIT_SUCCESS)).map (fun e => e.txn) =
        (Machine.cmd_rollback 1 repeated_id_state).success_stack.reverse := by
  unfold repeated_id_state
  rw [machine_rejected_lines 4294967294]
  decide

/-- C12 amended. Audit log and success history stay consistent while the `int`
id counter has not handed out an id twice: in every state reached from the start
state by commands with at most 4294967296 `TXN` lines, the transactions of the Success
entries of the audit log, in ascending sequence order, are the transactions of
the success stack from oldest to most recent, and no transaction on the stack
carries the id of a RolledBack entry; along any further commands a RolledBack
entry and a Fail entry stay exactly as they are, while any entry keeps its
position, sequence number and transaction and changes status only from Success
to RolledBack. -/
theorem audit_history_consistent (n : Nat) (s : Ledger) (hr : Machine.Run empty_ledger n s)
    (hn : n ≤ MAX_ID_LINES) :
    (s.audit.filter (fun e => e.status = .AUDIT_SUCCESS)).map (fun e => e.txn) =
        s.success_stack.reverse ∧
      (∀ e ∈ s.audit, e.status = .AUDIT_ROLLED_BACK →
        ∀ t ∈ s.success_stack, t.txn_id ≠ e.txn.txn_id) ∧
      ∀ (k : Nat) (s₁ : Ledger), Machine.Run s k s₁ →
        ∀ (i : Nat) (e : AuditNode), s.audit[i]? = some e →
        (e.status = .AUDIT_ROLLED_BACK → s₁.audit[i]? = some e) ∧
        (e.status = .AUDIT_FAIL → s₁.audit[i]? = some e) ∧
        ∃ e₁, s₁.audit[i]? = some e₁ ∧ e₁.txn = e.txn ∧ e₁.index = e.index ∧
          (e₁.status = e.status ∨
            (e.status = .AUDIT_SUCCESS ∧ e₁.status = .AUDIT_ROLLED_BACK)) := by
  obtain ⟨N, _, hd⟩ := run_distinct n s hr hn
  refine ⟨hd.history, ?_, ?_⟩
  · intro e he hst t ht hid
    have ht2 : t ∈ (s.audit.filter (fun e => e.status = .AUDIT_SUCCESS)).map (fun e => e.txn) := by
      rw [hd.history]; exact List.mem_reverse.2 ht
    obtain ⟨e₂, he₂, rfl⟩ := List.mem_map.1 ht2
    obtain ⟨he₂m, he₂s⟩ := List.mem_filter.1 he₂
    have := List.inj_on_of_nodup_map hd.ids_nodup he₂m he hid
    subst this
    simp [hst] at he₂s
  · intro k s₁ hrun i e hi
    obtain ⟨e₁, h1, h2⟩ := machine_run_entry k s s₁ hrun i e hi
    unfold amended_or_same at h2
    refine ⟨?_, ?_, e₁, h1, ?_⟩
    · intro hst
      rcases h2 with rfl | ⟨hs, _⟩
      · exact h1
      · rw [hst] at hs; cases hs
    · intro hst
      rcases h2 with rfl | ⟨hs, _⟩
      · exact h1
      · rw [hst] at hs; cases hs
    · rcases h2 with rfl | ⟨hs, rfl⟩
      · exact ⟨rfl, rfl, Or.inl rfl⟩
      · exact ⟨rfl, rfl, Or.inr ⟨hs, rfl⟩⟩

set_option maxRecDepth 100000 in
theorem audit_history_consistent_witness :
    ((Machine.cmd_rollback 1 machine_scenario_processed).audit.filter
        (fun e => e.status = .AUDIT_SUCCESS)).map (fun e => e.txn) =
      (Machine.cmd_rollback 1 machine_scenario_processed).success_stack.reverse ∧
      (Machine.cmd_rollback 1 machine_scenario_processed).success_stack.length = 2 :=
  ⟨(audit_history_consistent 3 (Machine.cmd_rollback 1 machine_scenario_processed)
      (Machine.Run.rollback _ _ 1 machine_scenario_run) (by decide)).1, by decide⟩

set_option maxRecDepth 100000 in
/-- C14 as stated fails: after 2147483646 `TXN` lines rejected for their format
(`TXN DEPOSIT A 1 B`, each of which increments `next_txn_id`) and two accepted
lines, the queue holds the ids 2147483647 and -2147483648 in that order: the ids
do not increase from front to rear and are not all smaller than the next id. -/
theorem ids_as_stated_fail :
    wrapped_ids.txn_queue.map (fun t => t.txn_id) = [2147483647, -2147483648] ∧
      ¬ wrapped_ids.txn_queue.Pairwise (fun a b => a.txn_id < b.txn_id) ∧
      ¬ ∀ t ∈ wrapped_ids.txn_queue, t.txn_id < wrapped_ids.next_txn_id := by
  unfold wrapped_ids
  rw [machine_rejected_lines 2147483645 empty_ledger]
  decide

/-- C14 amended. Transaction ids are unique and increasing while the `int`
counter has not overflowed: in every state reached from the start state by
commands with at most 2147483646 `TXN` lines, the ids in the pending queue
increase strictly from front to rear and are smaller than `next_txn_id`, the ids
in the audit log are pairwise distinct and smaller than every id in the queue
(and than `next_txn_id`), and a queued submission receives `next_txn_id`, which is
smaller than the id of every submission queued after further commands within the
same bound: no id is given to two submissions. -/
theorem transaction_ids_unique (n : Nat) (s : Ledger) (hr : Machine.Run empty_ledger n s)
    (hn : n ≤ Machine.MAX_TXN_LINES) :
    s.txn_queue.Pairwise (fun a b => a.txn_id < b.txn_id) ∧
      (∀ t ∈ s.txn_queue, t.txn_id < s.next_txn_id) ∧
      (s.audit.map (fun e => e.txn.txn_id)).Nodup ∧
      (∀ e ∈ s.audit, ∀ t ∈ s.txn_queue, e.txn.txn_id < t.txn_id) ∧
      (∀ e ∈ s.audit, e.txn.txn_id < s.next_txn_id) ∧
      ∀ tokens₁ id₁, (Machine.cmd_txn tokens₁ s).2 = .queued id₁ →
        id₁ = s.next_txn_id ∧
        ∀ (k : Nat) (s₂ : Ledger), Machine.Run (Machine.cmd_txn tokens₁ s).1 k s₂ →
          n + 1 + k ≤ Machine.MAX_TXN_LINES →
          ∀ tokens₂ id₂, (Machine.cmd_txn tokens₂ s₂).2 = .queued id₂ → id₁ < id₂ := by
  have hw := reachable_within n s hr hn
  have hc := hw.consistent
  refine ⟨hc.queue_sorted, hc.queue_lt_next, hc.ids_nodup, hc.audit_lt_queue,
    hc.audit_lt_next, ?_⟩
  intro tokens₁ id₁ h₁
  obtain ⟨e₁, n₁⟩ := machine_cmd_txn_queued tokens₁ s id₁ h₁
  refine ⟨e₁, ?_⟩
  intro k s₂ hrun hb tokens₂ id₂ h₂
  obtain ⟨e₂, _⟩ := machine_cmd_txn_queued tokens₂ s₂ id₂ h₂
  have hpos := hw.next_pos
  have hle := hw.next_le
  unfold Machine.MAX_TXN_LINES at hb hn
  have hwrap : Machine.wrap32 (s.next_txn_id + 1) = s.next_txn_id + 1 := by
    apply wrap32_of_range
    · unfold Machine.INT_MIN; omega
    · unfold Machine.INT_MAX; omega
  rw [hwrap] at n₁
  have := run_next_id k _ s₂ hrun (by rw [n₁]; omega)
    (by rw [n₁]; unfold Machine.INT_MAX; omega)
  omega

set_option maxRecDepth 100000 in
theorem transaction_ids_unique_witness :
    machine_scenario_submitted.txn_queue.Pairwise (fun a b => a.txn_id < b.txn_id) ∧
      machine_scenario_submitted.txn_queue.map (fun t => t.txn_id) = [1, 2, 3] ∧
      machine_scenario_submitted.next_txn_id = 4 :=
  ⟨(transaction_ids_unique 3 machine_scenario_submitted
      (Machine.Run.txn _ _ _ (Machine.Run.txn _ _ _ (Machine.Run.txn _ _ _
        (Machine.Run.create _ _ _ _ (Machine.Run.create _ _ _ _ Machine.Run.refl)))))
      (by decide)).1,
    by decide, by decide⟩

set_option maxRecDepth 100000 in
/-- C19 as stated fails: after `CREATE_ACCOUNT A 9223372036854775807` and
`TXN WITHDRAW A -1`, `PROCESS` succeeds, but the balance of A becomes
-9223372036854775808, which is neither `b - a` nor greater than `b`: the
`long long` subtraction overflows. -/
theorem negative_withdraw_as_stated_fails :
    cmd_balance "A" overflow_withdraw = some 9223372036854775807 ∧
      overflow_withdraw.txn_queue =
        [{ txn_id := 1, type := .TXN_WITHDRAW, from_id := "A", to_id := "", amount := -1 }] ∧
      (Machine.cmd_process overflow_withdraw).2 = .success ∧
      cmd_balance "A" (Machine.process_next overflow_withdraw) = some (-9223372036854775808) ∧
      ¬ cmd_balance "A" (Machine.process_next overflow_withdraw)
        = some (9223372036854775807 - (-1)) ∧
      ¬ (9223372036854775807 : Int) < -9223372036854775808 := by
  decide

/-- C19 amended. Negative amounts invert the semantics, with `long long`
balances: `TXN WITHDRAW <account> -100` is queued with amount -100, and so is
every well-formed line with a negative amount; for a queue head `t` with a
negative amount `a` whose account exists with balance `b ≥ 0`, a withdrawal
succeeds and, when `b - a` does not exceed `LLONG_MAX`, leaves `b - a`, which is
greater than `b` (in general it leaves `b - a` reduced modulo 2^64); a deposit
succeeds and leaves `b + a`, which is smaller than `b` and negative when
`b < -a`. -/
theorem negative_amounts_invert (s : Ledger) :
    (∀ account : String,
      Machine.cmd_txn ["TXN", "WITHDRAW", account, "-100"] s =
        (enqueue { txn_id := s.next_txn_id, type := .TXN_WITHDRAW,
                   from_id := copy_str MAX_ID_LEN account, to_id := "", amount := -100 }
          { s with next_txn_id := Machine.wrap32 (s.next_txn_id + 1) },
          .queued s.next_txn_id)) ∧
      (∀ tokens, well_formed tokens →
        (Machine.submitted_txn s.next_txn_id tokens).amount < 0 →
        (Machine.cmd_txn tokens s).2 = .queued s.next_txn_id ∧
          (Machine.cmd_txn tokens s).1.txn_queue =
            s.txn_queue ++ [Machine.submitted_txn s.next_txn_id tokens]) ∧
      ∀ (t : Transaction) (rest : List Transaction) (b : Int),
        s.txn_queue = t :: rest → cmd_balance t.from_id s = some b → 0 ≤ b → t.amount < 0 →
        in_range64 b → in_range64 t.amount →
        (t.type = .TXN_WITHDRAW →
          (Machine.cmd_process s).2 = .success ∧
            cmd_balance t.from_id (Machine.process_next s) =
              some (Machine.wrap64 (b - t.amount)) ∧
            (b - t.amount ≤ Machine.LLONG_MAX →
              cmd_balance t.from_id (Machine.process_next s) = some (b - t.amount) ∧
                b < b - t.amount)) ∧
        (t.type = .TXN_DEPOSIT →
          (Machine.cmd_process s).2 = .success ∧
            cmd_balance t.from_id (Machine.process_next s) = some (b + t.amount) ∧
            b + t.amount < b ∧ (b < - t.amount → b + t.amount < 0)) := by
  refine ⟨?_, ?_, ?_⟩
  · intro account
    have hw : well_formed ["TXN", "WITHDRAW", account, "-100"] := by
      simp [well_formed, parse_type]
    rw [machine_cmd_txn_well_formed _ s hw]
    have : Machine.atoll "-100" = -100 := by decide
    simp [Machine.submitted_txn, parse_type, this]
  · intro tokens hw _
    rw [machine_cmd_txn_well_formed tokens s hw]
    exact ⟨rfl, rfl⟩
  · intro t rest b hq hbal hb ha hrb hra
    unfold in_range64 Machine.LLONG_MIN Machine.LLONG_MAX at hrb hra
    constructor
    · intro ht
      obtain ⟨h1, h2⟩ := machine_process_withdraw_found s t rest b hq ht hbal (by omega)
      refine ⟨h1, h2, ?_⟩
      intro hmax
      unfold Machine.LLONG_MAX at hmax
      rw [h2, wrap64_of_range _ (by unfold Machine.LLONG_MIN; omega)
        (by unfold Machine.LLONG_MAX; omega)]
      exact ⟨rfl, by omega⟩
    · intro ht
      obtain ⟨h1, h2⟩ := machine_process_deposit_found s t rest b hq ht hbal
      rw [wrap64_of_range _ (by unfold Machine.LLONG_MIN; omega)
        (by unfold Machine.LLONG_MAX; omega)] at h2
      exact ⟨h1, h2, by omega, fun h => by omega⟩

set_option maxRecDepth 100000 in
theorem negative_amounts_invert_witness :
    ((Machine.cmd_process negative_withdraw_state).2 = .success ∧
      cmd_balance "A" (Machine.process_next negative_withdraw_state) =
        some (Machine.wrap64 (100 - (-100))) ∧
      ((100 : Int) - (-100) ≤ Machine.LLONG_MAX →
        cmd_balance "A" (Machine.process_next negative_withdraw_state) =
            some (100 - (-100)) ∧
          (100 : Int) < 100 - (-100))) ∧
      cmd_balance "A" (Machine.process_next negative_withdraw_state) = some 200 :=
  ⟨((negative_amounts_invert negative_withdraw_state).2.2
    { txn_id := 1, type := .TXN_WITHDRAW, from_id := "A", to_id := "", amount := -100 } []
    100 rfl (by decide) (by decide) (by decide) (by decide) (by decide)).1 rfl, by decide⟩

end BankLedger
